import Mathlib

/-!
Shallow embedding of `moniker/examples/stlc_data.rs`: a simply typed lambda
calculus with records, variants, literals and pattern matching, together with
its capture-avoiding substitution, structural pattern matcher, call-by-value
evaluator and bidirectional type checker.

The binding representation (`FreeVar`, `Var`, `Scope` together with `bind` /
`unbind` and the process-wide fresh-token allocator) lives in the `moniker`
library, whose source is not part of this repository snapshot; those parts are
modelled from the specification (locally nameless representation, positional
bound coordinates, globally fresh token generation).  The fresh-token
allocator is represented by an explicit counter threaded through every
operation that can call `unbind`; a freshly generated token is `FreeVar.gen c`
where `c` is the current counter value.  Because the evaluator of the source
is genuinely partial on ill-typed input, it is embedded with a fuel
parameter; fuel exhaustion is `none`.
-/

namespace Stlc

/-- Modelled from the spec: a `FreeVar` is a globally unique identity token,
either originating directly from user input or generated by the fresh-token
allocator (`gen i` is the token produced when the allocator counter was `i`).
Equality is by token. -/
inductive FreeVar
  | user (name : String)
  | gen (id : Nat)
deriving DecidableEq, Repr

/-- Modelled from the spec: a variable reference is either `free` (identity
based) or `bound` (positional: scope depth offset and binder index, resolved
against the nearest enclosing scopes). -/
inductive Var
  | free (fv : FreeVar)
  | bound (depth : Nat) (index : Nat)
deriving DecidableEq, Repr

/-- Equality test used by `RcExpr::substs`: `var == name` where `name` is a
`FreeVar`.  A bound variable never equals a free-variable name. -/
def varEqFree : Var → FreeVar → Bool
  | .free fv, n => fv = n
  | .bound _ _, _ => false

/-- Model of `f32` restricted to what the source uses: equality.  A value is
either a NaN payload (never equal to anything, including itself) or a finite
value given by sign and magnitude code; the two zeroes (magnitude `0`) are
equal regardless of sign, all other finite values are equal exactly when
their representations coincide. -/
inductive Float32
  | nan (bits : Nat)
  | fin (sign : Bool) (mag : Nat)
deriving DecidableEq, Repr

/-- IEEE-style partial-equality on the `f32` model (used by the derived
`PartialEq` on `Literal`). -/
def Float32.peq : Float32 → Float32 → Bool
  | .fin s₁ m₁, .fin s₂ m₂ => (m₁ = 0 && m₂ = 0) || (s₁ = s₂ && m₁ = m₂)
  | _, _ => false

/-- Literal values: `Literal` in the source (`i32`, `f32`, `String`). -/
inductive Literal
  | int (n : Int)
  | float (f : Float32)
  | str (s : String)
deriving DecidableEq, Repr

/-- The derived `PartialEq` on `Literal`: same variant and equal payloads,
with `f32` payloads compared by IEEE equality. -/
def litEq : Literal → Literal → Bool
  | .int a, .int b => a = b
  | .float a, .float b => a.peq b
  | .str a, .str b => a = b
  | _, _ => false

/-- Types: `Type` in the source. -/
inductive Ty
  | int
  | float
  | str
  | arrow (dom cod : Ty)
  | record (fields : List (String × Ty))
  | variant (fields : List (String × Ty))
deriving Repr

mutual

/-- `RcType::term_eq`: structural equality of types (types contain no
binders, so alpha-equivalence on them is plain structural equality). -/
def tyEq : Ty → Ty → Bool
  | .int, .int => true
  | .float, .float => true
  | .str, .str => true
  | .arrow a b, .arrow a' b' => tyEq a a' && tyEq b b'
  | .record fs, .record fs' => tyFieldsEq fs fs'
  | .variant fs, .variant fs' => tyFieldsEq fs fs'
  | _, _ => false

/-- Field lists compare by length, labels and componentwise `term_eq`. -/
def tyFieldsEq : List (String × Ty) → List (String × Ty) → Bool
  | [], [] => true
  | (l, t) :: fs, (l', t') :: fs' => l = l' && tyEq t t' && tyFieldsEq fs fs'
  | _, _ => false

end

/-- Patterns: `Pattern` in the source.  `binder` holds the `FreeVar` carried
by a `Binder` site. -/
inductive Pattern
  | ann (p : Pattern) (ty : Ty)
  | lit (l : Literal)
  | binder (fv : FreeVar)
  | record (fields : List (String × Pattern))
  | tag (label : String) (p : Pattern)
deriving Repr

/-- Expressions: `Expr` in the source.  A `Scope<RcPattern, RcExpr>` is
embedded as its two components `unsafe_pattern` / `unsafe_body`, so `lam p b`
is `Lam(Scope { unsafe_pattern: p, unsafe_body: b })` and each element of a
`case'` clause list is one clause scope. -/
inductive Expr
  | ann (e : Expr) (ty : Ty)
  | lit (l : Literal)
  | var (v : Var)
  | lam (p : Pattern) (b : Expr)
  | app (f : Expr) (a : Expr)
  | record (fields : List (String × Expr))
  | proj (e : Expr) (label : String)
  | tag (label : String) (e : Expr)
  | case' (scrut : Expr) (clauses : List (Pattern × Expr))
deriving Repr

mutual

/-- The binder sites of a pattern, in left-to-right occurrence order
(`Binder` collection order of the moniker derive). -/
def Pattern.binders : Pattern → List FreeVar
  | .ann p _ => p.binders
  | .lit _ => []
  | .binder fv => [fv]
  | .record fs => bindersFields fs
  | .tag _ p => p.binders

/-- Binders of a record-pattern field list, in field order. -/
def bindersFields : List (String × Pattern) → List FreeVar
  | [] => []
  | (_, p) :: fs => p.binders ++ bindersFields fs

end

mutual

/-- Modelled from the spec: the freshening half of `unbind` — replace each
binder site of the pattern, in left-to-right order, by the next token of the
supply `vs`, returning the renamed pattern and the unconsumed supply. -/
def renameP : List FreeVar → Pattern → Pattern × List FreeVar
  | vs, .ann p ty =>
    let r := renameP vs p
    (.ann r.1 ty, r.2)
  | vs, .lit l => (.lit l, vs)
  | vs, .binder fv =>
    match vs with
    | [] => (.binder fv, [])
    | v :: vs' => (.binder v, vs')
  | vs, .record fs =>
    let r := renameFields vs fs
    (.record r.1, r.2)
  | vs, .tag l p =>
    let r := renameP vs p
    (.tag l r.1, r.2)

/-- Freshening of a record-pattern field list. -/
def renameFields : List FreeVar → List (String × Pattern) → List (String × Pattern) × List FreeVar
  | vs, [] => ([], vs)
  | vs, (l, p) :: fs =>
    let r := renameP vs p
    let r' := renameFields r.2 fs
    ((l, r.1) :: r'.1, r'.2)

end

mutual

/-- Modelled from the spec: `open` — replace bound references `bound d i`
pointing at the scope being opened (`d` matches the traversal depth) by the
free variable `vs[i]`; the depth increments under each nested scope.
Out-of-range indices are left untouched. -/
def openE (d : Nat) (vs : List FreeVar) : Expr → Expr
  | .ann e ty => .ann (openE d vs e) ty
  | .lit l => .lit l
  | .var (.free fv) => .var (.free fv)
  | .var (.bound d' i) =>
    if d' = d then
      match vs[i]? with
      | some fv => .var (.free fv)
      | none => .var (.bound d' i)
    else .var (.bound d' i)
  | .lam p b => .lam p (openE (d + 1) vs b)
  | .app f a => .app (openE d vs f) (openE d vs a)
  | .record fs => .record (openFields d vs fs)
  | .proj e l => .proj (openE d vs e) l
  | .tag l e => .tag l (openE d vs e)
  | .case' s cls => .case' (openE d vs s) (openClauses d vs cls)

/-- `open` on record fields. -/
def openFields (d : Nat) (vs : List FreeVar) : List (String × Expr) → List (String × Expr)
  | [] => []
  | (l, e) :: fs => (l, openE d vs e) :: openFields d vs fs

/-- `open` on case clauses: each clause is a scope, so the depth increments
for its body while its pattern is untouched. -/
def openClauses (d : Nat) (vs : List FreeVar) : List (Pattern × Expr) → List (Pattern × Expr)
  | [] => []
  | (p, b) :: cls => (p, openE (d + 1) vs b) :: openClauses d vs cls

end

mutual

/-- Modelled from the spec: `close` (`bind` / `Scope::new`) — replace free
occurrences of the binder tokens `vs` by positional references
`bound d (index in vs)`; the depth increments under each nested scope. -/
def closeE (d : Nat) (vs : List FreeVar) : Expr → Expr
  | .ann e ty => .ann (closeE d vs e) ty
  | .lit l => .lit l
  | .var (.free fv) =>
    match vs.findIdx? (fun v => v = fv) with
    | some i => .var (.bound d i)
    | none => .var (.free fv)
  | .var (.bound d' i) => .var (.bound d' i)
  | .lam p b => .lam p (closeE (d + 1) vs b)
  | .app f a => .app (closeE d vs f) (closeE d vs a)
  | .record fs => .record (closeFields d vs fs)
  | .proj e l => .proj (closeE d vs e) l
  | .tag l e => .tag l (closeE d vs e)
  | .case' s cls => .case' (closeE d vs s) (closeClauses d vs cls)

/-- `close` on record fields. -/
def closeFields (d : Nat) (vs : List FreeVar) : List (String × Expr) → List (String × Expr)
  | [] => []
  | (l, e) :: fs => (l, closeE d vs e) :: closeFields d vs fs

/-- `close` on case clauses. -/
def closeClauses (d : Nat) (vs : List FreeVar) : List (Pattern × Expr) → List (Pattern × Expr)
  | [] => []
  | (p, b) :: cls => (p, closeE (d + 1) vs b) :: closeClauses d vs cls

end

/-- `Scope::new(pattern, body)`: close the body over the pattern's binders. -/
def bindScope (p : Pattern) (b : Expr) : Pattern × Expr :=
  (p, closeE 0 p.binders b)

/-- The tokens generated by `k` consecutive draws from the allocator when its
counter is `c`. -/
def freshVars (c k : Nat) : List FreeVar :=
  (List.range k).map (fun i => .gen (c + i))

/-- Modelled from the spec: `unbind` — freshen every binder of the stored
pattern with newly allocated tokens and open the stored body with them,
returning the opened pattern, body and the advanced allocator counter. -/
def unbindS (c : Nat) (p : Pattern) (b : Expr) : Pattern × Expr × Nat :=
  let k := p.binders.length
  let vs := freshVars c k
  ((renameP vs p).1, openE 0 vs b, c + k)

mutual

/-- `RcExpr::substs`: simultaneous substitution of expressions for free
variables.  A variable is replaced by the payload of the first mapping whose
name it equals; scope bodies are substituted under, scope patterns are left
untouched. -/
def substsE (ms : List (FreeVar × Expr)) : Expr → Expr
  | .ann e ty => .ann (substsE ms e) ty
  | .var v =>
    match ms.find? (fun m => varEqFree v m.1) with
    | some m => m.2
    | none => .var v
  | .lit l => .lit l
  | .lam p b => .lam p (substsE ms b)
  | .app f a => .app (substsE ms f) (substsE ms a)
  | .record fs => .record (substsFields ms fs)
  | .proj e l => .proj (substsE ms e) l
  | .tag l e => .tag l (substsE ms e)
  | .case' s cls => .case' (substsE ms s) (substsClauses ms cls)

/-- `substs` mapped over record fields (labels kept). -/
def substsFields (ms : List (FreeVar × Expr)) : List (String × Expr) → List (String × Expr)
  | [] => []
  | (l, e) :: fs => (l, substsE ms e) :: substsFields ms fs

/-- `substs` mapped over case clauses: `unsafe_pattern` cloned unchanged,
`unsafe_body` substituted. -/
def substsClauses (ms : List (FreeVar × Expr)) : List (Pattern × Expr) → List (Pattern × Expr)
  | [] => []
  | (p, b) :: cls => (p, substsE ms b) :: substsClauses ms cls

end

mutual

/-- `match_expr`: if the pattern matches the (already evaluated) expression,
the substitutions needed to apply the pattern to a body, in binder order. -/
def matchE : Pattern → Expr → Option (List (FreeVar × Expr))
  | .ann p _, e => matchE p e
  | .lit pl, .lit el => if litEq pl el then some [] else none
  | .binder fv, e => some [(fv, e)]
  | .record pfs, .record efs =>
    if pfs.length = efs.length then matchFields pfs efs else none
  | .tag pl p, .tag el e => if pl = el then matchE p e else none
  | _, _ => none

/-- The field loop of `match_expr` on records: labels must agree in order,
per-field bindings are concatenated, any failure short-circuits.  Only called
on lists of equal length. -/
def matchFields : List (String × Pattern) → List (String × Expr) → Option (List (FreeVar × Expr))
  | [], [] => some []
  | (pl, p) :: pfs, (el, e) :: efs =>
    if pl = el then
      match matchE p e with
      | none => none
      | some m =>
        match matchFields pfs efs with
        | none => none
        | some ms => some (m ++ ms)
    else none
  | _, _ => none

end

/-- The record-field loop of `eval`: evaluate every field left to right,
using `ev` (one fuel layer below) for the recursive `eval` calls. -/
def evalFieldsGo (ev : Nat → Expr → Option (Expr × Nat)) :
    Nat → List (String × Expr) → Option (List (String × Expr) × Nat)
  | c, [] => some ([], c)
  | c, (l, e) :: fs =>
    match ev c e with
    | none => none
    | some (v, c₁) =>
      match evalFieldsGo ev c₁ fs with
      | none => none
      | some (vs, c₂) => some ((l, v) :: vs, c₂)

/-- The clause loop of `eval` on `Case`: per clause, unbind, evaluate the
scrutinee (the source re-evaluates it for every clause), match; the first
success evaluates that clause's substituted body, exhaustion yields
`some (none, _)` (the whole `Case` is stuck). -/
def evalClausesGo (ev : Nat → Expr → Option (Expr × Nat)) :
    Nat → Expr → List (Pattern × Expr) → Option (Option Expr × Nat)
  | c, _, [] => some (none, c)
  | c, a, (p, b) :: cls =>
    match unbindS c p b with
    | (p', b', c₁) =>
      match ev c₁ a with
      | none => none
      | some (w, c₂) =>
        match matchE p' w with
        | some ms =>
          match ev c₂ (substsE ms b') with
          | none => none
          | some (r, c₃) => some (some r, c₃)
        | none => evalClausesGo ev c₂ a cls

/-- One layer of `eval`, with `ev` (one fuel layer below) standing for the
recursive `eval` calls of the source. -/
def evalStep (ev : Nat → Expr → Option (Expr × Nat)) (c : Nat) : Expr → Option (Expr × Nat)
  | .ann e _ => ev c e
  | .lit l => some (.lit l, c)
  | .var v => some (.var v, c)
  | .lam p b => some (.lam p b, c)
  | .app f a =>
    match ev c f with
    | none => none
    | some (vf, c₁) =>
      match vf with
      | .lam p cb =>
        match unbindS c₁ p cb with
        | (p', b', c₂) =>
          match ev c₂ a with
          | none => none
          | some (w, c₃) =>
            match matchE p' w with
            | none => some (.app f a, c₃)
            | some ms => ev c₃ (substsE ms b')
      | _ => some (.app f a, c₁)
  | .record fs =>
    match evalFieldsGo ev c fs with
    | none => none
    | some (fs', c₁) => some (.record fs', c₁)
  | .proj e l =>
    match ev c e with
    | none => none
    | some (v, c₁) =>
      match v with
      | .record fs =>
        match fs.find? (fun f => f.1 = l) with
        | some f => some (f.2, c₁)
        | none => some (.record fs, c₁)
      | _ => some (v, c₁)
  | .tag l e =>
    match ev c e with
    | none => none
    | some (v, c₁) => some (.tag l v, c₁)
  | .case' a cls =>
    match evalClausesGo ev c a cls with
    | none => none
    | some (some r, c₁) => some (r, c₁)
    | some (none, c₁) => some (.case' a cls, c₁)

/-- `eval`: call-by-value normalisation, with an explicit fuel parameter
(`none` = fuel exhausted; the source function is partial on ill-typed input)
and the fresh-token allocator counter threaded through.  Every recursive
`eval` call of the source consumes one unit of fuel. -/
def evalF : Nat → Nat → Expr → Option (Expr × Nat)
  | 0, _, _ => none
  | n + 1, c, e => evalStep (evalF n) c e

/-- The record-field loop at fuel `n` (fields evaluated with fuel `n`). -/
def evalFieldsF (n : Nat) : Nat → List (String × Expr) → Option (List (String × Expr) × Nat) :=
  evalFieldsGo (evalF n)

/-- The clause loop at fuel `n`. -/
def evalClausesF (n : Nat) : Nat → Expr → List (Pattern × Expr) → Option (Option Expr × Nat) :=
  evalClausesGo (evalF n)

/-- A typing context: persistent immutable map from free variables to types
(`im::HashMap<FreeVar<String>, RcType>`), embedded as a lookup function. -/
def Ctx := FreeVar → Option Ty

/-- `Context::new()`. -/
def ctxEmpty : Ctx := fun _ => none

/-- `HashMap::insert` (new binding wins). -/
def ctxInsert (Γ : Ctx) (k : FreeVar) (t : Ty) : Ctx :=
  fun x => if x = k then some t else Γ x

/-- `context + &bindings`: `im::HashMap` union, left biased (values from the
left map win on key collisions). -/
def ctxUnion (Γ Δ : Ctx) : Ctx :=
  fun x =>
    match Γ x with
    | some t => some t
    | none => Δ x

/-- `telescope.extend(other)`: insert all entries of `other`, overwriting
(right biased). -/
def ctxExtend (Γ Δ : Ctx) : Ctx :=
  fun x =>
    match Δ x with
    | some t => some t
    | none => Γ x

mutual

/-- The pattern checker pair: since `check_pattern` falls back to
`infer_pattern` on the *same* pattern, the two source functions are computed
together, by structural recursion on the pattern: the first component is
`infer_pattern Γ p`, the second is `fun expected => check_pattern Γ p
expected`. -/
def patF (Γ : Ctx) : Pattern → (Except String (Ty × Ctx)) × (Ty → Except String Ctx)
  | .ann p' ty =>
    let inf : Except String (Ty × Ctx) :=
      match (patF Γ p').2 ty with
      | .error msg => .error msg
      | .ok tele => .ok (ty, tele)
    (inf, fun expected =>
      match inf with
      | .error msg => .error msg
      | .ok r => if tyEq r.1 expected then .ok r.2 else .error "type mismatch")
  | .lit l =>
    let inf : Except String (Ty × Ctx) :=
      match l with
      | .int _ => .ok (.int, ctxEmpty)
      | .float _ => .ok (.float, ctxEmpty)
      | .str _ => .ok (.str, ctxEmpty)
    (inf, fun expected =>
      match inf with
      | .error msg => .error msg
      | .ok r => if tyEq r.1 expected then .ok r.2 else .error "type mismatch")
  | .binder fv =>
    (.error "type annotations needed",
     fun expected => .ok (ctxInsert ctxEmpty fv expected))
  | .record fs =>
    let inf : Except String (Ty × Ctx) :=
      match patFieldsF Γ fs with
      | .error msg => .error msg
      | .ok r => .ok (.record r.1, r.2)
    (inf, fun expected =>
      match inf with
      | .error msg => .error msg
      | .ok r => if tyEq r.1 expected then .ok r.2 else .error "type mismatch")
  | .tag label p' =>
    (.error "type annotations needed",
     fun expected =>
      match expected with
      | .variant variants =>
        match variants.find? (fun v => v.1 = label) with
        | none => .error ("variant type did not contain the label `" ++ label ++ "`")
        | some v => (patF Γ p').2 v.2
      | _ => .error "type annotations needed")

/-- The field loop of `infer_pattern` on record patterns: infer each field
pattern in order, extending the accumulated telescope (later fields
override). -/
def patFieldsF (Γ : Ctx) : List (String × Pattern) → Except String (List (String × Ty) × Ctx)
  | [] => .ok ([], ctxEmpty)
  | (l, p) :: fs =>
    match (patF Γ p).1 with
    | .error msg => .error msg
    | .ok r =>
      match patFieldsF Γ fs with
      | .error msg => .error msg
      | .ok r' => .ok ((l, r.1) :: r'.1, ctxExtend r.2 r'.2)

end

/-- `infer_pattern`: synthesize the type of an unambiguous pattern together
with its telescope. -/
def infer_pattern (Γ : Ctx) (p : Pattern) : Except String (Ty × Ctx) :=
  (patF Γ p).1

/-- `check_pattern`: check a pattern against an expected type, returning the
telescope of bindings it introduces (`Binder` binds directly, `Tag` against
a variant type resolves the label, everything else infers and compares with
`term_eq`). -/
def check_pattern (Γ : Ctx) (p : Pattern) (expected : Ty) : Except String Ctx :=
  (patF Γ p).2 expected

/-- The type of the `check_expr` recursive calls at a fixed fuel level. -/
def ChkT : Type := Ctx → Expr → Ty → Nat → Option (Except String Nat)

/-- The type of the `infer_expr` recursive calls at a fixed fuel level. -/
def InfT : Type := Ctx → Expr → Nat → Option (Except String (Ty × Nat))

/-- The field loop of `infer_expr` on records: infer each field in order,
short-circuiting on errors, using `inf` for the recursive calls. -/
def inferFieldsGo (inf : InfT) (Γ : Ctx) :
    List (String × Expr) → Nat → Option (Except String (List (String × Ty) × Nat))
  | [], c => some (.ok ([], c))
  | (l, e) :: fs, c =>
    match inf Γ e c with
    | none => none
    | some (.error msg) => some (.error msg)
    | some (.ok r) =>
      match inferFieldsGo inf Γ fs r.2 with
      | none => none
      | some (.error msg) => some (.error msg)
      | some (.ok r') => some (.ok ((l, r.1) :: r'.1, r'.2))

/-- The clause loop of `check_expr` on `Case`: each clause is unbound, its
pattern checked against the scrutinee type and its body checked against the
expected type. -/
def checkClausesGo (chk : ChkT) (Γ : Ctx) (scrutTy expected : Ty) :
    List (Pattern × Expr) → Nat → Option (Except String Nat)
  | [], c => some (.ok c)
  | (p, b) :: cls, c =>
    match unbindS c p b with
    | (p', b', c₁) =>
      match check_pattern Γ p' scrutTy with
      | .error msg => some (.error msg)
      | .ok bindings =>
        match chk (ctxUnion Γ bindings) b' expected c₁ with
        | none => none
        | some (.error msg) => some (.error msg)
        | some (.ok c₂) => checkClausesGo chk Γ scrutTy expected cls c₂

/-- One layer of `check_expr`, with `chk` / `inf` standing for the recursive
calls of the source (one fuel layer below). -/
def checkStep (chk : ChkT) (inf : InfT) (Γ : Ctx) : Expr → Ty → Nat → Option (Except String Nat)
  | e, expected, c =>
    match e, expected with
    | .lam p b, .arrow param ret =>
      match unbindS c p b with
      | (p', b', c₁) =>
        match check_pattern Γ p' param with
        | .error msg => some (.error msg)
        | .ok bindings => chk (ctxUnion Γ bindings) b' ret c₁
    | .tag label e', .variant variants =>
      match variants.find? (fun v => v.1 = label) with
      | none => some (.error ("variant type did not contain the label `" ++ label ++ "`"))
      | some v => chk Γ e' v.2 c
    | .case' scrut clauses, _ =>
      match inf Γ scrut c with
      | none => none
      | some (.error msg) => some (.error msg)
      | some (.ok r) => checkClausesGo chk Γ r.1 expected clauses r.2
    | _, _ =>
      match inf Γ e c with
      | none => none
      | some (.error msg) => some (.error msg)
      | some (.ok r) =>
        if tyEq r.1 expected then some (.ok r.2) else some (.error "type mismatch")

/-- One layer of `infer_expr`.  The `none` for `Var(Bound ..)` is the
source's `panic!("encountered a bound variable")`. -/
def inferStep (chk : ChkT) (inf : InfT) (Γ : Ctx) : Expr → Nat → Option (Except String (Ty × Nat))
  | e, c =>
    match e with
    | .ann e' ty =>
      match chk Γ e' ty c with
      | none => none
      | some (.error msg) => some (.error msg)
      | some (.ok c₁) => some (.ok (ty, c₁))
    | .lit (.int _) => some (.ok (.int, c))
    | .lit (.float _) => some (.ok (.float, c))
    | .lit (.str _) => some (.ok (.str, c))
    | .var (.free fv) =>
      match Γ fv with
      | some ty => some (.ok (ty, c))
      | none => some (.error "variable not found in context")
    | .var (.bound _ _) => none
    | .lam p b =>
      match unbindS c p b with
      | (p', b', c₁) =>
        match infer_pattern Γ p' with
        | .error msg => some (.error msg)
        | .ok r =>
          match inf (ctxUnion Γ r.2) b' c₁ with
          | none => none
          | some (.error msg) => some (.error msg)
          | some (.ok r') => some (.ok (.arrow r.1 r'.1, r'.2))
    | .app f a =>
      match inf Γ f c with
      | none => none
      | some (.error msg) => some (.error msg)
      | some (.ok r) =>
        match r.1 with
        | .arrow param ret =>
          match inf Γ a r.2 with
          | none => none
          | some (.error msg) => some (.error msg)
          | some (.ok r') =>
            if tyEq param r'.1 then some (.ok (ret, r'.2))
            else some (.error "argument type mismatch")
        | _ => some (.error "not a function")
    | .record fs =>
      match inferFieldsGo inf Γ fs c with
      | none => none
      | some (.error msg) => some (.error msg)
      | some (.ok r) => some (.ok (.record r.1, r.2))
    | .proj e' label =>
      match inf Γ e' c with
      | none => none
      | some (.error msg) => some (.error msg)
      | some (.ok r) =>
        match r.1 with
        | .record fields =>
          match fields.find? (fun f => f.1 = label) with
          | some f => some (.ok (f.2, r.2))
          | none => some (.error "field not found in type")
        | _ => some (.error "record expected")
    | .tag _ _ => some (.error "type annotations needed")
    | .case' _ _ => some (.error "type annotations needed")

/-- The checker pair at each fuel level: `check_expr` and `infer_expr` are
mutually recursive through `unbind`, so they are built together by recursion
on fuel; `none` is an abort (fuel exhaustion or the bound-variable
`panic!`). -/
def checkInferF : Nat → ChkT × InfT
  | 0 => (fun _ _ _ _ => none, fun _ _ _ => none)
  | n + 1 =>
    (checkStep (checkInferF n).1 (checkInferF n).2,
     inferStep (checkInferF n).1 (checkInferF n).2)

/-- `check_expr` at fuel `n` (see `checkStep`). -/
def check_expr (n : Nat) : Ctx → Expr → Ty → Nat → Option (Except String Nat) :=
  (checkInferF n).1

/-- `infer_expr` at fuel `n` (see `inferStep`). -/
def infer_expr (n : Nat) : Ctx → Expr → Nat → Option (Except String (Ty × Nat)) :=
  (checkInferF n).2

/-! ### Analysis functions used to state and prove properties -/

mutual

/-- The free variables of an expression (tokens of `Var.free` occurrences,
in occurrence order; bound coordinates and pattern binder sites are not free
occurrences). -/
def fvarsE : Expr → List FreeVar
  | .ann e _ => fvarsE e
  | .lit _ => []
  | .var (.free fv) => [fv]
  | .var (.bound _ _) => []
  | .lam _ b => fvarsE b
  | .app f a => fvarsE f ++ fvarsE a
  | .record fs => fvarsFields fs
  | .proj e _ => fvarsE e
  | .tag _ e => fvarsE e
  | .case' s cls => fvarsE s ++ fvarsClauses cls

/-- Free variables of record fields. -/
def fvarsFields : List (String × Expr) → List FreeVar
  | [] => []
  | (_, e) :: fs => fvarsE e ++ fvarsFields fs

/-- Free variables of case clause bodies. -/
def fvarsClauses : List (Pattern × Expr) → List FreeVar
  | [] => []
  | (_, b) :: cls => fvarsE b ++ fvarsClauses cls

end

/-- A token lies below the allocator counter `c` (user tokens always do;
generated tokens must have been drawn earlier than `c`). -/
def FreeVar.below (c : Nat) : FreeVar → Bool
  | .user _ => true
  | .gen i => i < c

/-- Hygiene invariant of the process-wide allocator: every generated token
occurring free in the expression was drawn before the current counter `c`.
All expressions constructible by a client of the library satisfy this for
the current allocator state, because tokens only originate from the
allocator. -/
def genBelowB (c : Nat) (e : Expr) : Bool :=
  (fvarsE e).all (FreeVar.below c)

/-- `genBelowB` for record field lists. -/
def gbFields (c : Nat) (fs : List (String × Expr)) : Bool :=
  (fvarsFields fs).all (FreeVar.below c)

/-- Hygiene bound for the stored bodies of a clause list. -/
def gbClauses (c : Nat) (cls : List (Pattern × Expr)) : Bool :=
  (fvarsClauses cls).all (FreeVar.below c)

mutual

/-- Structural invariant of evaluation results: never an `Ann` node at the
root, recursively so through record fields (whose stored values `eval`
returns directly on projection). -/
def resOkB : Expr → Bool
  | .ann _ _ => false
  | .record fs => resOkFieldsB fs
  | _ => true

/-- `resOkB` on record fields. -/
def resOkFieldsB : List (String × Expr) → Bool
  | [] => true
  | (_, e) :: fs => resOkB e && resOkFieldsB fs

end

mutual

/-- Well-scopedness: every bound reference is introduced by an enclosing
scope (`stack` records the binder counts of the enclosing scopes, innermost
first), with an index inside that scope's binder list. -/
def lcAtB (stack : List Nat) : Expr → Bool
  | .ann e _ => lcAtB stack e
  | .lit _ => true
  | .var (.free _) => true
  | .var (.bound d i) => decide (d < stack.length) && decide (i < stack.getD d 0)
  | .lam p b => lcAtB (p.binders.length :: stack) b
  | .app f a => lcAtB stack f && lcAtB stack a
  | .record fs => lcFields stack fs
  | .proj e _ => lcAtB stack e
  | .tag _ e => lcAtB stack e
  | .case' s cls => lcAtB stack s && lcClauses stack cls

/-- Well-scopedness of record fields. -/
def lcFields (stack : List Nat) : List (String × Expr) → Bool
  | [] => true
  | (_, e) :: fs => lcAtB stack e && lcFields stack fs

/-- Well-scopedness of case clauses (each clause body under its pattern's
binders). -/
def lcClauses (stack : List Nat) : List (Pattern × Expr) → Bool
  | [] => true
  | (p, b) :: cls => lcAtB (p.binders.length :: stack) b && lcClauses stack cls

end

mutual

/-- Constructor-count size of a pattern (`Var` and token payloads count 1,
so renaming preserves it). -/
def psize : Pattern → Nat
  | .ann p _ => 1 + psize p
  | .lit _ => 1
  | .binder _ => 1
  | .record fs => 1 + psizeFields fs
  | .tag _ p => 1 + psize p

/-- Size of record-pattern fields. -/
def psizeFields : List (String × Pattern) → Nat
  | [] => 0
  | (_, p) :: fs => 1 + psize p + psizeFields fs

end

mutual

/-- Constructor-count size of an expression (variables count 1 regardless of
their form, so `openE` preserves it). -/
def esize : Expr → Nat
  | .ann e _ => 1 + esize e
  | .lit _ => 1
  | .var _ => 1
  | .lam p b => 1 + psize p + esize b
  | .app f a => 1 + esize f + esize a
  | .record fs => 1 + esizeFields fs
  | .proj e _ => 1 + esize e
  | .tag _ e => 1 + esize e
  | .case' s cls => 1 + esize s + esizeClauses cls

/-- Size of record fields. -/
def esizeFields : List (String × Expr) → Nat
  | [] => 0
  | (_, e) :: fs => 1 + esize e + esizeFields fs

/-- Size of case clauses. -/
def esizeClauses : List (Pattern × Expr) → Nat
  | [] => 0
  | (p, b) :: cls => 1 + psize p + esize b + esizeClauses cls

end

mutual

/-- Direct instantiation: replace `bound d i` by `ws[i]` (depth incrementing
under scopes).  `openE d vs` followed by substituting `ws` for the fresh
`vs` is exactly this, when `vs` is fresh for the body. -/
def instE (d : Nat) (ws : List Expr) : Expr → Expr
  | .ann e ty => .ann (instE d ws e) ty
  | .lit l => .lit l
  | .var (.free fv) => .var (.free fv)
  | .var (.bound d' i) =>
    if d' = d then
      match ws[i]? with
      | some w => w
      | none => .var (.bound d' i)
    else .var (.bound d' i)
  | .lam p b => .lam p (instE (d + 1) ws b)
  | .app f a => .app (instE d ws f) (instE d ws a)
  | .record fs => .record (instFields d ws fs)
  | .proj e l => .proj (instE d ws e) l
  | .tag l e => .tag l (instE d ws e)
  | .case' s cls => .case' (instE d ws s) (instClauses d ws cls)

/-- Instantiation on record fields. -/
def instFields (d : Nat) (ws : List Expr) : List (String × Expr) → List (String × Expr)
  | [] => []
  | (l, e) :: fs => (l, instE d ws e) :: instFields d ws fs

/-- Instantiation on case clauses. -/
def instClauses (d : Nat) (ws : List Expr) : List (Pattern × Expr) → List (Pattern × Expr)
  | [] => []
  | (p, b) :: cls => (p, instE (d + 1) ws b) :: instClauses d ws cls

end

mutual

/-- The value components of a successful match, in binder order (the match
result of `match_expr` with the keys dropped; independent of the binder
tokens of the pattern). -/
def matchVals : Pattern → Expr → Option (List Expr)
  | .ann p _, e => matchVals p e
  | .lit pl, .lit el => if litEq pl el then some [] else none
  | .binder _, e => some [e]
  | .record pfs, .record efs =>
    if pfs.length = efs.length then matchValsFields pfs efs else none
  | .tag pl p, .tag el e => if pl = el then matchVals p e else none
  | _, _ => none

/-- Field loop of `matchVals`. -/
def matchValsFields : List (String × Pattern) → List (String × Expr) → Option (List Expr)
  | [], [] => some []
  | (pl, p) :: pfs, (el, e) :: efs =>
    if pl = el then
      match matchVals p e with
      | none => none
      | some m =>
        match matchValsFields pfs efs with
        | none => none
        | some ms => some (m ++ ms)
    else none
  | _, _ => none

end

mutual

/-- Modelled from the spec: alpha-equivalence (`BoundTerm::term_eq`):
structural equality where bound coordinates must match exactly, free
references match by token identity, and the binder tokens of scope patterns
are ignored. -/
def aeq : Expr → Expr → Bool
  | .ann e t, .ann e' t' => aeq e e' && tyEq t t'
  | .lit l, .lit l' => decide (l = l')
  | .var v, .var v' => decide (v = v')
  | .lam p b, .lam p' b' => peq p p' && aeq b b'
  | .app f a, .app f' a' => aeq f f' && aeq a a'
  | .record fs, .record fs' => aeqFields fs fs'
  | .proj e l, .proj e' l' => aeq e e' && decide (l = l')
  | .tag l e, .tag l' e' => decide (l = l') && aeq e e'
  | .case' s cls, .case' s' cls' => aeq s s' && aeqClauses cls cls'
  | _, _ => false

/-- Modelled from the spec: `BoundPattern::pattern_eq` — structural equality
of patterns ignoring binder tokens (binder sites always agree), comparing
embedded type annotations by `term_eq`. -/
def peq : Pattern → Pattern → Bool
  | .ann p t, .ann p' t' => peq p p' && tyEq t t'
  | .lit l, .lit l' => decide (l = l')
  | .binder _, .binder _ => true
  | .record fs, .record fs' => peqFields fs fs'
  | .tag l p, .tag l' p' => decide (l = l') && peq p p'
  | _, _ => false

/-- Alpha-equivalence of record fields. -/
def aeqFields : List (String × Expr) → List (String × Expr) → Bool
  | [], [] => true
  | (l, e) :: fs, (l', e') :: fs' => decide (l = l') && aeq e e' && aeqFields fs fs'
  | _, _ => false

/-- Alpha-equivalence of case clauses. -/
def aeqClauses : List (Pattern × Expr) → List (Pattern × Expr) → Bool
  | [], [] => true
  | (p, b) :: cls, (p', b') :: cls' => peq p p' && aeq b b' && aeqClauses cls cls'
  | _, _ => false

/-- Pattern-equivalence of record-pattern fields. -/
def peqFields : List (String × Pattern) → List (String × Pattern) → Bool
  | [], [] => true
  | (l, p) :: fs, (l', p') :: fs' => decide (l = l') && peq p p' && peqFields fs fs'
  | _, _ => false

end

mutual

/-- The scope patterns of an expression (the `unsafe_pattern` component of
every `Scope` in `Lam` and `Case` nodes), in preorder. -/
def patternsOf : Expr → List Pattern
  | .ann e _ => patternsOf e
  | .lit _ => []
  | .var _ => []
  | .lam p b => p :: patternsOf b
  | .app f a => patternsOf f ++ patternsOf a
  | .record fs => patternsOfFields fs
  | .proj e _ => patternsOf e
  | .tag _ e => patternsOf e
  | .case' s cls => patternsOf s ++ patternsOfClauses cls

/-- Scope patterns inside record fields. -/
def patternsOfFields : List (String × Expr) → List Pattern
  | [] => []
  | (_, e) :: fs => patternsOf e ++ patternsOfFields fs

/-- Scope patterns of case clauses (each clause's own pattern, then those of
its body). -/
def patternsOfClauses : List (Pattern × Expr) → List Pattern
  | [] => []
  | (p, b) :: cls => p :: (patternsOf b ++ patternsOfClauses cls)

end

/-- The first mapping of the ordered list whose name is the given variable,
if any (the specification's "first matching mapping found"). -/
def lookupFirst : List (FreeVar × Expr) → FreeVar → Option Expr
  | [], _ => none
  | (y, w) :: ms, x => if x = y then some w else lookupFirst ms x

mutual

/-- Follows the specification text for substitution ("produces a new
expression with every free occurrence of each mapped variable replaced by
its paired expression; occurrences of the same variable keep the first
matching mapping found; for Lam and Case, substitution is applied only to
scope bodies"): the homomorphic extension of `lookupFirst` to expressions,
leaving unmapped variables and all bound references unchanged. -/
def substsSpecE (ms : List (FreeVar × Expr)) : Expr → Expr
  | .ann e ty => .ann (substsSpecE ms e) ty
  | .lit l => .lit l
  | .var (.free fv) =>
    match lookupFirst ms fv with
    | some w => w
    | none => .var (.free fv)
  | .var (.bound d i) => .var (.bound d i)
  | .lam p b => .lam p (substsSpecE ms b)
  | .app f a => .app (substsSpecE ms f) (substsSpecE ms a)
  | .record fs => .record (substsSpecFields ms fs)
  | .proj e l => .proj (substsSpecE ms e) l
  | .tag l e => .tag l (substsSpecE ms e)
  | .case' s cls => .case' (substsSpecE ms s) (substsSpecClauses ms cls)

/-- Spec-side substitution on record fields. -/
def substsSpecFields (ms : List (FreeVar × Expr)) : List (String × Expr) → List (String × Expr)
  | [] => []
  | (l, e) :: fs => (l, substsSpecE ms e) :: substsSpecFields ms fs

/-- Spec-side substitution on case clauses. -/
def substsSpecClauses (ms : List (FreeVar × Expr)) : List (Pattern × Expr) → List (Pattern × Expr)
  | [] => []
  | (p, b) :: cls => (p, substsSpecE ms b) :: substsSpecClauses ms cls

end

/-- Root-constructor test for `Ann` nodes. -/
def Expr.isAnn : Expr → Bool
  | .ann _ _ => true
  | _ => false

/-! ### Basic lemmas -/

mutual

theorem tyEq_refl : ∀ t, tyEq t t = true
  | .int => rfl
  | .float => rfl
  | .str => rfl
  | .arrow a b => by simp [tyEq, tyEq_refl a, tyEq_refl b]
  | .record fs => by simp [tyEq, tyFieldsEq_refl fs]
  | .variant fs => by simp [tyEq, tyFieldsEq_refl fs]

theorem tyFieldsEq_refl : ∀ fs, tyFieldsEq fs fs = true
  | [] => rfl
  | (l, t) :: fs => by simp [tyFieldsEq, tyEq_refl t, tyFieldsEq_refl fs]

end

mutual

theorem aeq_refl : ∀ e, aeq e e = true
  | .ann e t => by simp [aeq, aeq_refl e, tyEq_refl t]
  | .lit l => by simp [aeq]
  | .var v => by simp [aeq]
  | .lam p b => by simp [aeq, peq_refl p, aeq_refl b]
  | .app f a => by simp [aeq, aeq_refl f, aeq_refl a]
  | .record fs => by simp [aeq, aeqFields_refl fs]
  | .proj e l => by simp [aeq, aeq_refl e]
  | .tag l e => by simp [aeq, aeq_refl e]
  | .case' s cls => by simp [aeq, aeq_refl s, aeqClauses_refl cls]

theorem peq_refl : ∀ p, peq p p = true
  | .ann p t => by simp [peq, peq_refl p, tyEq_refl t]
  | .lit l => by simp [peq]
  | .binder fv => by simp [peq]
  | .record fs => by simp [peq, peqFields_refl fs]
  | .tag l p => by simp [peq, peq_refl p]

theorem aeqFields_refl : ∀ fs, aeqFields fs fs = true
  | [] => rfl
  | (l, e) :: fs => by simp [aeqFields, aeq_refl e, aeqFields_refl fs]

theorem aeqClauses_refl : ∀ cls, aeqClauses cls cls = true
  | [] => rfl
  | (p, b) :: cls => by simp [aeqClauses, peq_refl p, aeq_refl b, aeqClauses_refl cls]

theorem peqFields_refl : ∀ fs, peqFields fs fs = true
  | [] => rfl
  | (l, p) :: fs => by simp [peqFields, peq_refl p, peqFields_refl fs]

end

/-- Unfolding `evalF` at positive fuel. -/
theorem evalF_succ (n c : Nat) (e : Expr) : evalF (n + 1) c e = evalStep (evalF n) c e := rfl

/-- Unfolding `check_expr` at positive fuel. -/
theorem check_expr_succ (n : Nat) :
    check_expr (n + 1) = checkStep (check_expr n) (infer_expr n) := rfl

/-- Unfolding `infer_expr` at positive fuel. -/
theorem infer_expr_succ (n : Nat) :
    infer_expr (n + 1) = inferStep (check_expr n) (infer_expr n) := rfl

/-! ### C1: evaluation of a stuck projection -/

/-- C1, counterexample: the claim states that a stuck projection evaluates
to the original redex `Proj(e, l)`.  For `e = Literal(1)`, `l = "x"`, the
scrutinee evaluates to `Literal(1)`, which is not a record, yet
`eval(Proj(Literal(1), "x"))` is `Literal(1)` — the evaluated scrutinee —
and not the redex `Proj(Literal(1), "x")`. -/
theorem eval_proj_stuck_counterexample :
    evalF 1 0 (Expr.lit (.int 1)) = some (.lit (.int 1), 0) ∧
    (∀ fs, Expr.lit (.int 1) ≠ Expr.record fs) ∧
    evalF 2 0 (Expr.proj (.lit (.int 1)) "x") = some (.lit (.int 1), 0) ∧
    Expr.lit (.int 1) ≠ Expr.proj (.lit (.int 1)) "x" := by
  refine ⟨rfl, ?_, rfl, ?_⟩
  · intro fs h
    cases h
  · intro h
    cases h

/-- C1 (amended): if `eval` sends the scrutinee `e` to a value `v` that is
not a record whose field list contains the label `l`, then
`eval(Proj(e, l))` returns the *evaluated scrutinee* `v` (not the original
redex), with the same final allocator counter. -/
theorem eval_proj_stuck_returns_scrutinee
    (n c : Nat) (e : Expr) (l : String) (v : Expr) (d : Nat)
    (hev : evalF n c e = some (v, d))
    (hnot : ∀ fs, v = .record fs → fs.find? (fun f => f.1 = l) = none) :
    evalF (n + 1) c (.proj e l) = some (v, d) := by
  rw [evalF_succ]
  show evalStep (evalF n) c (.proj e l) = some (v, d)
  rw [evalStep, hev]
  cases v with
  | record fs => simp [hnot fs rfl]
  | ann e ty => rfl
  | lit _ => rfl
  | var _ => rfl
  | lam _ _ => rfl
  | app _ _ => rfl
  | proj _ _ => rfl
  | tag _ _ => rfl
  | case' _ _ => rfl

/-- C1 witness: the amended theorem applied at the concrete stuck
projection `Proj(Literal(1), "x")`. -/
theorem eval_proj_stuck_returns_scrutinee_witness :
    evalF 2 0 (Expr.proj (.lit (.int 1)) "x") = some (.lit (.int 1), 0) :=
  eval_proj_stuck_returns_scrutinee 1 0 (.lit (.int 1)) "x" (.lit (.int 1)) 0 rfl
    (fun _ h => by cases h)

/-! ### C6: substitution replaces free occurrences by the first match -/

/-- On a free variable, `substs` returns the payload of the first matching
mapping, if any. -/
theorem substsE_var_free (ms : List (FreeVar × Expr)) (x : FreeVar) :
    substsE ms (.var (.free x)) =
      match lookupFirst ms x with
      | some w => w
      | none => .var (.free x) := by
  induction ms with
  | nil => rfl
  | cons m ms ih =>
    by_cases h : x = m.1
    · simp [substsE, lookupFirst, List.find?, varEqFree, h]
    · simp only [substsE, List.find?, varEqFree] at ih ⊢
      simp [lookupFirst, h, decide_eq_true_eq] at ih ⊢
      exact ih

/-- On a bound variable, `substs` changes nothing (`Var::Bound` never equals
a free-variable name). -/
theorem substsE_var_bound (ms : List (FreeVar × Expr)) (d i : Nat) :
    substsE ms (.var (.bound d i)) = .var (.bound d i) := by
  induction ms with
  | nil => rfl
  | cons m ms ih =>
    simp only [substsE, List.find?, varEqFree, Bool.false_eq_true] at ih ⊢
    exact ih

mutual

/-- `substs` agrees with the specification-side substitution everywhere. -/
theorem substsE_eq_spec (ms : List (FreeVar × Expr)) :
    ∀ e, substsE ms e = substsSpecE ms e
  | .ann e ty => by simp [substsE, substsSpecE, substsE_eq_spec ms e]
  | .lit l => rfl
  | .var (.free x) => by
    rw [substsE_var_free]
    simp only [substsSpecE]
  | .var (.bound d i) => by
    rw [substsE_var_bound]
    simp only [substsSpecE]
  | .lam p b => by simp [substsE, substsSpecE, substsE_eq_spec ms b]
  | .app f a => by simp [substsE, substsSpecE, substsE_eq_spec ms f, substsE_eq_spec ms a]
  | .record fs => by simp [substsE, substsSpecE, substsFields_eq_spec ms fs]
  | .proj e l => by simp [substsE, substsSpecE, substsE_eq_spec ms e]
  | .tag l e => by simp [substsE, substsSpecE, substsE_eq_spec ms e]
  | .case' s cls => by
    simp [substsE, substsSpecE, substsE_eq_spec ms s, substsClauses_eq_spec ms cls]

theorem substsFields_eq_spec (ms : List (FreeVar × Expr)) :
    ∀ fs, substsFields ms fs = substsSpecFields ms fs
  | [] => rfl
  | (l, e) :: fs => by
    simp [substsFields, substsSpecFields, substsE_eq_spec ms e, substsFields_eq_spec ms fs]

theorem substsClauses_eq_spec (ms : List (FreeVar × Expr)) :
    ∀ cls, substsClauses ms cls = substsSpecClauses ms cls
  | [] => rfl
  | (p, b) :: cls => by
    simp [substsClauses, substsSpecClauses, substsE_eq_spec ms b, substsClauses_eq_spec ms cls]

end

/-- C6: `substs` replaces every free-variable occurrence whose variable
appears in the mapping list by the paired expression of the first (leftmost)
matching entry, leaves variables appearing in no entry (and all bound
references) unchanged, and does nothing else: it is exactly the homomorphic
extension `substsSpecE` of the first-match lookup `lookupFirst` written from
the specification text. -/
theorem substs_first_match_wins :
    ∀ (ms : List (FreeVar × Expr)) (e : Expr), substsE ms e = substsSpecE ms e :=
  fun ms e => substsE_eq_spec ms e

/-! ### C7: substitution leaves scope patterns untouched -/

/-- `substs` on a clause list substitutes the bodies and clones the
patterns. -/
theorem substsClauses_eq_map (ms : List (FreeVar × Expr)) :
    ∀ cls, substsClauses ms cls = cls.map (fun pb => (pb.1, substsE ms pb.2))
  | [] => rfl
  | (p, b) :: cls => by simp [substsClauses, substsClauses_eq_map ms cls]

/-- C7: on `Lam` and `Case` expressions, `substs` is applied only to the
scope bodies: the scope pattern of a `Lam` and the pattern of every `Case`
clause are returned identically (type annotations nested inside the
patterns included, since the whole pattern component is returned
unchanged). -/
theorem substs_preserves_scope_patterns :
    (∀ (ms : List (FreeVar × Expr)) (p : Pattern) (b : Expr),
      substsE ms (.lam p b) = .lam p (substsE ms b)) ∧
    (∀ (ms : List (FreeVar × Expr)) (s : Expr) (cls : List (Pattern × Expr)),
      substsE ms (.case' s cls) =
        .case' (substsE ms s) (cls.map (fun pb => (pb.1, substsE ms pb.2)))) := by
  constructor
  · intro ms p b
    rfl
  · intro ms s cls
    rw [substsE, substsClauses_eq_map]

/-! ### C5: matching of record patterns -/

/-- Characterization of the field loop of `match_expr`: it succeeds exactly
when the label sequences agree (which forces equal lengths) and every
per-field sub-match succeeds, and then returns the concatenation of the
per-field binding lists in field order. -/
theorem matchFields_characterization :
    ∀ (pfs : List (String × Pattern)) (efs : List (String × Expr)) (ms : List (FreeVar × Expr)),
      matchFields pfs efs = some ms ↔
        pfs.map Prod.fst = efs.map Prod.fst ∧
        ∃ wss, List.Forall₂ (fun (pe : (String × Pattern) × (String × Expr)) w =>
            matchE pe.1.2 pe.2.2 = some w) (pfs.zip efs) wss ∧
          ms = wss.flatten := by
  intro pfs
  induction pfs with
  | nil =>
    intro efs ms
    cases efs with
    | nil =>
      constructor
      · intro h
        simp only [matchFields] at h
        cases h
        exact ⟨rfl, [], .nil, rfl⟩
      · rintro ⟨-, wss, hw, hms⟩
        cases hw
        simp only [matchFields]
        rw [hms]
        rfl
    | cons ef efs =>
      constructor
      · intro h
        simp [matchFields] at h
      · rintro ⟨hlab, -⟩
        simp at hlab
  | cons pf pfs ih =>
    intro efs ms
    cases efs with
    | nil => simp [matchFields]
    | cons ef efs =>
      obtain ⟨pl, p⟩ := pf
      obtain ⟨el, e⟩ := ef
      simp only [matchFields]
      by_cases hl : pl = el
      · subst hl
        simp only [if_pos rfl]
        constructor
        · intro h
          cases hm : matchE p e with
          | none => rw [hm] at h; cases h
          | some m =>
            rw [hm] at h
            cases hms : matchFields pfs efs with
            | none => rw [hms] at h; cases h
            | some ms' =>
              rw [hms] at h
              obtain ⟨hlab, wss, hfa, hjoin⟩ := (ih efs ms').mp hms
              refine ⟨by simpa using hlab, m :: wss, ?_, ?_⟩
              · exact List.Forall₂.cons hm hfa
              · cases h
                simp [hjoin]
        · rintro ⟨hlab, wss, hfa, hjoin⟩
          cases hfa with
          | cons hw hrest =>
            rename_i w wss'
            rw [hw]
            have : matchFields pfs efs = some wss'.flatten := by
              refine (ih efs wss'.flatten).mpr ⟨by simpa using hlab, wss', hrest, rfl⟩
            rw [this]
            simp [hjoin]
      · simp only [if_neg hl]
        constructor
        · intro h
          cases h
        · rintro ⟨hlab, _⟩
          simp at hlab
          exact absurd hlab.1 hl

/-- C5: `match_expr` on a record pattern succeeds iff the value is a record
with the same number of fields and the identical label sequence in order and
every per-field sub-match succeeds; on success the returned bindings are the
per-field bindings concatenated in field order.  Any label mismatch or
sub-match failure makes the whole match fail. -/
theorem match_record_characterization :
    ∀ (pfs : List (String × Pattern)) (v : Expr) (ms : List (FreeVar × Expr)),
      matchE (.record pfs) v = some ms ↔
        ∃ efs wss, v = .record efs ∧
          pfs.length = efs.length ∧
          pfs.map Prod.fst = efs.map Prod.fst ∧
          List.Forall₂ (fun (pe : (String × Pattern) × (String × Expr)) w =>
            matchE pe.1.2 pe.2.2 = some w) (pfs.zip efs) wss ∧
          ms = wss.flatten := by
  intro pfs v ms
  cases v with
  | record efs =>
    simp only [matchE]
    by_cases hlen : pfs.length = efs.length
    · simp only [if_pos hlen]
      rw [matchFields_characterization]
      constructor
      · rintro ⟨hlab, wss, hfa, hjoin⟩
        exact ⟨efs, wss, rfl, hlen, hlab, hfa, hjoin⟩
      · rintro ⟨efs', wss, hv, _, hlab, hfa, hjoin⟩
        cases hv
        exact ⟨hlab, wss, hfa, hjoin⟩
    · simp only [if_neg hlen]
      constructor
      · intro h
        cases h
      · rintro ⟨efs', wss, hv, hlen', _⟩
        cases hv
        exact absurd hlen' hlen
  | ann e ty =>
    constructor
    · intro h; cases h
    · rintro ⟨efs, wss, hv, _⟩; cases hv
  | lit l =>
    constructor
    · intro h; cases h
    · rintro ⟨efs, wss, hv, _⟩; cases hv
  | var w =>
    constructor
    · intro h; cases h
    · rintro ⟨efs, wss, hv, _⟩; cases hv
  | lam p b =>
    constructor
    · intro h; cases h
    · rintro ⟨efs, wss, hv, _⟩; cases hv
  | app f a =>
    constructor
    · intro h; cases h
    · rintro ⟨efs, wss, hv, _⟩; cases hv
  | proj e l =>
    constructor
    · intro h; cases h
    · rintro ⟨efs, wss, hv, _⟩; cases hv
  | tag l e =>
    constructor
    · intro h; cases h
    · rintro ⟨efs, wss, hv, _⟩; cases hv
  | case' s cls =>
    constructor
    · intro h; cases h
    · rintro ⟨efs, wss, hv, _⟩; cases hv

/-- C5 witness: the characterization applied at a concrete one-field record
pattern and matching record value. -/
theorem match_record_characterization_witness :
    ∃ efs wss, (Expr.record [("x", Expr.lit (.int 1))]) = Expr.record efs ∧
      [("x", Pattern.binder (FreeVar.user "a"))].length = efs.length ∧
      [("x", Pattern.binder (FreeVar.user "a"))].map Prod.fst = efs.map Prod.fst ∧
      List.Forall₂ (fun (pe : (String × Pattern) × (String × Expr)) w =>
        matchE pe.1.2 pe.2.2 = some w)
        ([("x", Pattern.binder (FreeVar.user "a"))].zip efs) wss ∧
      [(FreeVar.user "a", Expr.lit (.int 1))] = wss.flatten :=
  (match_record_characterization [("x", .binder (.user "a"))]
    (.record [("x", .lit (.int 1))]) [(.user "a", .lit (.int 1))]).mp rfl

/-! ### C10: the root of an evaluation result is never `Ann` -/

/-- A field of a `resOkB` record field list is itself `resOkB`. -/
theorem resOkFieldsB_mem :
    ∀ (fs : List (String × Expr)), resOkFieldsB fs = true →
      ∀ f, f ∈ fs → resOkB f.2 = true := by
  intro fs
  induction fs with
  | nil => intro _ f hf; cases hf
  | cons g fs ih =>
    obtain ⟨l, e⟩ := g
    intro h f hf
    simp only [resOkFieldsB, Bool.and_eq_true] at h
    cases hf with
    | head => exact h.1
    | tail _ hf => exact ih h.2 f hf

/-- Every successful evaluation result satisfies `resOkB` (mutually over the
evaluator and its two loop helpers). -/
theorem eval_resOk : ∀ n,
    (∀ c e r d, evalF n c e = some (r, d) → resOkB r = true) ∧
    (∀ c fs fs' d, evalFieldsGo (evalF n) c fs = some (fs', d) → resOkFieldsB fs' = true) ∧
    (∀ c a cls r d, evalClausesGo (evalF n) c a cls = some (some r, d) → resOkB r = true) := by
  intro n
  induction n with
  | zero =>
    refine ⟨?_, ?_, ?_⟩
    · intro c e r d h
      simp [evalF] at h
    · intro c fs fs' d h
      cases fs with
      | nil =>
        simp only [evalFieldsGo] at h
        cases h
        rfl
      | cons g fs =>
        obtain ⟨l, e⟩ := g
        simp [evalFieldsGo, evalF] at h
    · intro c a cls r d h
      cases cls with
      | nil =>
        simp only [evalClausesGo] at h
        cases h
      | cons g cls =>
        obtain ⟨p, b⟩ := g
        simp [evalClausesGo, evalF] at h
  | succ n ih =>
    obtain ⟨ihE, ihF, ihC⟩ := ih
    have hmain : ∀ c e r d, evalF (n + 1) c e = some (r, d) → resOkB r = true := by
      intro c e r d h
      rw [evalF_succ] at h
      cases e with
      | ann e' ty =>
        exact ihE c e' r d h
      | lit l =>
        cases h
        rfl
      | var v =>
        cases h
        rfl
      | lam p b =>
        cases h
        rfl
      | app f a =>
        simp only [evalStep] at h
        cases hf : evalF n c f with
        | none => rw [hf] at h; cases h
        | some rf =>
          obtain ⟨vf, c₁⟩ := rf
          rw [hf] at h
          cases vf with
          | lam p cb =>
            simp only at h
            cases hu : unbindS c₁ p cb with
            | mk p' u =>
              obtain ⟨b', c₂⟩ := u
              rw [hu] at h
              simp only at h
              cases ha : evalF n c₂ a with
              | none => rw [ha] at h; cases h
              | some ra =>
                obtain ⟨w, c₃⟩ := ra
                rw [ha] at h
                simp only at h
                cases hm : matchE p' w with
                | none =>
                  rw [hm] at h
                  cases h
                  rfl
                | some ms =>
                  rw [hm] at h
                  exact ihE c₃ (substsE ms b') r d h
          | ann e₀ ty => simp only at h; cases h; rfl
          | lit l => simp only at h; cases h; rfl
          | var v => simp only at h; cases h; rfl
          | app f₀ a₀ => simp only at h; cases h; rfl
          | record fs => simp only at h; cases h; rfl
          | proj e₀ l => simp only at h; cases h; rfl
          | tag l e₀ => simp only at h; cases h; rfl
          | case' s cls => simp only at h; cases h; rfl
      | record fs =>
        simp only [evalStep] at h
        cases hfs : evalFieldsGo (evalF n) c fs with
        | none => rw [hfs] at h; cases h
        | some rfs =>
          obtain ⟨fs', c₁⟩ := rfs
          rw [hfs] at h
          cases h
          exact ihF c fs fs' d hfs
      | proj e' l =>
        simp only [evalStep] at h
        cases he : evalF n c e' with
        | none => rw [he] at h; cases h
        | some re =>
          obtain ⟨v, c₁⟩ := re
          rw [he] at h
          have hv := ihE c e' v c₁ he
          cases v with
          | record fs =>
            simp only at h
            cases hfind : fs.find? (fun f => f.1 = l) with
            | some f =>
              rw [hfind] at h
              cases h
              exact resOkFieldsB_mem fs hv f (List.mem_of_find?_eq_some hfind)
            | none =>
              rw [hfind] at h
              cases h
              exact hv
          | ann e₀ ty => simp only at h; cases h; exact hv
          | lit l₀ => simp only at h; cases h; exact hv
          | var v₀ => simp only at h; cases h; exact hv
          | lam p b => simp only at h; cases h; exact hv
          | app f₀ a₀ => simp only at h; cases h; exact hv
          | proj e₀ l₀ => simp only at h; cases h; exact hv
          | tag l₀ e₀ => simp only at h; cases h; exact hv
          | case' s cls => simp only at h; cases h; exact hv
      | tag l e' =>
        simp only [evalStep] at h
        cases he : evalF n c e' with
        | none => rw [he] at h; cases h
        | some re =>
          obtain ⟨v, c₁⟩ := re
          rw [he] at h
          cases h
          rfl
      | case' a cls =>
        simp only [evalStep] at h
        cases hcl : evalClausesGo (evalF n) c a cls with
        | none => rw [hcl] at h; cases h
        | some rc =>
          obtain ⟨res, c₁⟩ := rc
          rw [hcl] at h
          cases res with
          | some r' =>
            simp only at h
            cases h
            exact ihC c a cls r d hcl
          | none =>
            simp only at h
            cases h
            rfl
    refine ⟨hmain, ?_, ?_⟩
    · intro c fs fs' d h
      induction fs generalizing c fs' with
      | nil =>
        simp only [evalFieldsGo] at h
        cases h
        rfl
      | cons g fs ihfs =>
        obtain ⟨l, e⟩ := g
        simp only [evalFieldsGo] at h
        cases he : evalF (n + 1) c e with
        | none => rw [he] at h; cases h
        | some re =>
          obtain ⟨v, c₁⟩ := re
          rw [he] at h
          simp only at h
          cases hfs : evalFieldsGo (evalF (n + 1)) c₁ fs with
          | none => rw [hfs] at h; cases h
          | some rfs =>
            obtain ⟨vs, c₂⟩ := rfs
            rw [hfs] at h
            cases h
            simp only [resOkFieldsB, Bool.and_eq_true]
            exact ⟨hmain c e v c₁ he, ihfs c₁ vs hfs⟩
    · intro c a cls r d h
      induction cls generalizing c with
      | nil =>
        simp only [evalClausesGo] at h
        cases h
      | cons g cls ihcl =>
        obtain ⟨p, b⟩ := g
        simp only [evalClausesGo] at h
        cases hu : unbindS c p b with
        | mk p' u =>
          obtain ⟨b', c₁⟩ := u
          rw [hu] at h
          simp only at h
          cases ha : evalF (n + 1) c₁ a with
          | none => rw [ha] at h; cases h
          | some ra =>
            obtain ⟨w, c₂⟩ := ra
            rw [ha] at h
            simp only at h
            cases hm : matchE p' w with
            | some ms =>
              rw [hm] at h
              simp only at h
              cases hb : evalF (n + 1) c₂ (substsE ms b') with
              | none => rw [hb] at h; cases h
              | some rb =>
                obtain ⟨r', c₃⟩ := rb
                rw [hb] at h
                cases h
                exact hmain c₂ (substsE ms b') r d hb
            | none =>
              rw [hm] at h
              exact ihcl c₂ h

/-- C10: the root constructor of an evaluation result is never `Ann`: every
result path of `eval` either strips a top-level annotation by recursing,
returns a value constructor, returns a stored record field or an evaluated
scrutinee (themselves results), or returns a stuck `App` or `Case` node. -/
theorem eval_result_not_ann (n c : Nat) (e r : Expr) (d : Nat)
    (h : evalF n c e = some (r, d)) : r.isAnn = false := by
  have hok := (eval_resOk n).1 c e r d h
  cases r with
  | ann e₀ ty => simp [resOkB] at hok
  | lit _ => rfl
  | var _ => rfl
  | lam _ _ => rfl
  | app _ _ => rfl
  | record _ => rfl
  | proj _ _ => rfl
  | tag _ _ => rfl
  | case' _ _ => rfl

/-- C10 witness: the theorem applied to the evaluation of a concrete
annotated literal. -/
theorem eval_result_not_ann_witness :
    (Expr.lit (.int 1)).isAnn = false :=
  eval_result_not_ann 2 0 (.ann (.lit (.int 1)) .int) (.lit (.int 1)) 0 rfl

/-! ### C2: inference success implies checking success -/

/-- If `infer_pattern` synthesizes a type for a pattern, then
`check_pattern` of that pattern against the synthesized type succeeds with
the same telescope (checking falls back to re-inference and a reflexive
`term_eq` comparison in every case `infer_pattern` can produce). -/
theorem infer_pattern_check (Γ : Ctx) (p : Pattern) (ty : Ty) (tele : Ctx)
    (h : infer_pattern Γ p = .ok (ty, tele)) : check_pattern Γ p ty = .ok tele := by
  cases p with
  | ann p' t =>
    simp only [infer_pattern, patF] at h
    simp only [check_pattern, patF]
    rw [h]
    have : t = ty := by
      cases hc : (patF Γ p').2 t with
      | error msg => rw [hc] at h; cases h
      | ok tele' => rw [hc] at h; cases h; rfl
    subst this
    simp [tyEq_refl]
  | lit l =>
    cases l with
    | int m =>
      simp only [infer_pattern, patF] at h
      cases h
      simp [check_pattern, patF, tyEq_refl]
    | float f =>
      simp only [infer_pattern, patF] at h
      cases h
      simp [check_pattern, patF, tyEq_refl]
    | str s =>
      simp only [infer_pattern, patF] at h
      cases h
      simp [check_pattern, patF, tyEq_refl]
  | binder fv =>
    simp only [infer_pattern, patF] at h
    cases h
  | record fs =>
    simp only [infer_pattern, patF] at h
    simp only [check_pattern, patF]
    rw [h]
    simp [tyEq_refl]
  | tag label p' =>
    simp only [infer_pattern, patF] at h
    cases h

/-- C2: whenever `infer_expr` succeeds with type `τ` (and final allocator
counter `c'`), `check_expr` of the same expression against `τ`, from the
same allocator counter, succeeds (with the same final counter).  The fuel
offset reflects that `check_expr` reaches the corresponding `infer_expr`
call one recursion level deeper (its infer-then-compare fallback). -/
theorem infer_implies_check :
    ∀ (n : Nat) (Γ : Ctx) (e : Expr) (τ : Ty) (c c' : Nat),
      infer_expr n Γ e c = some (.ok (τ, c')) →
      check_expr (n + 1) Γ e τ c = some (.ok c') := by
  intro n
  induction n with
  | zero =>
    intro Γ e τ c c' h
    cases h
  | succ n ih =>
    intro Γ e τ c c' h
    rw [infer_expr_succ] at h
    rw [check_expr_succ]
    cases e with
    | ann e' ty =>
      simp only [inferStep] at h
      cases hc : check_expr n Γ e' ty c with
      | none => rw [hc] at h; cases h
      | some res =>
        rw [hc] at h
        cases res with
        | error msg => simp only at h; cases h
        | ok c₁ =>
          simp only at h
          cases h
          simp only [checkStep, infer_expr_succ, inferStep, hc]
          simp [tyEq_refl]
    | lit l =>
      cases l with
      | int m =>
        simp only [inferStep] at h
        cases h
        simp [checkStep, infer_expr_succ, inferStep, tyEq_refl]
      | float f =>
        simp only [inferStep] at h
        cases h
        simp [checkStep, infer_expr_succ, inferStep, tyEq_refl]
      | str s =>
        simp only [inferStep] at h
        cases h
        simp [checkStep, infer_expr_succ, inferStep, tyEq_refl]
    | var v =>
      cases v with
      | free fv =>
        simp only [inferStep] at h
        cases hg : Γ fv with
        | none => rw [hg] at h; cases h
        | some ty =>
          rw [hg] at h
          simp only at h
          cases h
          simp [checkStep, infer_expr_succ, inferStep, hg, tyEq_refl]
      | bound d i =>
        simp only [inferStep] at h
        cases h
    | lam p b =>
      simp only [inferStep] at h
      cases hu : unbindS c p b with
      | mk p' u =>
        obtain ⟨b', c₁⟩ := u
        rw [hu] at h
        simp only at h
        cases hip : infer_pattern Γ p' with
        | error msg => rw [hip] at h; cases h
        | ok r =>
          obtain ⟨ann, binds⟩ := r
          rw [hip] at h
          simp only at h
          cases hib : infer_expr n (ctxUnion Γ binds) b' c₁ with
          | none => rw [hib] at h; cases h
          | some res =>
            rw [hib] at h
            cases res with
            | error msg => simp only at h; cases h
            | ok r' =>
              obtain ⟨bty, c₂⟩ := r'
              simp only at h
              cases h
              simp only [checkStep, hu]
              rw [infer_pattern_check Γ p' ann binds hip]
              exact ih (ctxUnion Γ binds) b' bty c₁ c' hib
    | app f a =>
      simp only [inferStep] at h
      cases hf : infer_expr n Γ f c with
      | none => rw [hf] at h; cases h
      | some res =>
        rw [hf] at h
        cases res with
        | error msg => simp only at h; cases h
        | ok r =>
          obtain ⟨fty, c₁⟩ := r
          simp only at h
          cases fty with
          | arrow param ret =>
            simp only at h
            cases ha : infer_expr n Γ a c₁ with
            | none => rw [ha] at h; cases h
            | some res' =>
              rw [ha] at h
              cases res' with
              | error msg => simp only at h; cases h
              | ok r' =>
                obtain ⟨aty, c₂⟩ := r'
                simp only at h
                by_cases hty : tyEq param aty = true
                · rw [if_pos hty] at h
                  cases h
                  simp only [checkStep, infer_expr_succ, inferStep, hf, ha]
                  rw [if_pos hty]
                  simp [tyEq_refl]
                · rw [if_neg hty] at h
                  cases h
          | int => simp only at h; cases h
          | float => simp only at h; cases h
          | str => simp only at h; cases h
          | record fields => simp only at h; cases h
          | variant fields => simp only at h; cases h
    | record fs =>
      simp only [inferStep] at h
      cases hfs : inferFieldsGo (infer_expr n) Γ fs c with
      | none => rw [hfs] at h; cases h
      | some res =>
        rw [hfs] at h
        cases res with
        | error msg => simp only at h; cases h
        | ok r =>
          simp only at h
          cases h
          simp only [checkStep, infer_expr_succ, inferStep, hfs]
          simp [tyEq_refl]
    | proj e' label =>
      simp only [inferStep] at h
      cases he : infer_expr n Γ e' c with
      | none => rw [he] at h; cases h
      | some res =>
        rw [he] at h
        cases res with
        | error msg => simp only at h; cases h
        | ok r =>
          obtain ⟨ty, c₁⟩ := r
          simp only at h
          cases ty with
          | record fields =>
            simp only at h
            cases hfind : fields.find? (fun f => f.1 = label) with
            | none => rw [hfind] at h; cases h
            | some f =>
              rw [hfind] at h
              simp only at h
              cases h
              simp only [checkStep, infer_expr_succ, inferStep, he, hfind]
              simp [tyEq_refl]
          | int => simp only at h; cases h
          | float => simp only at h; cases h
          | str => simp only at h; cases h
          | arrow dom cod => simp only at h; cases h
          | variant fields => simp only at h; cases h
    | tag label e' =>
      simp only [inferStep] at h
      cases h
    | case' s cls =>
      simp only [inferStep] at h
      cases h

/-- C2 witness: the theorem applied to the inference of a concrete literal. -/
theorem infer_implies_check_witness :
    check_expr 2 ctxEmpty (.lit (.int 1)) .int 0 = some (.ok 0) :=
  infer_implies_check 1 ctxEmpty (.lit (.int 1)) .int 0 0 rfl

/-! ### C8: the bound-variable panic is the checker's only abort -/

/-- The number of fresh tokens drawn. -/
theorem freshVars_length (c k : Nat) : (freshVars c k).length = k := by
  simp [freshVars]

mutual

theorem esize_openE : ∀ (e : Expr) (d : Nat) (vs : List FreeVar),
    esize (openE d vs e) = esize e
  | .ann e t, d, vs => by simp [openE, esize, esize_openE e d vs]
  | .lit l, d, vs => rfl
  | .var (.free fv), d, vs => rfl
  | .var (.bound d' i), d, vs => by
    simp only [openE]
    split
    · cases h : vs[i]? <;> simp [esize]
    · rfl
  | .lam p b, d, vs => by simp [openE, esize, esize_openE b (d + 1) vs]
  | .app f a, d, vs => by simp [openE, esize, esize_openE f d vs, esize_openE a d vs]
  | .record fs, d, vs => by simp [openE, esize, esizeFields_openFields fs d vs]
  | .proj e l, d, vs => by simp [openE, esize, esize_openE e d vs]
  | .tag l e, d, vs => by simp [openE, esize, esize_openE e d vs]
  | .case' s cls, d, vs => by
    simp [openE, esize, esize_openE s d vs, esizeClauses_openClauses cls d vs]

theorem esizeFields_openFields : ∀ (fs : List (String × Expr)) (d : Nat) (vs : List FreeVar),
    esizeFields (openFields d vs fs) = esizeFields fs
  | [], _, _ => rfl
  | (l, e) :: fs, d, vs => by
    simp [openFields, esizeFields, esize_openE e d vs, esizeFields_openFields fs d vs]

theorem esizeClauses_openClauses : ∀ (cls : List (Pattern × Expr)) (d : Nat) (vs : List FreeVar),
    esizeClauses (openClauses d vs cls) = esizeClauses cls
  | [], _, _ => rfl
  | (p, b) :: cls, d, vs => by
    simp [openClauses, esizeClauses, esize_openE b (d + 1) vs,
      esizeClauses_openClauses cls d vs]

end

mutual

theorem lcAtB_open : ∀ (e : Expr) (stack : List Nat) (k : Nat) (vs : List FreeVar),
    vs.length = k → lcAtB (stack ++ [k]) e = true →
    lcAtB stack (openE stack.length vs e) = true
  | .ann e t, stack, k, vs, hlen, h => by
    simp only [lcAtB, openE] at h ⊢
    exact lcAtB_open e stack k vs hlen h
  | .lit l, _, _, _, _, _ => rfl
  | .var (.free fv), stack, k, vs, _, _ => by simp [openE, lcAtB]
  | .var (.bound d i), stack, k, vs, hlen, h => by
    simp only [lcAtB, Bool.and_eq_true, decide_eq_true_eq] at h
    obtain ⟨hd, hi⟩ := h
    simp only [List.length_append, List.length_cons, List.length_nil] at hd
    simp only [openE]
    by_cases hdd : d = stack.length
    · subst hdd
      have hk : (stack ++ [k]).getD stack.length 0 = k := by
        rw [List.getD_eq_getElem?_getD, List.getElem?_append_right (le_refl _)]
        simp
      rw [hk] at hi
      have hlt : i < vs.length := by omega
      rw [if_pos rfl, List.getElem?_eq_getElem hlt]
      simp [lcAtB]
    · rw [if_neg hdd]
      have hd' : d < stack.length := by omega
      have hg : (stack ++ [k]).getD d 0 = stack.getD d 0 := by
        rw [List.getD_eq_getElem?_getD, List.getD_eq_getElem?_getD,
          List.getElem?_append_left hd']
      rw [hg] at hi
      simp only [lcAtB, Bool.and_eq_true, decide_eq_true_eq]
      exact ⟨hd', hi⟩
  | .lam p b, stack, k, vs, hlen, h => by
    simp only [lcAtB, openE] at h ⊢
    exact lcAtB_open b (p.binders.length :: stack) k vs hlen h
  | .app f a, stack, k, vs, hlen, h => by
    simp only [lcAtB, openE, Bool.and_eq_true] at h ⊢
    exact ⟨lcAtB_open f stack k vs hlen h.1, lcAtB_open a stack k vs hlen h.2⟩
  | .record fs, stack, k, vs, hlen, h => by
    simp only [lcAtB, openE] at h ⊢
    exact lcFields_open fs stack k vs hlen h
  | .proj e l, stack, k, vs, hlen, h => by
    simp only [lcAtB, openE] at h ⊢
    exact lcAtB_open e stack k vs hlen h
  | .tag l e, stack, k, vs, hlen, h => by
    simp only [lcAtB, openE] at h ⊢
    exact lcAtB_open e stack k vs hlen h
  | .case' s cls, stack, k, vs, hlen, h => by
    simp only [lcAtB, openE, Bool.and_eq_true] at h ⊢
    exact ⟨lcAtB_open s stack k vs hlen h.1, lcClauses_open cls stack k vs hlen h.2⟩

theorem lcFields_open : ∀ (fs : List (String × Expr)) (stack : List Nat) (k : Nat)
    (vs : List FreeVar), vs.length = k → lcFields (stack ++ [k]) fs = true →
    lcFields stack (openFields stack.length vs fs) = true
  | [], _, _, _, _, _ => rfl
  | (l, e) :: fs, stack, k, vs, hlen, h => by
    simp only [lcFields, openFields, Bool.and_eq_true] at h ⊢
    exact ⟨lcAtB_open e stack k vs hlen h.1, lcFields_open fs stack k vs hlen h.2⟩

theorem lcClauses_open : ∀ (cls : List (Pattern × Expr)) (stack : List Nat) (k : Nat)
    (vs : List FreeVar), vs.length = k → lcClauses (stack ++ [k]) cls = true →
    lcClauses stack (openClauses stack.length vs cls) = true
  | [], _, _, _, _, _ => rfl
  | (p, b) :: cls, stack, k, vs, hlen, h => by
    simp only [lcClauses, openClauses, Bool.and_eq_true] at h ⊢
    exact ⟨lcAtB_open b (p.binders.length :: stack) k vs hlen h.1,
      lcClauses_open cls stack k vs hlen h.2⟩

end

/-- The pattern and opened body produced by `unbind` (convenient unfolding:
`unbindS` is a straight `let`). -/
theorem unbindS_eq (c : Nat) (p : Pattern) (b : Expr) :
    unbindS c p b =
      ((renameP (freshVars c p.binders.length) p).1,
       openE 0 (freshVars c p.binders.length) b, c + p.binders.length) := rfl

/-- `lcAtB` of the body opened by `unbind`, from well-scopedness of the
enclosing scope. -/
theorem lcAtB_unbind_body (c : Nat) (p : Pattern) (b : Expr)
    (h : lcAtB [p.binders.length] b = true) :
    lcAtB [] (openE 0 (freshVars c p.binders.length) b) = true := by
  have := lcAtB_open b [] p.binders.length (freshVars c p.binders.length)
    (freshVars_length c _) (by simpa using h)
  simpa using this

/-- C8: (i) `infer_expr` on a bound-variable reference aborts (`panic!` —
embedded as `none`) instead of returning a normal error value, and (ii) this
is the only such condition: on well-scoped input (every bound reference
introduced by an enclosing scope) neither checker function can abort, given
fuel beyond the structural recursion depth. -/
theorem checker_bound_var_panics_only :
    (∀ (n : Nat) (Γ : Ctx) (d i c : Nat),
      infer_expr (n + 1) Γ (.var (.bound d i)) c = none) ∧
    (∀ (n : Nat) (Γ : Ctx) (e : Expr) (c : Nat),
      lcAtB [] e = true → 2 * esize e < n → infer_expr n Γ e c ≠ none) ∧
    (∀ (n : Nat) (Γ : Ctx) (e : Expr) (τ : Ty) (c : Nat),
      lcAtB [] e = true → 2 * esize e + 1 < n → check_expr n Γ e τ c ≠ none) := by
  have main : ∀ (n : Nat),
      (∀ (Γ : Ctx) (e : Expr) (c : Nat),
        lcAtB [] e = true → 2 * esize e < n → infer_expr n Γ e c ≠ none) ∧
      (∀ (Γ : Ctx) (e : Expr) (τ : Ty) (c : Nat),
        lcAtB [] e = true → 2 * esize e + 1 < n → check_expr n Γ e τ c ≠ none) := by
    intro n
    induction n with
    | zero =>
      constructor
      · intro Γ e c _ hsz
        omega
      · intro Γ e τ c _ hsz
        omega
    | succ n ih =>
      obtain ⟨ihI, ihC⟩ := ih
      have hinf : ∀ (Γ : Ctx) (e : Expr) (c : Nat),
          lcAtB [] e = true → 2 * esize e < n + 1 → infer_expr (n + 1) Γ e c ≠ none := by
        intro Γ e c hlc hsz
        rw [infer_expr_succ]
        cases e with
        | ann e' ty =>
          simp only [inferStep]
          cases hc : check_expr n Γ e' ty c with
          | none =>
            exfalso
            refine ihC Γ e' ty c (by simpa [lcAtB] using hlc) ?_ hc
            simp only [esize] at hsz
            omega
          | some res => cases res <;> simp
        | lit l =>
          cases l <;> simp [inferStep]
        | var v =>
          cases v with
          | free fv =>
            simp only [inferStep]
            cases Γ fv <;> simp
          | bound d i =>
            simp [lcAtB] at hlc
        | lam p b =>
          simp only [inferStep, unbindS_eq]
          cases hip : infer_pattern Γ (renameP (freshVars c p.binders.length) p).1 with
          | error msg => simp
          | ok r =>
            simp only
            cases hib : infer_expr n (ctxUnion Γ r.2)
                (openE 0 (freshVars c p.binders.length) b) (c + p.binders.length) with
            | none =>
              exfalso
              refine ihI _ _ _ (lcAtB_unbind_body c p b (by simpa [lcAtB] using hlc)) ?_ hib
              rw [esize_openE]
              simp only [esize] at hsz
              omega
            | some res => cases res <;> simp
        | app f a =>
          simp only [inferStep]
          simp only [lcAtB, Bool.and_eq_true] at hlc
          simp only [esize] at hsz
          cases hf : infer_expr n Γ f c with
          | none => exact absurd hf (ihI Γ f c hlc.1 (by omega))
          | some res =>
            cases res with
            | error msg => simp
            | ok r =>
              simp only
              cases r.1 with
              | arrow param ret =>
                simp only
                cases ha : infer_expr n Γ a r.2 with
                | none => exact absurd ha (ihI Γ a r.2 hlc.2 (by omega))
                | some res' =>
                  cases res' with
                  | error msg => simp
                  | ok r' =>
                    simp only
                    split <;> simp
              | int => simp
              | float => simp
              | str => simp
              | record fields => simp
              | variant fields => simp
        | record fs =>
          simp only [inferStep]
          simp only [lcAtB] at hlc
          simp only [esize] at hsz
          have hloop : ∀ (fs' : List (String × Expr)) (c₀ : Nat),
              lcFields [] fs' = true → esizeFields fs' ≤ esizeFields fs →
              inferFieldsGo (infer_expr n) Γ fs' c₀ ≠ none := by
            intro fs'
            induction fs' with
            | nil =>
              intro c₀ _ _
              simp [inferFieldsGo]
            | cons g fs'' ihfs =>
              obtain ⟨l, e⟩ := g
              intro c₀ hlc' hszf
              simp only [lcFields, Bool.and_eq_true] at hlc'
              simp only [esizeFields] at hszf
              simp only [inferFieldsGo]
              cases he : infer_expr n Γ e c₀ with
              | none => exact absurd he (ihI Γ e c₀ hlc'.1 (by omega))
              | some res =>
                cases res with
                | error msg => simp
                | ok r =>
                  simp only
                  cases hrest : inferFieldsGo (infer_expr n) Γ fs'' r.2 with
                  | none => exact absurd hrest (ihfs r.2 hlc'.2 (by omega))
                  | some res' => cases res' <;> simp
          cases hfs : inferFieldsGo (infer_expr n) Γ fs c with
          | none => exact absurd hfs (hloop fs c hlc (le_refl _))
          | some res => cases res <;> simp
        | proj e' label =>
          simp only [inferStep]
          simp only [lcAtB] at hlc
          simp only [esize] at hsz
          cases he : infer_expr n Γ e' c with
          | none => exact absurd he (ihI Γ e' c hlc (by omega))
          | some res =>
            cases res with
            | error msg => simp
            | ok r =>
              simp only
              cases r.1 with
              | record fields =>
                simp only
                cases fields.find? (fun f => f.1 = label) <;> simp
              | int => simp
              | float => simp
              | str => simp
              | arrow dom cod => simp
              | variant fields => simp
        | tag label e' => simp [inferStep]
        | case' s cls => simp [inferStep]
      refine ⟨hinf, ?_⟩
      intro Γ e τ c hlc hsz
      have hfall : ∀ (e : Expr) (τ : Ty) (c : Nat), lcAtB [] e = true → 2 * esize e < n →
          (match infer_expr n Γ e c with
           | none => none
           | some (.error msg) => some (.error msg)
           | some (.ok r) =>
             if tyEq r.1 τ then some (.ok r.2) else some (.error "type mismatch")) ≠
            (none : Option (Except String Nat)) := by
        intro e τ c hlc hsz
        cases hi : infer_expr n Γ e c with
        | none => exact absurd hi (ihI Γ e c hlc hsz)
        | some res =>
          cases res with
          | error msg => simp
          | ok r =>
            simp only
            split <;> simp
      rw [check_expr_succ]
      cases e with
      | lam p b =>
        cases τ with
        | arrow param ret =>
          simp only [checkStep, unbindS_eq]
          cases hcp : check_pattern Γ (renameP (freshVars c p.binders.length) p).1 param with
          | error msg => simp
          | ok bindings =>
            simp only
            intro hnone
            refine ihC _ _ _ _ (lcAtB_unbind_body c p b (by simpa [lcAtB] using hlc)) ?_ hnone
            rw [esize_openE]
            simp only [esize] at hsz
            omega
        | int => exact hfall _ _ c hlc (by omega)
        | float => exact hfall _ _ c hlc (by omega)
        | str => exact hfall _ _ c hlc (by omega)
        | record fields => exact hfall _ _ c hlc (by omega)
        | variant fields => exact hfall _ _ c hlc (by omega)
      | tag label e' =>
        cases τ with
        | variant variants =>
          simp only [checkStep]
          cases variants.find? (fun v => v.1 = label) with
          | none => simp
          | some v =>
            simp only
            intro hnone
            refine ihC Γ e' v.2 c (by simpa [lcAtB] using hlc) ?_ hnone
            simp only [esize] at hsz
            omega
        | int => exact hfall _ _ c hlc (by omega)
        | float => exact hfall _ _ c hlc (by omega)
        | str => exact hfall _ _ c hlc (by omega)
        | arrow dom cod => exact hfall _ _ c hlc (by omega)
        | record fields => exact hfall _ _ c hlc (by omega)
      | case' s cls =>
        simp only [checkStep]
        simp only [lcAtB, Bool.and_eq_true] at hlc
        simp only [esize] at hsz
        cases hs : infer_expr n Γ s c with
        | none => exact absurd hs (ihI Γ s c hlc.1 (by omega))
        | some res =>
          cases res with
          | error msg => simp
          | ok r =>
            simp only
            have hloop : ∀ (cls' : List (Pattern × Expr)) (c₀ : Nat),
                lcClauses [] cls' = true → esizeClauses cls' ≤ esizeClauses cls →
                checkClausesGo (check_expr n) Γ r.1 τ cls' c₀ ≠ none := by
              intro cls'
              induction cls' with
              | nil =>
                intro c₀ _ _
                simp [checkClausesGo]
              | cons g cls'' ihcl =>
                obtain ⟨p, b⟩ := g
                intro c₀ hlc' hszc
                simp only [lcClauses, Bool.and_eq_true] at hlc'
                simp only [esizeClauses] at hszc
                simp only [checkClausesGo, unbindS_eq]
                cases hcp : check_pattern Γ (renameP (freshVars c₀ p.binders.length) p).1 r.1 with
                | error msg => simp
                | ok bindings =>
                  simp only
                  cases hb : check_expr n (ctxUnion Γ bindings)
                      (openE 0 (freshVars c₀ p.binders.length) b) τ
                      (c₀ + p.binders.length) with
                  | none =>
                    exfalso
                    refine ihC _ _ _ _ (lcAtB_unbind_body c₀ p b hlc'.1) ?_ hb
                    rw [esize_openE]
                    omega
                  | some res' =>
                    cases res' with
                    | error msg => simp
                    | ok c₂ =>
                      simp only
                      exact ihcl c₂ hlc'.2 (by omega)
            exact hloop cls r.2 hlc.2 (le_refl _)
      | ann e' ty => exact hfall _ _ c hlc (by omega)
      | lit l => exact hfall _ _ c hlc (by omega)
      | var v => exact hfall _ _ c hlc (by omega)
      | app f a => exact hfall _ _ c hlc (by omega)
      | record fs => exact hfall _ _ c hlc (by omega)
      | proj e' label => exact hfall _ _ c hlc (by omega)
  refine ⟨?_, fun n => (main n).1, fun n => (main n).2⟩
  intro n Γ d i c
  rfl

/-! ### Freshness and free-variable lemmas -/

theorem freshVars_mem {c k : Nat} {v : FreeVar} :
    v ∈ freshVars c k ↔ ∃ i, i < k ∧ v = .gen (c + i) := by
  constructor
  · intro h
    simp only [freshVars, List.mem_map, List.mem_range] at h
    obtain ⟨i, hi, rfl⟩ := h
    exact ⟨i, hi, rfl⟩
  · rintro ⟨i, hi, rfl⟩
    simp only [freshVars, List.mem_map, List.mem_range]
    exact ⟨i, hi, rfl⟩

theorem freshVars_nodup (c k : Nat) : (freshVars c k).Nodup := by
  refine List.Nodup.map ?_ (List.nodup_range k)
  intro i j h
  simp only [FreeVar.gen.injEq] at h
  omega

/-- `genBelowB` unfolded to membership. -/
theorem genBelowB_iff {c : Nat} {e : Expr} :
    genBelowB c e = true ↔ ∀ x ∈ fvarsE e, x.below c = true := by
  simp [genBelowB, List.all_eq_true]

/-- `gbFields` unfolded to membership. -/
theorem gbFields_iff {c : Nat} {fs : List (String × Expr)} :
    gbFields c fs = true ↔ ∀ x ∈ fvarsFields fs, x.below c = true := by
  simp [gbFields, List.all_eq_true]

theorem below_mono {c c' : Nat} (h : c ≤ c') {x : FreeVar} (hx : x.below c = true) :
    x.below c' = true := by
  cases x with
  | user s => rfl
  | gen i =>
    simp [FreeVar.below] at hx ⊢
    omega

theorem genBelowB_mono {c c' : Nat} (h : c ≤ c') {e : Expr}
    (he : genBelowB c e = true) : genBelowB c' e = true := by
  rw [genBelowB_iff] at he ⊢
  exact fun x hx => below_mono h (he x hx)

/-- A fresh token is never free in a hygienic expression. -/
theorem freshVars_not_mem_fvars {c k : Nat} {e : Expr} (hgb : genBelowB c e = true) :
    ∀ v ∈ freshVars c k, v ∉ fvarsE e := by
  intro v hv hmem
  obtain ⟨i, hi, rfl⟩ := freshVars_mem.mp hv
  have := (genBelowB_iff.mp hgb) _ hmem
  simp [FreeVar.below] at this

mutual

theorem fvarsE_open : ∀ (e : Expr) (d : Nat) (vs : List FreeVar) (x : FreeVar),
    x ∈ fvarsE (openE d vs e) → x ∈ fvarsE e ∨ x ∈ vs
  | .ann e t, d, vs, x => fun h => fvarsE_open e d vs x h
  | .lit l, _, _, _ => fun h => by cases h
  | .var (.free fv), d, vs, x => fun h => .inl h
  | .var (.bound d' i), d, vs, x => fun h => by
    simp only [openE] at h
    split at h
    · cases hv : vs[i]? with
      | some fv =>
        rw [hv] at h
        simp [fvarsE] at h
        subst h
        exact .inr (List.getElem?_mem hv)
      | none =>
        rw [hv] at h
        cases h
    · cases h
  | .lam p b, d, vs, x => fun h => fvarsE_open b (d + 1) vs x h
  | .app f a, d, vs, x => fun h => by
    simp only [openE, fvarsE, List.mem_append] at h ⊢
    rcases h with h | h
    · rcases fvarsE_open f d vs x h with h' | h'
      · exact .inl (.inl h')
      · exact .inr h'
    · rcases fvarsE_open a d vs x h with h' | h'
      · exact .inl (.inr h')
      · exact .inr h'
  | .record fs, d, vs, x => fun h => fvarsFields_open fs d vs x h
  | .proj e l, d, vs, x => fun h => fvarsE_open e d vs x h
  | .tag l e, d, vs, x => fun h => fvarsE_open e d vs x h
  | .case' s cls, d, vs, x => fun h => by
    simp only [openE, fvarsE, List.mem_append] at h ⊢
    rcases h with h | h
    · rcases fvarsE_open s d vs x h with h' | h'
      · exact .inl (.inl h')
      · exact .inr h'
    · rcases fvarsClauses_open cls d vs x h with h' | h'
      · exact .inl (.inr h')
      · exact .inr h'

theorem fvarsFields_open : ∀ (fs : List (String × Expr)) (d : Nat) (vs : List FreeVar)
    (x : FreeVar), x ∈ fvarsFields (openFields d vs fs) → x ∈ fvarsFields fs ∨ x ∈ vs
  | [], _, _, _ => fun h => by cases h
  | (l, e) :: fs, d, vs, x => fun h => by
    simp only [openFields, fvarsFields, List.mem_append] at h ⊢
    rcases h with h | h
    · rcases fvarsE_open e d vs x h with h' | h'
      · exact .inl (.inl h')
      · exact .inr h'
    · rcases fvarsFields_open fs d vs x h with h' | h'
      · exact .inl (.inr h')
      · exact .inr h'

theorem fvarsClauses_open : ∀ (cls : List (Pattern × Expr)) (d : Nat) (vs : List FreeVar)
    (x : FreeVar), x ∈ fvarsClauses (openClauses d vs cls) → x ∈ fvarsClauses cls ∨ x ∈ vs
  | [], _, _, _ => fun h => by cases h
  | (p, b) :: cls, d, vs, x => fun h => by
    simp only [openClauses, fvarsClauses, List.mem_append] at h ⊢
    rcases h with h | h
    · rcases fvarsE_open b (d + 1) vs x h with h' | h'
      · exact .inl (.inl h')
      · exact .inr h'
    · rcases fvarsClauses_open cls d vs x h with h' | h'
      · exact .inl (.inr h')
      · exact .inr h'

end

mutual

theorem fvarsE_substs : ∀ (e : Expr) (ms : List (FreeVar × Expr)) (x : FreeVar),
    x ∈ fvarsE (substsE ms e) →
    (x ∈ fvarsE e ∧ ∀ m ∈ ms, m.1 ≠ x) ∨ ∃ m ∈ ms, x ∈ fvarsE m.2
  | .ann e t, ms, x => fun h => fvarsE_substs e ms x h
  | .lit l, _, _ => fun h => by cases h
  | .var v, ms, x => fun h => by
    simp only [substsE] at h
    cases hf : ms.find? (fun m => varEqFree v m.1) with
    | some m =>
      rw [hf] at h
      exact .inr ⟨m, List.mem_of_find?_eq_some hf, h⟩
    | none =>
      rw [hf] at h
      cases v with
      | free fv =>
        simp [fvarsE] at h
        subst h
        refine .inl ⟨by simp [fvarsE], ?_⟩
        intro m hm heq
        have := List.find?_eq_none.mp hf m hm
        simp [varEqFree, heq] at this
      | bound d i => cases h
  | .lam p b, ms, x => fun h => fvarsE_substs b ms x h
  | .app f a, ms, x => fun h => by
    simp only [substsE, fvarsE, List.mem_append] at h
    rcases h with h | h
    · rcases fvarsE_substs f ms x h with ⟨h₁, h₂⟩ | h'
      · exact .inl ⟨by simp [fvarsE, List.mem_append, h₁], h₂⟩
      · exact .inr h'
    · rcases fvarsE_substs a ms x h with ⟨h₁, h₂⟩ | h'
      · exact .inl ⟨by simp [fvarsE, List.mem_append, h₁], h₂⟩
      · exact .inr h'
  | .record fs, ms, x => fun h => fvarsFields_substs fs ms x h
  | .proj e l, ms, x => fun h => fvarsE_substs e ms x h
  | .tag l e, ms, x => fun h => fvarsE_substs e ms x h
  | .case' s cls, ms, x => fun h => by
    simp only [substsE, fvarsE, List.mem_append] at h
    rcases h with h | h
    · rcases fvarsE_substs s ms x h with ⟨h₁, h₂⟩ | h'
      · exact .inl ⟨by simp [fvarsE, List.mem_append, h₁], h₂⟩
      · exact .inr h'
    · rcases fvarsClauses_substs cls ms x h with ⟨h₁, h₂⟩ | h'
      · exact .inl ⟨by simp [fvarsE, List.mem_append, h₁], h₂⟩
      · exact .inr h'

theorem fvarsFields_substs : ∀ (fs : List (String × Expr)) (ms : List (FreeVar × Expr))
    (x : FreeVar), x ∈ fvarsFields (substsFields ms fs) →
    (x ∈ fvarsFields fs ∧ ∀ m ∈ ms, m.1 ≠ x) ∨ ∃ m ∈ ms, x ∈ fvarsE m.2
  | [], _, _ => fun h => by cases h
  | (l, e) :: fs, ms, x => fun h => by
    simp only [substsFields, fvarsFields, List.mem_append] at h
    rcases h with h | h
    · rcases fvarsE_substs e ms x h with ⟨h₁, h₂⟩ | h'
      · exact .inl ⟨by simp [fvarsFields, List.mem_append, h₁], h₂⟩
      · exact .inr h'
    · rcases fvarsFields_substs fs ms x h with ⟨h₁, h₂⟩ | h'
      · exact .inl ⟨by simp [fvarsFields, List.mem_append, h₁], h₂⟩
      · exact .inr h'

theorem fvarsClauses_substs : ∀ (cls : List (Pattern × Expr)) (ms : List (FreeVar × Expr))
    (x : FreeVar), x ∈ fvarsClauses (substsClauses ms cls) →
    (x ∈ fvarsClauses cls ∧ ∀ m ∈ ms, m.1 ≠ x) ∨ ∃ m ∈ ms, x ∈ fvarsE m.2
  | [], _, _ => fun h => by cases h
  | (p, b) :: cls, ms, x => fun h => by
    simp only [substsClauses, fvarsClauses, List.mem_append] at h
    rcases h with h | h
    · rcases fvarsE_substs b ms x h with ⟨h₁, h₂⟩ | h'
      · exact .inl ⟨by simp [fvarsClauses, List.mem_append, h₁], h₂⟩
      · exact .inr h'
    · rcases fvarsClauses_substs cls ms x h with ⟨h₁, h₂⟩ | h'
      · exact .inl ⟨by simp [fvarsClauses, List.mem_append, h₁], h₂⟩
      · exact .inr h'

end

mutual

theorem fvarsE_inst : ∀ (e : Expr) (d : Nat) (ws : List Expr) (x : FreeVar),
    x ∈ fvarsE (instE d ws e) → x ∈ fvarsE e ∨ ∃ w ∈ ws, x ∈ fvarsE w
  | .ann e t, d, ws, x => fun h => fvarsE_inst e d ws x h
  | .lit l, _, _, _ => fun h => by cases h
  | .var (.free fv), d, ws, x => fun h => .inl h
  | .var (.bound d' i), d, ws, x => fun h => by
    simp only [instE] at h
    split at h
    · cases hw : ws[i]? with
      | some w =>
        rw [hw] at h
        exact .inr ⟨w, List.getElem?_mem hw, h⟩
      | none =>
        rw [hw] at h
        cases h
    · cases h
  | .lam p b, d, ws, x => fun h => fvarsE_inst b (d + 1) ws x h
  | .app f a, d, ws, x => fun h => by
    simp only [instE, fvarsE, List.mem_append] at h ⊢
    rcases h with h | h
    · rcases fvarsE_inst f d ws x h with h' | h'
      · exact .inl (.inl h')
      · exact .inr h'
    · rcases fvarsE_inst a d ws x h with h' | h'
      · exact .inl (.inr h')
      · exact .inr h'
  | .record fs, d, ws, x => fun h => fvarsFields_inst fs d ws x h
  | .proj e l, d, ws, x => fun h => fvarsE_inst e d ws x h
  | .tag l e, d, ws, x => fun h => fvarsE_inst e d ws x h
  | .case' s cls, d, ws, x => fun h => by
    simp only [instE, fvarsE, List.mem_append] at h ⊢
    rcases h with h | h
    · rcases fvarsE_inst s d ws x h with h' | h'
      · exact .inl (.inl h')
      · exact .inr h'
    · rcases fvarsClauses_inst cls d ws x h with h' | h'
      · exact .inl (.inr h')
      · exact .inr h'

theorem fvarsFields_inst : ∀ (fs : List (String × Expr)) (d : Nat) (ws : List Expr)
    (x : FreeVar), x ∈ fvarsFields (instFields d ws fs) →
    x ∈ fvarsFields fs ∨ ∃ w ∈ ws, x ∈ fvarsE w
  | [], _, _, _ => fun h => by cases h
  | (l, e) :: fs, d, ws, x => fun h => by
    simp only [instFields, fvarsFields, List.mem_append] at h ⊢
    rcases h with h | h
    · rcases fvarsE_inst e d ws x h with h' | h'
      · exact .inl (.inl h')
      · exact .inr h'
    · rcases fvarsFields_inst fs d ws x h with h' | h'
      · exact .inl (.inr h')
      · exact .inr h'

theorem fvarsClauses_inst : ∀ (cls : List (Pattern × Expr)) (d : Nat) (ws : List Expr)
    (x : FreeVar), x ∈ fvarsClauses (instClauses d ws cls) →
    x ∈ fvarsClauses cls ∨ ∃ w ∈ ws, x ∈ fvarsE w
  | [], _, _, _ => fun h => by cases h
  | (p, b) :: cls, d, ws, x => fun h => by
    simp only [instClauses, fvarsClauses, List.mem_append] at h ⊢
    rcases h with h | h
    · rcases fvarsE_inst b (d + 1) ws x h with h' | h'
      · exact .inl (.inl h')
      · exact .inr h'
    · rcases fvarsClauses_inst cls d ws x h with h' | h'
      · exact .inl (.inr h')
      · exact .inr h'

end

/-- Free variables of a record field are free variables of the field list. -/
theorem fvarsFields_of_mem :
    ∀ (fs : List (String × Expr)) (f : String × Expr), f ∈ fs →
      ∀ x ∈ fvarsE f.2, x ∈ fvarsFields fs := by
  intro fs
  induction fs with
  | nil => intro f hf; cases hf
  | cons g fs ih =>
    intro f hf x hx
    obtain ⟨l, e⟩ := g
    simp only [fvarsFields, List.mem_append]
    cases hf with
    | head => exact .inl hx
    | tail _ hf => exact .inr (ih f hf x hx)

mutual

/-- The values bound by a successful match are (parts of) the matched
value: their free variables are free in it. -/
theorem matchE_values_fvars : ∀ (p : Pattern) (v : Expr) (ms : List (FreeVar × Expr)),
    matchE p v = some ms → ∀ m ∈ ms, ∀ x ∈ fvarsE m.2, x ∈ fvarsE v
  | .ann p t, v, ms => fun h => matchE_values_fvars p v ms h
  | .lit pl, v, ms => fun h => by
    cases v with
    | lit el =>
      simp only [matchE] at h
      split at h
      · cases h
        intro m hm
        cases hm
      · cases h
    | ann e t => cases h
    | var w => cases h
    | lam p b => cases h
    | app f a => cases h
    | record fs => cases h
    | proj e l => cases h
    | tag l e => cases h
    | case' s cls => cases h
  | .binder fv, v, ms => fun h => by
    cases h
    intro m hm x hx
    cases hm with
    | head => exact hx
    | tail _ hm => cases hm
  | .record pfs, v, ms => fun h => by
    cases v with
    | record efs =>
      simp only [matchE] at h
      split at h
      · exact matchFields_values_fvars pfs efs ms h
      · cases h
    | ann e t => cases h
    | lit l => cases h
    | var w => cases h
    | lam p b => cases h
    | app f a => cases h
    | proj e l => cases h
    | tag l e => cases h
    | case' s cls => cases h
  | .tag pl p, v, ms => fun h => by
    cases v with
    | tag el e =>
      simp only [matchE] at h
      split at h
      · exact matchE_values_fvars p e ms h
      · cases h
    | ann e t => cases h
    | lit l => cases h
    | var w => cases h
    | lam p' b => cases h
    | app f a => cases h
    | record fs => cases h
    | proj e l => cases h
    | case' s cls => cases h

theorem matchFields_values_fvars : ∀ (pfs : List (String × Pattern))
    (efs : List (String × Expr)) (ms : List (FreeVar × Expr)),
    matchFields pfs efs = some ms → ∀ m ∈ ms, ∀ x ∈ fvarsE m.2, x ∈ fvarsFields efs
  | [], [], ms => fun h => by
    cases h
    intro m hm
    cases hm
  | [], (ef :: efs), ms => fun h => by cases h
  | (pf :: pfs), [], ms => fun h => by cases h
  | ((pl, p) :: pfs), ((el, e) :: efs), ms => fun h => by
    simp only [matchFields] at h
    split at h
    · cases hm : matchE p e with
      | none => rw [hm] at h; cases h
      | some m₁ =>
        rw [hm] at h
        cases hms : matchFields pfs efs with
        | none => rw [hms] at h; cases h
        | some ms' =>
          rw [hms] at h
          cases h
          intro m hmem x hx
          simp only [fvarsFields, List.mem_append]
          rcases List.mem_append.mp hmem with hmem | hmem
          · exact .inl (matchE_values_fvars p e m₁ hm m hmem x hx)
          · exact .inr (matchFields_values_fvars pfs efs ms' hms m hmem x hx)
    · cases h

end

/-! ### `matchVals`: matching is independent of binder tokens -/

mutual

theorem matchVals_length : ∀ (p : Pattern) (v : Expr) (ws : List Expr),
    matchVals p v = some ws → ws.length = p.binders.length
  | .ann p t, v, ws => fun h => matchVals_length p v ws h
  | .lit pl, v, ws => fun h => by
    cases v with
    | lit el =>
      simp only [matchVals] at h
      split at h
      · cases h
        rfl
      · cases h
    | ann e t => cases h
    | var w => cases h
    | lam p b => cases h
    | app f a => cases h
    | record fs => cases h
    | proj e l => cases h
    | tag l e => cases h
    | case' s cls => cases h
  | .binder fv, v, ws => fun h => by
    cases h
    rfl
  | .record pfs, v, ws => fun h => by
    cases v with
    | record efs =>
      simp only [matchVals] at h
      split at h
      · exact matchValsFields_length pfs efs ws h
      · cases h
    | ann e t => cases h
    | lit l => cases h
    | var w => cases h
    | lam p b => cases h
    | app f a => cases h
    | proj e l => cases h
    | tag l e => cases h
    | case' s cls => cases h
  | .tag pl p, v, ws => fun h => by
    cases v with
    | tag el e =>
      simp only [matchVals] at h
      split at h
      · exact matchVals_length p e ws h
      · cases h
    | ann e t => cases h
    | lit l => cases h
    | var w => cases h
    | lam p' b => cases h
    | app f a => cases h
    | record fs => cases h
    | proj e l => cases h
    | case' s cls => cases h

theorem matchValsFields_length : ∀ (pfs : List (String × Pattern))
    (efs : List (String × Expr)) (ws : List Expr),
    matchValsFields pfs efs = some ws → ws.length = (bindersFields pfs).length
  | [], [], ws => fun h => by
    cases h
    rfl
  | [], (ef :: efs), ws => fun h => by cases h
  | (pf :: pfs), [], ws => fun h => by cases h
  | ((pl, p) :: pfs), ((el, e) :: efs), ws => fun h => by
    simp only [matchValsFields] at h
    split at h
    · cases hm : matchVals p e with
      | none => rw [hm] at h; cases h
      | some m₁ =>
        rw [hm] at h
        cases hms : matchValsFields pfs efs with
        | none => rw [hms] at h; cases h
        | some ms' =>
          rw [hms] at h
          cases h
          simp only [bindersFields, List.length_append]
          rw [matchVals_length p e m₁ hm, matchValsFields_length pfs efs ms' hms]
    · cases h

end

mutual

/-- `match_expr` is `matchVals` with the pattern's binder tokens zipped back
in: the keys of a successful match are exactly the binders, in order. -/
theorem matchE_eq_matchVals : ∀ (p : Pattern) (v : Expr),
    matchE p v = (matchVals p v).map (fun ws => p.binders.zip ws)
  | .ann p t, v => by
    simp only [matchE, matchVals, Pattern.binders]
    exact matchE_eq_matchVals p v
  | .lit pl, v => by
    cases v with
    | lit el =>
      simp only [matchE, matchVals]
      split <;> rfl
    | ann e t => rfl
    | var w => rfl
    | lam p b => rfl
    | app f a => rfl
    | record fs => rfl
    | proj e l => rfl
    | tag l e => rfl
    | case' s cls => rfl
  | .binder fv, v => rfl
  | .record pfs, v => by
    cases v with
    | record efs =>
      simp only [matchE, matchVals, Pattern.binders]
      split
      · exact matchFields_eq_matchVals pfs efs
      · rfl
    | ann e t => rfl
    | lit l => rfl
    | var w => rfl
    | lam p b => rfl
    | app f a => rfl
    | proj e l => rfl
    | tag l e => rfl
    | case' s cls => rfl
  | .tag pl p, v => by
    cases v with
    | tag el e =>
      simp only [matchE, matchVals, Pattern.binders]
      split
      · exact matchE_eq_matchVals p e
      · rfl
    | ann e t => rfl
    | lit l => rfl
    | var w => rfl
    | lam p' b => rfl
    | app f a => rfl
    | record fs => rfl
    | proj e l => rfl
    | case' s cls => rfl

theorem matchFields_eq_matchVals : ∀ (pfs : List (String × Pattern))
    (efs : List (String × Expr)),
    matchFields pfs efs =
      (matchValsFields pfs efs).map (fun ws => (bindersFields pfs).zip ws)
  | [], [] => rfl
  | [], (ef :: efs) => rfl
  | (pf :: pfs), [] => rfl
  | ((pl, p) :: pfs), ((el, e) :: efs) => by
    simp only [matchFields, matchValsFields]
    split
    · rw [matchE_eq_matchVals p e, matchFields_eq_matchVals pfs efs]
      cases hm : matchVals p e with
      | none => rfl
      | some m₁ =>
        cases hms : matchValsFields pfs efs with
        | none => rfl
        | some ms' =>
          simp only [Option.map_some', bindersFields]
          rw [List.zip_append (by rw [matchVals_length p e m₁ hm])]
    · rfl

end

/-- The renamed field list has the same length. -/
theorem renameFields_length :
    ∀ (pfs : List (String × Pattern)) (vs : List FreeVar),
      (renameFields vs pfs).1.length = pfs.length := by
  intro pfs
  induction pfs with
  | nil => intro vs; rfl
  | cons g pfs ih =>
    obtain ⟨l, p⟩ := g
    intro vs
    simp [renameFields, ih]

mutual

/-- Matching is independent of the pattern's binder tokens: freshening the
pattern does not change `matchVals`. -/
theorem matchVals_rename : ∀ (p : Pattern) (vs : List FreeVar) (v : Expr),
    matchVals (renameP vs p).1 v = matchVals p v
  | .ann p t, vs, v => by
    simp only [renameP, matchVals]
    exact matchVals_rename p vs v
  | .lit pl, vs, v => rfl
  | .binder fv, vs, v => by
    cases vs <;> rfl
  | .record pfs, vs, v => by
    cases v with
    | record efs =>
      simp only [renameP, matchVals, renameFields_length]
      split
      · exact matchValsFields_rename pfs vs efs
      · rfl
    | ann e t => rfl
    | lit l => rfl
    | var w => rfl
    | lam p b => rfl
    | app f a => rfl
    | proj e l => rfl
    | tag l e => rfl
    | case' s cls => rfl
  | .tag pl p, vs, v => by
    cases v with
    | tag el e =>
      simp only [renameP, matchVals]
      split
      · exact matchVals_rename p vs e
      · rfl
    | ann e t => rfl
    | lit l => rfl
    | var w => rfl
    | lam p' b => rfl
    | app f a => rfl
    | record fs => rfl
    | proj e l => rfl
    | case' s cls => rfl

theorem matchValsFields_rename : ∀ (pfs : List (String × Pattern)) (vs : List FreeVar)
    (efs : List (String × Expr)),
    matchValsFields (renameFields vs pfs).1 efs = matchValsFields pfs efs
  | [], vs, efs => by cases efs <;> rfl
  | ((pl, p) :: pfs), vs, efs => by
    cases efs with
    | nil => rfl
    | cons ef efs =>
      obtain ⟨el, e⟩ := ef
      simp only [renameFields, matchValsFields]
      split
      · rw [matchVals_rename p vs e, matchValsFields_rename pfs (renameP vs p).2 efs]
      · rfl

end

mutual

/-- Freshening consumes the supply positionally: with enough supply, the
binders of the renamed pattern are the first `|binders|` supply tokens and
the rest is returned. -/
theorem binders_renameP : ∀ (p : Pattern) (vs : List FreeVar),
    p.binders.length ≤ vs.length →
    (renameP vs p).1.binders = vs.take p.binders.length ∧
    (renameP vs p).2 = vs.drop p.binders.length
  | .ann p t, vs, h => by
    simp only [renameP, Pattern.binders]
    exact binders_renameP p vs h
  | .lit l, vs, h => by
    simp [renameP, Pattern.binders]
  | .binder fv, vs, h => by
    cases vs with
    | nil => simp [Pattern.binders] at h
    | cons v vs' => simp [renameP, Pattern.binders]
  | .record pfs, vs, h => by
    simp only [renameP, Pattern.binders]
    exact bindersFields_renameFields pfs vs h
  | .tag l p, vs, h => by
    simp only [renameP, Pattern.binders]
    exact binders_renameP p vs h

theorem bindersFields_renameFields : ∀ (pfs : List (String × Pattern)) (vs : List FreeVar),
    (bindersFields pfs).length ≤ vs.length →
    bindersFields (renameFields vs pfs).1 = vs.take (bindersFields pfs).length ∧
    (renameFields vs pfs).2 = vs.drop (bindersFields pfs).length
  | [], vs, h => by simp [renameFields, bindersFields]
  | ((l, p) :: pfs), vs, h => by
    simp only [bindersFields, List.length_append] at h
    have h₁ : p.binders.length ≤ vs.length := by omega
    obtain ⟨hb, hs⟩ := binders_renameP p vs h₁
    have h₂ : (bindersFields pfs).length ≤ (renameP vs p).2.length := by
      rw [hs, List.length_drop]
      omega
    obtain ⟨hb', hs'⟩ := bindersFields_renameFields pfs (renameP vs p).2 h₂
    simp only [renameFields, bindersFields, List.length_append]
    constructor
    · rw [hb, hb', hs, List.take_add, List.take_drop]
    · rw [hs', hs, List.drop_drop]

end

/-- With an exact-length supply, freshening replaces the binders by the
whole supply. -/
theorem binders_renameP_eq (p : Pattern) (vs : List FreeVar)
    (h : vs.length = p.binders.length) : (renameP vs p).1.binders = vs := by
  have := (binders_renameP p vs (by omega)).1
  rw [this, ← h, List.take_length]

/-! ### Substitution after opening is direct instantiation -/

theorem find_zip_eq : ∀ (vs : List FreeVar) (ws : List Expr) (i : Nat) (v : FreeVar) (w : Expr),
    vs.Nodup → vs[i]? = some v → ws[i]? = some w →
    (vs.zip ws).find? (fun m => varEqFree (.free v) m.1) = some (v, w) := by
  intro vs
  induction vs with
  | nil =>
    intro ws i v w _ hv
    cases hv
  | cons x vs ih =>
    intro ws i v w hnd hv hw
    cases ws with
    | nil => cases hw
    | cons w₀ ws =>
      cases i with
      | zero =>
        simp only [List.getElem?_cons_zero] at hv hw
        cases hv
        cases hw
        simp [List.find?, varEqFree]
      | succ i =>
        simp only [List.getElem?_cons_succ] at hv hw
        have hne : v ≠ x := by
          intro h
          subst h
          exact (List.nodup_cons.mp hnd).1 (List.getElem?_mem hv)
        simp only [List.zip_cons_cons, List.find?]
        rw [show (varEqFree (.free v) x) = false by simp [varEqFree, hne]]
        exact ih ws i v w (List.nodup_cons.mp hnd).2 hv hw

theorem find_zip_not_mem : ∀ (vs : List FreeVar) (ws : List Expr) (x : FreeVar),
    x ∉ vs → (vs.zip ws).find? (fun m => varEqFree (.free x) m.1) = none := by
  intro vs
  induction vs with
  | nil => intro ws x _; cases ws <;> rfl
  | cons v vs ih =>
    intro ws x hx
    cases ws with
    | nil => rfl
    | cons w ws =>
      simp only [List.zip_cons_cons, List.find?]
      have hne : x ≠ v := fun h => hx (h ▸ List.mem_cons_self v vs)
      rw [show (varEqFree (.free x) v) = false by simp [varEqFree, hne]]
      exact ih ws x (fun h => hx (List.mem_cons_of_mem v h))

mutual

/-- Opening with fresh variables and substituting values for them is the
direct instantiation of the bound coordinates by those values. -/
theorem substs_open_inst : ∀ (e : Expr) (d : Nat) (vs : List FreeVar) (ws : List Expr),
    vs.Nodup → (∀ v ∈ vs, v ∉ fvarsE e) → vs.length = ws.length →
    substsE (vs.zip ws) (openE d vs e) = instE d ws e
  | .ann e t, d, vs, ws, hnd, hfv, hlen => by
    simp only [openE, substsE, instE]
    rw [substs_open_inst e d vs ws hnd hfv hlen]
  | .lit l, d, vs, ws, _, _, _ => rfl
  | .var (.free fv), d, vs, ws, hnd, hfv, hlen => by
    simp only [openE, substsE]
    rw [find_zip_not_mem vs ws fv ?_]
    · rfl
    · intro hmem
      exact hfv fv hmem (by simp [fvarsE])
  | .var (.bound d' i), d, vs, ws, hnd, hfv, hlen => by
    simp only [openE, instE]
    by_cases hd : d' = d
    · subst hd
      rw [if_pos rfl, if_pos rfl]
      cases hv : vs[i]? with
      | some v =>
        have hi : i < vs.length := by
          by_contra h'
          rw [List.getElem?_eq_none (by omega)] at hv
          cases hv
        have hiw : i < ws.length := by omega
        obtain ⟨w, hw⟩ : ∃ w, ws[i]? = some w :=
          ⟨ws.get ⟨i, hiw⟩, List.getElem?_eq_getElem hiw⟩
        simp only [substsE]
        rw [find_zip_eq vs ws i v w hnd hv hw, hw]
      | none =>
        have hi : vs.length ≤ i := by
          by_contra h'
          rw [List.getElem?_eq_getElem (by omega)] at hv
          cases hv
        rw [substsE_var_bound, List.getElem?_eq_none (by omega)]
    · rw [if_neg hd, if_neg hd, substsE_var_bound]
  | .lam p b, d, vs, ws, hnd, hfv, hlen => by
    simp only [openE, substsE, instE]
    rw [substs_open_inst b (d + 1) vs ws hnd hfv hlen]
  | .app f a, d, vs, ws, hnd, hfv, hlen => by
    simp only [openE, substsE, instE]
    rw [substs_open_inst f d vs ws hnd
        (fun v hv hm => hfv v hv (by simp [fvarsE, List.mem_append, hm])) hlen,
      substs_open_inst a d vs ws hnd
        (fun v hv hm => hfv v hv (by simp [fvarsE, List.mem_append, hm])) hlen]
  | .record fs, d, vs, ws, hnd, hfv, hlen => by
    simp only [openE, substsE, instE]
    rw [substsFields_open_inst fs d vs ws hnd hfv hlen]
  | .proj e l, d, vs, ws, hnd, hfv, hlen => by
    simp only [openE, substsE, instE]
    rw [substs_open_inst e d vs ws hnd hfv hlen]
  | .tag l e, d, vs, ws, hnd, hfv, hlen => by
    simp only [openE, substsE, instE]
    rw [substs_open_inst e d vs ws hnd hfv hlen]
  | .case' s cls, d, vs, ws, hnd, hfv, hlen => by
    simp only [openE, substsE, instE]
    rw [substs_open_inst s d vs ws hnd
        (fun v hv hm => hfv v hv (by simp [fvarsE, List.mem_append, hm])) hlen,
      substsClauses_open_inst cls d vs ws hnd
        (fun v hv hm => hfv v hv (by simp [fvarsE, List.mem_append, hm])) hlen]

theorem substsFields_open_inst : ∀ (fs : List (String × Expr)) (d : Nat) (vs : List FreeVar)
    (ws : List Expr), vs.Nodup → (∀ v ∈ vs, v ∉ fvarsFields fs) → vs.length = ws.length →
    substsFields (vs.zip ws) (openFields d vs fs) = instFields d ws fs
  | [], _, _, _, _, _, _ => rfl
  | (l, e) :: fs, d, vs, ws, hnd, hfv, hlen => by
    simp only [openFields, substsFields, instFields]
    rw [substs_open_inst e d vs ws hnd
        (fun v hv hm => hfv v hv (by simp [fvarsFields, List.mem_append, hm])) hlen,
      substsFields_open_inst fs d vs ws hnd
        (fun v hv hm => hfv v hv (by simp [fvarsFields, List.mem_append, hm])) hlen]

theorem substsClauses_open_inst : ∀ (cls : List (Pattern × Expr)) (d : Nat)
    (vs : List FreeVar) (ws : List Expr), vs.Nodup →
    (∀ v ∈ vs, v ∉ fvarsClauses cls) → vs.length = ws.length →
    substsClauses (vs.zip ws) (openClauses d vs cls) = instClauses d ws cls
  | [], _, _, _, _, _, _ => rfl
  | (p, b) :: cls, d, vs, ws, hnd, hfv, hlen => by
    simp only [openClauses, substsClauses, instClauses]
    rw [substs_open_inst b (d + 1) vs ws hnd
        (fun v hv hm => hfv v hv (by simp [fvarsClauses, List.mem_append, hm])) hlen,
      substsClauses_open_inst cls d vs ws hnd
        (fun v hv hm => hfv v hv (by simp [fvarsClauses, List.mem_append, hm])) hlen]

end

/-! ### Instantiating a closed scope is substitution (for C4) -/

theorem findIdx?_lt_length : ∀ (l : List FreeVar) (p : FreeVar → Bool) (i : Nat),
    l.findIdx? p = some i → i < l.length := by
  intro l
  induction l with
  | nil =>
    intro p i h
    cases h
  | cons x l ih =>
    intro p i h
    rw [List.findIdx?_cons, List.findIdx?_succ] at h
    split at h
    · cases h
      simp
    · simp only [Option.map_eq_some'] at h
      obtain ⟨j, hj, rfl⟩ := h
      have := ih p j hj
      simp only [List.length_cons]
      omega

theorem inst_close_var_free : ∀ (xs : List FreeVar) (ws : List Expr) (fv : FreeVar) (d : Nat),
    xs.length = ws.length →
    instE d ws (closeE d xs (.var (.free fv))) = substsE (xs.zip ws) (.var (.free fv)) := by
  intro xs
  induction xs with
  | nil =>
    intro ws fv d hlen
    cases ws with
    | nil => rfl
    | cons w ws => cases hlen
  | cons x xs ih =>
    intro ws fv d hlen
    cases ws with
    | nil => cases hlen
    | cons w ws =>
      simp only [List.length_cons] at hlen
      have hlen' : xs.length = ws.length := by omega
      rw [List.zip_cons_cons, substsE_var_free]
      by_cases hx : fv = x
      · subst hx
        have h0 : (fv :: xs).findIdx? (fun v => v = fv) = some 0 := by
          simp [List.findIdx?_cons]
        simp only [closeE, h0]
        simp only [instE, if_pos rfl, List.getElem?_cons_zero]
        simp [lookupFirst]
      · have hcons : (x :: xs).findIdx? (fun v => v = fv) =
            (xs.findIdx? (fun v => v = fv)).map (fun i => i + 1) := by
          simp [List.findIdx?_cons, show x ≠ fv from fun h => hx h.symm]
        simp only [closeE, hcons]
        have hlf : lookupFirst ((x, w) :: xs.zip ws) fv = lookupFirst (xs.zip ws) fv := by
          simp [lookupFirst, hx]
        rw [hlf]
        have ihx := ih ws fv d hlen'
        rw [substsE_var_free] at ihx
        cases hidx : xs.findIdx? (fun v => v = fv) with
        | some i =>
          have hi : i < xs.length := findIdx?_lt_length xs _ i hidx
          obtain ⟨w', hw'⟩ : ∃ w', ws[i]? = some w' :=
            ⟨ws.get ⟨i, by omega⟩, List.getElem?_eq_getElem (by omega)⟩
          simp only [closeE, hidx] at ihx
          simp only [hidx, Option.map_some']
          simp only [instE, if_pos rfl] at ihx ⊢
          rw [List.getElem?_cons_succ]
          rw [hw'] at ihx ⊢
          exact ihx
        | none =>
          simp only [closeE, hidx] at ihx
          simp only [hidx, Option.map_none']
          exact ihx

mutual

/-- Instantiating the scope obtained by closing a well-scoped expression
over the tokens `xs` substitutes the values directly for those tokens
(first-match / first-index agreement included). -/
theorem inst_close_substs : ∀ (e : Expr) (stack : List Nat) (xs : List FreeVar)
    (ws : List Expr), lcAtB stack e = true → xs.length = ws.length →
    instE stack.length ws (closeE stack.length xs e) = substsE (xs.zip ws) e
  | .ann e t, stack, xs, ws, hlc, hlen => by
    simp only [closeE, instE, substsE]
    rw [inst_close_substs e stack xs ws (by simpa [lcAtB] using hlc) hlen]
  | .lit l, _, _, _, _, _ => rfl
  | .var (.free fv), stack, xs, ws, hlc, hlen => inst_close_var_free xs ws fv stack.length hlen
  | .var (.bound d' i), stack, xs, ws, hlc, hlen => by
    simp only [lcAtB, Bool.and_eq_true, decide_eq_true_eq] at hlc
    simp only [closeE, instE]
    rw [if_neg (by omega), substsE_var_bound]
  | .lam p b, stack, xs, ws, hlc, hlen => by
    simp only [closeE, instE, substsE]
    have := inst_close_substs b (p.binders.length :: stack) xs ws
      (by simpa [lcAtB] using hlc) hlen
    simp only [List.length_cons] at this
    rw [this]
  | .app f a, stack, xs, ws, hlc, hlen => by
    simp only [lcAtB, Bool.and_eq_true] at hlc
    simp only [closeE, instE, substsE]
    rw [inst_close_substs f stack xs ws hlc.1 hlen,
      inst_close_substs a stack xs ws hlc.2 hlen]
  | .record fs, stack, xs, ws, hlc, hlen => by
    simp only [closeE, instE, substsE]
    rw [instFields_close_substs fs stack xs ws (by simpa [lcAtB] using hlc) hlen]
  | .proj e l, stack, xs, ws, hlc, hlen => by
    simp only [closeE, instE, substsE]
    rw [inst_close_substs e stack xs ws (by simpa [lcAtB] using hlc) hlen]
  | .tag l e, stack, xs, ws, hlc, hlen => by
    simp only [closeE, instE, substsE]
    rw [inst_close_substs e stack xs ws (by simpa [lcAtB] using hlc) hlen]
  | .case' s cls, stack, xs, ws, hlc, hlen => by
    simp only [lcAtB, Bool.and_eq_true] at hlc
    simp only [closeE, instE, substsE]
    rw [inst_close_substs s stack xs ws hlc.1 hlen,
      instClauses_close_substs cls stack xs ws hlc.2 hlen]

theorem instFields_close_substs : ∀ (fs : List (String × Expr)) (stack : List Nat)
    (xs : List FreeVar) (ws : List Expr), lcFields stack fs = true → xs.length = ws.length →
    instFields stack.length ws (closeFields stack.length xs fs) =
      substsFields (xs.zip ws) fs
  | [], _, _, _, _, _ => rfl
  | (l, e) :: fs, stack, xs, ws, hlc, hlen => by
    simp only [lcFields, Bool.and_eq_true] at hlc
    simp only [closeFields, instFields, substsFields]
    rw [inst_close_substs e stack xs ws hlc.1 hlen,
      instFields_close_substs fs stack xs ws hlc.2 hlen]

theorem instClauses_close_substs : ∀ (cls : List (Pattern × Expr)) (stack : List Nat)
    (xs : List FreeVar) (ws : List Expr), lcClauses stack cls = true →
    xs.length = ws.length →
    instClauses stack.length ws (closeClauses stack.length xs cls) =
      substsClauses (xs.zip ws) cls
  | [], _, _, _, _, _ => rfl
  | (p, b) :: cls, stack, xs, ws, hlc, hlen => by
    simp only [lcClauses, Bool.and_eq_true] at hlc
    simp only [closeClauses, instClauses, substsClauses]
    have hb := inst_close_substs b (p.binders.length :: stack) xs ws hlc.1 hlen
    simp only [List.length_cons] at hb
    rw [hb, instClauses_close_substs cls stack xs ws hlc.2 hlen]

end

/-! ### Fuel monotonicity of the evaluator -/

theorem eval_mono : ∀ n,
    (∀ c e x, evalF n c e = some x → evalF (n + 1) c e = some x) ∧
    (∀ c fs x, evalFieldsGo (evalF n) c fs = some x →
      evalFieldsGo (evalF (n + 1)) c fs = some x) ∧
    (∀ c a cls x, evalClausesGo (evalF n) c a cls = some x →
      evalClausesGo (evalF (n + 1)) c a cls = some x) := by
  intro n
  induction n with
  | zero =>
    refine ⟨?_, ?_, ?_⟩
    · intro c e x h
      simp [evalF] at h
    · intro c fs x h
      cases fs with
      | nil => exact h
      | cons g fs =>
        obtain ⟨l, e⟩ := g
        simp [evalFieldsGo, evalF] at h
    · intro c a cls x h
      cases cls with
      | nil => exact h
      | cons g cls =>
        obtain ⟨p, b⟩ := g
        simp [evalClausesGo, evalF] at h
  | succ n ih =>
    obtain ⟨ihE, ihF, ihC⟩ := ih
    have hmain : ∀ c e x, evalF (n + 1) c e = some x → evalF (n + 1 + 1) c e = some x := by
      intro c e x h
      rw [evalF_succ] at h
      rw [evalF_succ]
      cases e with
      | ann e' ty => exact ihE c e' x h
      | lit l => exact h
      | var v => exact h
      | lam p b => exact h
      | app f a =>
        simp only [evalStep] at h ⊢
        cases hf : evalF n c f with
        | none => rw [hf] at h; cases h
        | some rf =>
          obtain ⟨vf, c₁⟩ := rf
          rw [hf] at h
          simp only at h
          rw [ihE c f (vf, c₁) hf]
          simp only
          cases vf with
          | lam p cb =>
            simp only at h ⊢
            cases hu : unbindS c₁ p cb with
            | mk p' u =>
              obtain ⟨b', c₂⟩ := u
              rw [hu] at h
              simp only at h ⊢
              cases ha : evalF n c₂ a with
              | none => rw [ha] at h; cases h
              | some ra =>
                obtain ⟨w, c₃⟩ := ra
                rw [ha] at h
                rw [ihE c₂ a (w, c₃) ha]
                simp only at h ⊢
                cases hm : matchE p' w with
                | none =>
                  try rw [hm] at h
                  exact h
                | some ms =>
                  try rw [hm] at h
                  exact ihE c₃ (substsE ms b') x h
          | ann e₀ ty => exact h
          | lit l => exact h
          | var v => exact h
          | app f₀ a₀ => exact h
          | record fs => exact h
          | proj e₀ l => exact h
          | tag l e₀ => exact h
          | case' s cls => exact h
      | record fs =>
        simp only [evalStep] at h ⊢
        cases hfs : evalFieldsGo (evalF n) c fs with
        | none => rw [hfs] at h; cases h
        | some rfs =>
          rw [hfs] at h
          rw [ihF c fs rfs hfs]
          exact h
      | proj e' l =>
        simp only [evalStep] at h ⊢
        cases he : evalF n c e' with
        | none => rw [he] at h; cases h
        | some re =>
          rw [he] at h
          rw [ihE c e' re he]
          exact h
      | tag l e' =>
        simp only [evalStep] at h ⊢
        cases he : evalF n c e' with
        | none => rw [he] at h; cases h
        | some re =>
          rw [he] at h
          rw [ihE c e' re he]
          exact h
      | case' a cls =>
        simp only [evalStep] at h ⊢
        cases hcl : evalClausesGo (evalF n) c a cls with
        | none => rw [hcl] at h; cases h
        | some rc =>
          rw [hcl] at h
          rw [ihC c a cls rc hcl]
          exact h
    refine ⟨hmain, ?_, ?_⟩
    · intro c fs x h
      induction fs generalizing c x with
      | nil => exact h
      | cons g fs ihfs =>
        obtain ⟨l, e⟩ := g
        simp only [evalFieldsGo] at h ⊢
        cases he : evalF (n + 1) c e with
        | none => rw [he] at h; cases h
        | some re =>
          obtain ⟨v, c₁⟩ := re
          rw [he] at h
          simp only at h
          rw [hmain c e (v, c₁) he]
          simp only
          cases hfs : evalFieldsGo (evalF (n + 1)) c₁ fs with
          | none => rw [hfs] at h; cases h
          | some rfs =>
            rw [hfs] at h
            rw [ihfs c₁ rfs hfs]
            exact h
    · intro c a cls x h
      induction cls generalizing c x with
      | nil => exact h
      | cons g cls ihcl =>
        obtain ⟨p, b⟩ := g
        simp only [evalClausesGo] at h ⊢
        cases hu : unbindS c p b with
        | mk p' u =>
          obtain ⟨b', c₁⟩ := u
          rw [hu] at h
          simp only at h ⊢
          cases ha : evalF (n + 1) c₁ a with
          | none => rw [ha] at h; cases h
          | some ra =>
            obtain ⟨w, c₂⟩ := ra
            rw [ha] at h
            rw [hmain c₁ a (w, c₂) ha]
            simp only at h ⊢
            cases hm : matchE p' w with
            | some ms =>
              try rw [hm] at h
              simp only at h ⊢
              cases hb : evalF (n + 1) c₂ (substsE ms b') with
              | none =>
                try rw [hb] at h
                cases h
              | some rb =>
                try rw [hb] at h
                rw [hmain c₂ (substsE ms b') rb hb]
                exact h
            | none =>
              try rw [hm] at h
              exact ihcl c₂ x h

/-- Monotone in fuel: once the evaluator answers, more fuel gives the same
answer. -/
theorem eval_mono_le : ∀ (m n : Nat), n ≤ m →
    ∀ c e x, evalF n c e = some x → evalF m c e = some x := by
  intro m
  induction m with
  | zero =>
    intro n h c e x hx
    have : n = 0 := by omega
    subst this
    exact hx
  | succ m ihm =>
    intro n h c e x hx
    by_cases hnm : n = m + 1
    · subst hnm
      exact hx
    · exact (eval_mono m).1 c e x (ihm n (by omega) c e x hx)

/-! ### Canonical decomposition of a matched redex -/

/-- A successful match against the freshened pattern is `matchVals` of the
stored pattern, zipped with the fresh tokens (which are exactly the keys). -/
theorem unbind_match_decomp (c₁ : Nat) (p : Pattern) (w : Expr)
    (ms : List (FreeVar × Expr))
    (hm : matchE (renameP (freshVars c₁ p.binders.length) p).1 w = some ms) :
    ∃ ws, matchVals p w = some ws ∧ ws.length = p.binders.length ∧
      ms = (freshVars c₁ p.binders.length).zip ws ∧
      ms.map Prod.fst = freshVars c₁ p.binders.length := by
  have hvlen : (freshVars c₁ p.binders.length).length = p.binders.length :=
    freshVars_length c₁ _
  have hbnd : (renameP (freshVars c₁ p.binders.length) p).1.binders =
      freshVars c₁ p.binders.length := binders_renameP_eq p _ hvlen
  rw [matchE_eq_matchVals, matchVals_rename, hbnd] at hm
  cases hmv : matchVals p w with
  | none => rw [hmv] at hm; cases hm
  | some ws =>
    rw [hmv] at hm
    simp only [Option.map_some'] at hm
    cases hm
    have hwlen : ws.length = p.binders.length := matchVals_length p w ws hmv
    refine ⟨ws, rfl, hwlen, rfl, ?_⟩
    exact List.map_fst_zip _ _ (by omega)

/-- Matching against the freshened pattern fails exactly when `matchVals`
of the stored pattern fails (independence from the fresh tokens). -/
theorem unbind_match_none_iff (c₁ : Nat) (p : Pattern) (w : Expr) :
    matchE (renameP (freshVars c₁ p.binders.length) p).1 w = none ↔
      matchVals p w = none := by
  rw [matchE_eq_matchVals, matchVals_rename]
  cases matchVals p w <;> simp

/-- With hygiene for the stored body, substituting the match bindings into
the opened body is direct instantiation by the matched values. -/
theorem unbind_match_subst (c₁ : Nat) (p : Pattern) (cb w : Expr)
    (ms : List (FreeVar × Expr))
    (hgb : genBelowB c₁ cb = true)
    (hm : matchE (renameP (freshVars c₁ p.binders.length) p).1 w = some ms) :
    ∃ ws, matchVals p w = some ws ∧ ws.length = p.binders.length ∧
      ms = (freshVars c₁ p.binders.length).zip ws ∧
      ms.map Prod.fst = freshVars c₁ p.binders.length ∧
      substsE ms (openE 0 (freshVars c₁ p.binders.length) cb) = instE 0 ws cb := by
  obtain ⟨ws, hmv, hwlen, hzip, hkeys⟩ := unbind_match_decomp c₁ p w ms hm
  refine ⟨ws, hmv, hwlen, hzip, hkeys, ?_⟩
  subst hzip
  exact substs_open_inst cb 0 _ ws (freshVars_nodup _ _)
    (freshVars_not_mem_fvars hgb) (by rw [freshVars_length]; omega)

/-! ### Preservation: counters only grow, free variables only shrink -/

theorem eval_preserve : ∀ n,
    (∀ c e r d, evalF n c e = some (r, d) →
      c ≤ d ∧ ∀ x, x ∈ fvarsE r → x ∈ fvarsE e) ∧
    (∀ c fs fs' d, evalFieldsGo (evalF n) c fs = some (fs', d) →
      c ≤ d ∧ ∀ x, x ∈ fvarsFields fs' → x ∈ fvarsFields fs) ∧
    (∀ c a cls res d, evalClausesGo (evalF n) c a cls = some (res, d) →
      c ≤ d ∧ ∀ r, res = some r → ∀ x, x ∈ fvarsE r →
        x ∈ fvarsE a ∨ x ∈ fvarsClauses cls) := by
  intro n
  induction n with
  | zero =>
    refine ⟨?_, ?_, ?_⟩
    · intro c e r d h
      simp [evalF] at h
    · intro c fs fs' d h
      cases fs with
      | nil =>
        simp only [evalFieldsGo] at h
        cases h
        exact ⟨le_refl c, fun x hx => hx⟩
      | cons g fs =>
        obtain ⟨l, e⟩ := g
        simp [evalFieldsGo, evalF] at h
    · intro c a cls res d h
      cases cls with
      | nil =>
        simp only [evalClausesGo] at h
        cases h
        exact ⟨le_refl c, fun r hr => by cases hr⟩
      | cons g cls =>
        obtain ⟨p, b⟩ := g
        simp [evalClausesGo, evalF] at h
  | succ n ih =>
    obtain ⟨ihE, ihF, ihC⟩ := ih
    have hmain : ∀ c e r d, evalF (n + 1) c e = some (r, d) →
        c ≤ d ∧ ∀ x, x ∈ fvarsE r → x ∈ fvarsE e := by
      intro c e r d h
      rw [evalF_succ] at h
      cases e with
      | ann e' ty => exact ihE c e' r d h
      | lit l =>
        cases h
        exact ⟨le_refl _, fun x hx => hx⟩
      | var v =>
        cases h
        exact ⟨le_refl _, fun x hx => hx⟩
      | lam p b =>
        cases h
        exact ⟨le_refl _, fun x hx => hx⟩
      | app f a =>
        simp only [evalStep] at h
        cases hf : evalF n c f with
        | none => rw [hf] at h; cases h
        | some rf =>
          obtain ⟨vf, c₁⟩ := rf
          rw [hf] at h
          obtain ⟨hc₁, hfv₁⟩ := ihE c f vf c₁ hf
          cases vf with
          | lam p cb =>
            simp only at h
            rw [unbindS_eq] at h
            simp only at h
            cases ha : evalF n (c₁ + p.binders.length) a with
            | none => rw [ha] at h; cases h
            | some ra =>
              obtain ⟨w, c₃⟩ := ra
              rw [ha] at h
              simp only at h
              obtain ⟨hc₃, hfv₃⟩ := ihE _ a w c₃ ha
              cases hm : matchE (renameP (freshVars c₁ p.binders.length) p).1 w with
              | none =>
                rw [hm] at h
                cases h
                exact ⟨by omega, fun x hx => hx⟩
              | some ms =>
                rw [hm] at h
                obtain ⟨hd, hfvr⟩ := ihE c₃ _ r d h
                obtain ⟨ws, hmv, hwlen, hzip, hkeys⟩ := unbind_match_decomp c₁ p w ms hm
                refine ⟨by omega, ?_⟩
                intro x hx
                have hx' := hfvr x hx
                simp only [fvarsE, List.mem_append]
                rcases fvarsE_substs _ ms x hx' with ⟨hxb, hnk⟩ | ⟨m, hmem, hxv⟩
                · rcases fvarsE_open cb 0 _ x hxb with hxcb | hxvs
                  · exact .inl (hfv₁ x hxcb)
                  · exfalso
                    rw [← hkeys] at hxvs
                    obtain ⟨m, hmem, hmx⟩ := List.mem_map.mp hxvs
                    exact hnk m hmem hmx
                · exact .inr (hfv₃ x (matchE_values_fvars _ w ms hm m hmem x hxv))
          | ann e₀ ty =>
            cases h
            exact ⟨hc₁, fun x hx => hx⟩
          | lit l =>
            cases h
            exact ⟨hc₁, fun x hx => hx⟩
          | var v =>
            cases h
            exact ⟨hc₁, fun x hx => hx⟩
          | app f₀ a₀ =>
            cases h
            exact ⟨hc₁, fun x hx => hx⟩
          | record fs =>
            cases h
            exact ⟨hc₁, fun x hx => hx⟩
          | proj e₀ l =>
            cases h
            exact ⟨hc₁, fun x hx => hx⟩
          | tag l e₀ =>
            cases h
            exact ⟨hc₁, fun x hx => hx⟩
          | case' s cls =>
            cases h
            exact ⟨hc₁, fun x hx => hx⟩
      | record fs =>
        simp only [evalStep] at h
        cases hfs : evalFieldsGo (evalF n) c fs with
        | none => rw [hfs] at h; cases h
        | some rfs =>
          obtain ⟨fs', c₁⟩ := rfs
          rw [hfs] at h
          cases h
          obtain ⟨hc, hfv⟩ := ihF c fs fs' d hfs
          exact ⟨hc, hfv⟩
      | proj e' l =>
        simp only [evalStep] at h
        cases he : evalF n c e' with
        | none => rw [he] at h; cases h
        | some re =>
          obtain ⟨v, c₁⟩ := re
          rw [he] at h
          obtain ⟨hc, hfv⟩ := ihE c e' v c₁ he
          cases v with
          | record fs =>
            simp only at h
            cases hfind : fs.find? (fun f => f.1 = l) with
            | some f =>
              rw [hfind] at h
              cases h
              refine ⟨hc, fun x hx => ?_⟩
              refine hfv x ?_
              exact fvarsFields_of_mem fs f (List.mem_of_find?_eq_some hfind) x hx
            | none =>
              rw [hfind] at h
              cases h
              exact ⟨hc, hfv⟩
          | ann e₀ ty =>
            cases h
            exact ⟨hc, hfv⟩
          | lit l₀ =>
            cases h
            exact ⟨hc, hfv⟩
          | var v₀ =>
            cases h
            exact ⟨hc, hfv⟩
          | lam p b =>
            cases h
            exact ⟨hc, hfv⟩
          | app f₀ a₀ =>
            cases h
            exact ⟨hc, hfv⟩
          | proj e₀ l₀ =>
            cases h
            exact ⟨hc, hfv⟩
          | tag l₀ e₀ =>
            cases h
            exact ⟨hc, hfv⟩
          | case' s cls =>
            cases h
            exact ⟨hc, hfv⟩
      | tag l e' =>
        simp only [evalStep] at h
        cases he : evalF n c e' with
        | none => rw [he] at h; cases h
        | some re =>
          obtain ⟨v, c₁⟩ := re
          rw [he] at h
          cases h
          obtain ⟨hc, hfv⟩ := ihE c e' v d he
          exact ⟨hc, hfv⟩
      | case' a cls =>
        simp only [evalStep] at h
        cases hcl : evalClausesGo (evalF n) c a cls with
        | none => rw [hcl] at h; cases h
        | some rc =>
          obtain ⟨res, c₁⟩ := rc
          rw [hcl] at h
          obtain ⟨hc, hres⟩ := ihC c a cls res c₁ hcl
          cases res with
          | some r' =>
            simp only at h
            cases h
            refine ⟨hc, fun x hx => ?_⟩
            simp only [fvarsE, List.mem_append]
            exact hres r rfl x hx
          | none =>
            simp only at h
            cases h
            exact ⟨hc, fun x hx => hx⟩
    refine ⟨hmain, ?_, ?_⟩
    · intro c fs fs' d h
      induction fs generalizing c fs' with
      | nil =>
        simp only [evalFieldsGo] at h
        cases h
        exact ⟨le_refl _, fun x hx => hx⟩
      | cons g fs ihfs =>
        obtain ⟨l, e⟩ := g
        simp only [evalFieldsGo] at h
        cases he : evalF (n + 1) c e with
        | none => rw [he] at h; cases h
        | some re =>
          obtain ⟨v, c₁⟩ := re
          rw [he] at h
          simp only at h
          cases hfs : evalFieldsGo (evalF (n + 1)) c₁ fs with
          | none => rw [hfs] at h; cases h
          | some rfs =>
            obtain ⟨vs, c₂⟩ := rfs
            rw [hfs] at h
            cases h
            obtain ⟨hc₁, hfv₁⟩ := hmain c e v c₁ he
            obtain ⟨hc₂, hfv₂⟩ := ihfs c₁ vs hfs
            refine ⟨by omega, fun x hx => ?_⟩
            simp only [fvarsFields, List.mem_append] at hx ⊢
            rcases hx with hx | hx
            · exact .inl (hfv₁ x hx)
            · exact .inr (hfv₂ x hx)
    · intro c a cls res d h
      induction cls generalizing c res with
      | nil =>
        simp only [evalClausesGo] at h
        cases h
        exact ⟨le_refl _, fun r hr => by cases hr⟩
      | cons g cls ihcl =>
        obtain ⟨p, b⟩ := g
        simp only [evalClausesGo] at h
        rw [unbindS_eq] at h
        simp only at h
        cases ha : evalF (n + 1) (c + p.binders.length) a with
        | none => rw [ha] at h; cases h
        | some ra =>
          obtain ⟨w, c₂⟩ := ra
          rw [ha] at h
          simp only at h
          obtain ⟨hc₂, hfvw⟩ := hmain _ a w c₂ ha
          cases hm : matchE (renameP (freshVars c p.binders.length) p).1 w with
          | some ms =>
            rw [hm] at h
            simp only at h
            cases hb : evalF (n + 1) c₂ (substsE ms (openE 0 (freshVars c p.binders.length) b)) with
            | none => rw [hb] at h; cases h
            | some rb =>
              obtain ⟨r', c₃⟩ := rb
              rw [hb] at h
              cases h
              obtain ⟨hc₃, hfvr⟩ := hmain c₂ _ r' d hb
              obtain ⟨ws, hmv, hwlen, hzip, hkeys⟩ := unbind_match_decomp c p w ms hm
              refine ⟨by omega, ?_⟩
              intro r hr x hx
              cases hr
              have hx' := hfvr x hx
              rcases fvarsE_substs _ ms x hx' with ⟨hxb, hnk⟩ | ⟨m, hmem, hxv⟩
              · rcases fvarsE_open b 0 _ x hxb with hxb' | hxvs
                · refine .inr ?_
                  simp only [fvarsClauses, List.mem_append]
                  exact .inl hxb'
                · exfalso
                  rw [← hkeys] at hxvs
                  obtain ⟨m, hmem, hmx⟩ := List.mem_map.mp hxvs
                  exact hnk m hmem hmx
              · exact .inl (hfvw x (matchE_values_fvars _ w ms hm m hmem x hxv))
          | none =>
            rw [hm] at h
            obtain ⟨hc', hres⟩ := ihcl c₂ res h
            refine ⟨by omega, ?_⟩
            intro r hr x hx
            rcases hres r hr x hx with hx' | hx'
            · exact .inl hx'
            · refine .inr ?_
              simp only [fvarsClauses, List.mem_append]
              exact .inr hx'

/-! ### Counter independence of evaluation results -/

/-- `gbClauses` unfolded to membership. -/
theorem gbClauses_iff {c : Nat} {cls : List (Pattern × Expr)} :
    gbClauses c cls = true ↔ ∀ x ∈ fvarsClauses cls, x.below c = true := by
  simp [gbClauses, List.all_eq_true]

theorem gbClauses_mono {c c' : Nat} (h : c ≤ c') {cls : List (Pattern × Expr)}
    (hc : gbClauses c cls = true) : gbClauses c' cls = true := by
  rw [gbClauses_iff] at hc ⊢
  exact fun x hx => below_mono h (hc x hx)

theorem gbFields_mono {c c' : Nat} (h : c ≤ c') {fs : List (String × Expr)}
    (hc : gbFields c fs = true) : gbFields c' fs = true := by
  rw [gbFields_iff] at hc ⊢
  exact fun x hx => below_mono h (hc x hx)

/-- Preservation in terms of the hygiene bound. -/
theorem eval_gb_preserve (n c : Nat) (e r : Expr) (d : Nat)
    (hgb : genBelowB c e = true) (h : evalF n c e = some (r, d)) :
    c ≤ d ∧ genBelowB d r = true := by
  obtain ⟨hc, hfv⟩ := (eval_preserve n).1 c e r d h
  refine ⟨hc, ?_⟩
  rw [genBelowB_iff]
  intro x hx
  exact below_mono hc (genBelowB_iff.mp hgb x (hfv x hx))

/-- A successful `matchVals` forces the freshened match to succeed, with
the fresh tokens zipped in. -/
theorem unbind_match_some (c₂ : Nat) (p : Pattern) (w : Expr) (ws : List Expr)
    (hmv : matchVals p w = some ws) :
    matchE (renameP (freshVars c₂ p.binders.length) p).1 w =
      some ((freshVars c₂ p.binders.length).zip ws) := by
  rw [matchE_eq_matchVals, matchVals_rename, hmv,
    binders_renameP_eq p _ (freshVars_length c₂ _)]
  rfl

/-- Hygiene of an instantiated scope body. -/
theorem gb_inst (c : Nat) (ws : List Expr) (cb : Expr)
    (hgb : genBelowB c cb = true) (hws : ∀ w ∈ ws, genBelowB c w = true) :
    genBelowB c (instE 0 ws cb) = true := by
  rw [genBelowB_iff]
  intro x hx
  rcases fvarsE_inst cb 0 ws x hx with hx' | ⟨w, hw, hx'⟩
  · exact genBelowB_iff.mp hgb x hx'
  · exact genBelowB_iff.mp (hws w hw) x hx'

/-- Hygiene of the values bound by a match. -/
theorem gb_match_values (c : Nat) (p : Pattern) (w : Expr)
    (ms : List (FreeVar × Expr)) (hm : matchE p w = some ms)
    (hgb : genBelowB c w = true) : ∀ m ∈ ms, genBelowB c m.2 = true := by
  intro m hmem
  rw [genBelowB_iff]
  intro x hx
  exact genBelowB_iff.mp hgb x (matchE_values_fvars p w ms hm m hmem x hx)

/-- Counter independence: under the allocator hygiene invariant, the result
value of evaluation (though not the final counter) is independent of the
allocator state. -/
theorem eval_ci : ∀ n,
    (∀ c c' e r d, genBelowB c e = true → genBelowB c' e = true →
      evalF n c e = some (r, d) → ∃ d', evalF n c' e = some (r, d')) ∧
    (∀ c c' fs fs' d, gbFields c fs = true → gbFields c' fs = true →
      evalFieldsGo (evalF n) c fs = some (fs', d) →
      ∃ d', evalFieldsGo (evalF n) c' fs = some (fs', d')) ∧
    (∀ c c' a cls res d, genBelowB c a = true → genBelowB c' a = true →
      gbClauses c cls = true → gbClauses c' cls = true →
      evalClausesGo (evalF n) c a cls = some (res, d) →
      ∃ d', evalClausesGo (evalF n) c' a cls = some (res, d')) := by
  intro n
  induction n with
  | zero =>
    refine ⟨?_, ?_, ?_⟩
    · intro c c' e r d _ _ h
      simp [evalF] at h
    · intro c c' fs fs' d _ _ h
      cases fs with
      | nil =>
        simp only [evalFieldsGo] at h
        cases h
        exact ⟨c', rfl⟩
      | cons g fs =>
        obtain ⟨l, e⟩ := g
        simp [evalFieldsGo, evalF] at h
    · intro c c' a cls res d _ _ _ _ h
      cases cls with
      | nil =>
        simp only [evalClausesGo] at h
        cases h
        exact ⟨c', rfl⟩
      | cons g cls =>
        obtain ⟨p, b⟩ := g
        simp [evalClausesGo, evalF] at h
  | succ n ih =>
    obtain ⟨ihE, ihF, ihC⟩ := ih
    have hmain : ∀ c c' e r d, genBelowB c e = true → genBelowB c' e = true →
        evalF (n + 1) c e = some (r, d) → ∃ d', evalF (n + 1) c' e = some (r, d') := by
      intro c c' e r d hgb hgb' h
      rw [evalF_succ] at h
      rw [evalF_succ]
      cases e with
      | ann e' ty => exact ihE c c' e' r d hgb hgb' h
      | lit l =>
        cases h
        exact ⟨c', rfl⟩
      | var v =>
        cases h
        exact ⟨c', rfl⟩
      | lam p b =>
        cases h
        exact ⟨c', rfl⟩
      | app f a =>
        have hgbf : genBelowB c f = true := by
          rw [genBelowB_iff] at hgb ⊢
          exact fun x hx => hgb x (by simp [fvarsE, List.mem_append, hx])
        have hgbf' : genBelowB c' f = true := by
          rw [genBelowB_iff] at hgb' ⊢
          exact fun x hx => hgb' x (by simp [fvarsE, List.mem_append, hx])
        have hgba : genBelowB c a = true := by
          rw [genBelowB_iff] at hgb ⊢
          exact fun x hx => hgb x (by simp [fvarsE, List.mem_append, hx])
        have hgba' : genBelowB c' a = true := by
          rw [genBelowB_iff] at hgb' ⊢
          exact fun x hx => hgb' x (by simp [fvarsE, List.mem_append, hx])
        simp only [evalStep] at h ⊢
        cases hf : evalF n c f with
        | none => rw [hf] at h; cases h
        | some rf =>
          obtain ⟨vf, c₁⟩ := rf
          rw [hf] at h
          simp only at h
          obtain ⟨c₁', hf'⟩ := ihE c c' f vf c₁ hgbf hgbf' hf
          rw [hf']
          simp only
          obtain ⟨hcc₁, hgbvf⟩ := eval_gb_preserve n c f vf c₁ hgbf hf
          obtain ⟨hcc₁', hgbvf'⟩ := eval_gb_preserve n c' f vf c₁' hgbf' hf'
          cases vf with
          | lam p cb =>
            simp only at h ⊢
            rw [unbindS_eq] at h ⊢
            simp only at h ⊢
            cases ha : evalF n (c₁ + p.binders.length) a with
            | none => rw [ha] at h; cases h
            | some ra =>
              obtain ⟨w, c₃⟩ := ra
              rw [ha] at h
              simp only at h
              obtain ⟨c₃', ha'⟩ := ihE (c₁ + p.binders.length) (c₁' + p.binders.length)
                a w c₃
                (genBelowB_mono (by omega) hgba) (genBelowB_mono (by omega) hgba') ha
              rw [ha']
              simp only
              obtain ⟨hc₃, hgbw⟩ := eval_gb_preserve n _ a w c₃
                (genBelowB_mono (by omega) hgba) ha
              obtain ⟨hc₃', hgbw'⟩ := eval_gb_preserve n _ a w c₃'
                (genBelowB_mono (by omega) hgba') ha'
              cases hm : matchE (renameP (freshVars c₁ p.binders.length) p).1 w with
              | none =>
                rw [hm] at h
                cases h
                have hnone : matchVals p w = none := (unbind_match_none_iff _ p w).mp hm
                rw [(unbind_match_none_iff c₁' p w).mpr hnone]
                exact ⟨c₃', rfl⟩
              | some ms =>
                rw [hm] at h
                simp only at h
                obtain ⟨ws, hmv, hwlen, hzip, hkeys, hsub⟩ :=
                  unbind_match_subst c₁ p cb w ms
                    (by rw [show genBelowB c₁ cb = genBelowB c₁ (.lam p cb) from rfl]
                        exact hgbvf) hm
                rw [unbind_match_some c₁' p w ws hmv]
                simp only
                obtain ⟨ws₂, hmv₂, hwlen₂, hzip₂, hkeys₂, hsub₂⟩ :=
                  unbind_match_subst c₁' p cb w ((freshVars c₁' p.binders.length).zip ws)
                    (by rw [show genBelowB c₁' cb = genBelowB c₁' (.lam p cb) from rfl]
                        exact hgbvf') (unbind_match_some c₁' p w ws hmv)
                have hws₂ : ws = ws₂ := by
                  rw [hmv] at hmv₂
                  exact Option.some.inj hmv₂
                subst hws₂
                rw [hsub] at h
                rw [hsub₂]
                have hgbws : ∀ w' ∈ ws, genBelowB c₃ w' = true := by
                  intro w' hw'
                  have : ∃ m ∈ ms, m.2 = w' := by
                    subst hzip
                    refine List.mem_map.mp ?_
                    rw [List.map_snd_zip _ _ (by rw [freshVars_length]; omega)]
                    exact hw'
                  obtain ⟨m, hmem, hm2⟩ := this
                  rw [← hm2]
                  exact gb_match_values c₃ _ w ms hm hgbw m hmem
                have hgbws' : ∀ w' ∈ ws, genBelowB c₃' w' = true := by
                  intro w' hw'
                  have : ∃ m ∈ (freshVars c₁' p.binders.length).zip ws, m.2 = w' := by
                    refine List.mem_map.mp ?_
                    rw [List.map_snd_zip _ _ (by rw [freshVars_length]; omega)]
                    exact hw'
                  obtain ⟨m, hmem, hm2⟩ := this
                  rw [← hm2]
                  exact gb_match_values c₃' _ w _ (unbind_match_some c₁' p w ws hmv)
                    hgbw' m hmem
                refine ihE c₃ c₃' (instE 0 ws cb) r d ?_ ?_ h
                · exact gb_inst c₃ ws cb (genBelowB_mono (by omega) hgbvf) hgbws
                · exact gb_inst c₃' ws cb (genBelowB_mono (by omega) hgbvf') hgbws'
          | ann e₀ ty =>
            simp only at h ⊢
            cases h
            exact ⟨c₁', rfl⟩
          | lit l =>
            simp only at h ⊢
            cases h
            exact ⟨c₁', rfl⟩
          | var v =>
            simp only at h ⊢
            cases h
            exact ⟨c₁', rfl⟩
          | app f₀ a₀ =>
            simp only at h ⊢
            cases h
            exact ⟨c₁', rfl⟩
          | record fs =>
            simp only at h ⊢
            cases h
            exact ⟨c₁', rfl⟩
          | proj e₀ l =>
            simp only at h ⊢
            cases h
            exact ⟨c₁', rfl⟩
          | tag l e₀ =>
            simp only at h ⊢
            cases h
            exact ⟨c₁', rfl⟩
          | case' s cls =>
            simp only at h ⊢
            cases h
            exact ⟨c₁', rfl⟩
      | record fs =>
        simp only [evalStep] at h ⊢
        cases hfs : evalFieldsGo (evalF n) c fs with
        | none => rw [hfs] at h; cases h
        | some rfs =>
          obtain ⟨fs', c₁⟩ := rfs
          rw [hfs] at h
          cases h
          obtain ⟨c₁', hfs'⟩ := ihF c c' fs fs' d hgb hgb' hfs
          rw [hfs']
          exact ⟨c₁', rfl⟩
      | proj e' l =>
        simp only [evalStep] at h ⊢
        cases he : evalF n c e' with
        | none => rw [he] at h; cases h
        | some re =>
          obtain ⟨v, c₁⟩ := re
          rw [he] at h
          obtain ⟨c₁', he'⟩ := ihE c c' e' v c₁ hgb hgb' he
          rw [he']
          cases v with
          | record fs =>
            simp only at h ⊢
            cases hfind : fs.find? (fun f => f.1 = l) with
            | some f =>
              rw [hfind] at h
              cases h
              exact ⟨c₁', rfl⟩
            | none =>
              rw [hfind] at h
              cases h
              exact ⟨c₁', rfl⟩
          | ann e₀ ty =>
            simp only at h ⊢
            cases h
            exact ⟨c₁', rfl⟩
          | lit l₀ =>
            simp only at h ⊢
            cases h
            exact ⟨c₁', rfl⟩
          | var v₀ =>
            simp only at h ⊢
            cases h
            exact ⟨c₁', rfl⟩
          | lam p b =>
            simp only at h ⊢
            cases h
            exact ⟨c₁', rfl⟩
          | app f₀ a₀ =>
            simp only at h ⊢
            cases h
            exact ⟨c₁', rfl⟩
          | proj e₀ l₀ =>
            simp only at h ⊢
            cases h
            exact ⟨c₁', rfl⟩
          | tag l₀ e₀ =>
            simp only at h ⊢
            cases h
            exact ⟨c₁', rfl⟩
          | case' s cls =>
            simp only at h ⊢
            cases h
            exact ⟨c₁', rfl⟩
      | tag l e' =>
        simp only [evalStep] at h ⊢
        cases he : evalF n c e' with
        | none => rw [he] at h; cases h
        | some re =>
          obtain ⟨v, c₁⟩ := re
          rw [he] at h
          cases h
          obtain ⟨c₁', he'⟩ := ihE c c' e' v d hgb hgb' he
          rw [he']
          exact ⟨c₁', rfl⟩
      | case' a cls =>
        have hgbs : genBelowB c a = true := by
          rw [genBelowB_iff] at hgb ⊢
          exact fun x hx => hgb x (by simp [fvarsE, List.mem_append, hx])
        have hgbs' : genBelowB c' a = true := by
          rw [genBelowB_iff] at hgb' ⊢
          exact fun x hx => hgb' x (by simp [fvarsE, List.mem_append, hx])
        have hgbc : gbClauses c cls = true := by
          rw [genBelowB_iff] at hgb
          rw [gbClauses_iff]
          exact fun x hx => hgb x (by simp [fvarsE, List.mem_append, hx])
        have hgbc' : gbClauses c' cls = true := by
          rw [genBelowB_iff] at hgb'
          rw [gbClauses_iff]
          exact fun x hx => hgb' x (by simp [fvarsE, List.mem_append, hx])
        simp only [evalStep] at h ⊢
        cases hcl : evalClausesGo (evalF n) c a cls with
        | none => rw [hcl] at h; cases h
        | some rc =>
          obtain ⟨res, c₁⟩ := rc
          rw [hcl] at h
          obtain ⟨c₁', hcl'⟩ := ihC c c' a cls res c₁ hgbs hgbs' hgbc hgbc' hcl
          rw [hcl']
          cases res with
          | some r' =>
            simp only at h ⊢
            cases h
            exact ⟨c₁', rfl⟩
          | none =>
            simp only at h ⊢
            cases h
            exact ⟨c₁', rfl⟩
    refine ⟨hmain, ?_, ?_⟩
    · intro c c' fs fs' d hgb hgb' h
      induction fs generalizing c c' fs' with
      | nil =>
        simp only [evalFieldsGo] at h ⊢
        cases h
        exact ⟨c', rfl⟩
      | cons g fs ihfs =>
        obtain ⟨l, e⟩ := g
        have hgbe : genBelowB c e = true := by
          rw [gbFields_iff] at hgb
          rw [genBelowB_iff]
          exact fun x hx => hgb x (by simp [fvarsFields, List.mem_append, hx])
        have hgbe' : genBelowB c' e = true := by
          rw [gbFields_iff] at hgb'
          rw [genBelowB_iff]
          exact fun x hx => hgb' x (by simp [fvarsFields, List.mem_append, hx])
        have hgbr : gbFields c fs = true := by
          rw [gbFields_iff] at hgb ⊢
          exact fun x hx => hgb x (by simp [fvarsFields, List.mem_append, hx])
        have hgbr' : gbFields c' fs = true := by
          rw [gbFields_iff] at hgb' ⊢
          exact fun x hx => hgb' x (by simp [fvarsFields, List.mem_append, hx])
        simp only [evalFieldsGo] at h ⊢
        cases he : evalF (n + 1) c e with
        | none => rw [he] at h; cases h
        | some re =>
          obtain ⟨v, c₁⟩ := re
          rw [he] at h
          simp only at h
          obtain ⟨c₁', he'⟩ := hmain c c' e v c₁ hgbe hgbe' he
          rw [he']
          simp only
          cases hfs : evalFieldsGo (evalF (n + 1)) c₁ fs with
          | none => rw [hfs] at h; cases h
          | some rfs =>
            obtain ⟨vs, c₂⟩ := rfs
            rw [hfs] at h
            cases h
            obtain ⟨hcc₁, -⟩ := (eval_preserve (n + 1)).1 c e v c₁ he
            obtain ⟨hcc₁', -⟩ := (eval_preserve (n + 1)).1 c' e v c₁' he'
            obtain ⟨c₂', hfs'⟩ := ihfs c₁ c₁' vs
              (gbFields_mono hcc₁ hgbr) (gbFields_mono hcc₁' hgbr') hfs
            rw [hfs']
            exact ⟨c₂', rfl⟩
    · intro c c' a cls res d hgba hgba' hgbc hgbc' h
      induction cls generalizing c c' res with
      | nil =>
        simp only [evalClausesGo] at h ⊢
        cases h
        exact ⟨c', rfl⟩
      | cons g cls ihcl =>
        obtain ⟨p, b⟩ := g
        have hgbb : genBelowB c b = true := by
          rw [gbClauses_iff] at hgbc
          rw [genBelowB_iff]
          exact fun x hx => hgbc x (by simp [fvarsClauses, List.mem_append, hx])
        have hgbb' : genBelowB c' b = true := by
          rw [gbClauses_iff] at hgbc'
          rw [genBelowB_iff]
          exact fun x hx => hgbc' x (by simp [fvarsClauses, List.mem_append, hx])
        have hgbrest : gbClauses c cls = true := by
          rw [gbClauses_iff] at hgbc ⊢
          exact fun x hx => hgbc x (by simp [fvarsClauses, List.mem_append, hx])
        have hgbrest' : gbClauses c' cls = true := by
          rw [gbClauses_iff] at hgbc' ⊢
          exact fun x hx => hgbc' x (by simp [fvarsClauses, List.mem_append, hx])
        simp only [evalClausesGo] at h ⊢
        rw [unbindS_eq] at h ⊢
        simp only at h ⊢
        cases ha : evalF (n + 1) (c + p.binders.length) a with
        | none => rw [ha] at h; cases h
        | some ra =>
          obtain ⟨w, c₂⟩ := ra
          rw [ha] at h
          simp only at h
          obtain ⟨c₂', ha'⟩ := hmain (c + p.binders.length) (c' + p.binders.length)
            a w c₂
            (genBelowB_mono (by omega) hgba) (genBelowB_mono (by omega) hgba') ha
          rw [ha']
          simp only
          obtain ⟨hc₂, hgbw⟩ := eval_gb_preserve (n + 1) _ a w c₂
            (genBelowB_mono (by omega) hgba) ha
          obtain ⟨hc₂', hgbw'⟩ := eval_gb_preserve (n + 1) _ a w c₂'
            (genBelowB_mono (by omega) hgba') ha'
          cases hm : matchE (renameP (freshVars c p.binders.length) p).1 w with
          | none =>
            rw [hm] at h
            have hnone : matchVals p w = none := (unbind_match_none_iff _ p w).mp hm
            rw [(unbind_match_none_iff c' p w).mpr hnone]
            exact ihcl c₂ c₂' res (genBelowB_mono (by omega) hgba)
              (genBelowB_mono (by omega) hgba')
              (gbClauses_mono (by omega) hgbrest) (gbClauses_mono (by omega) hgbrest') h
          | some ms =>
            rw [hm] at h
            simp only at h
            obtain ⟨ws, hmv, hwlen, hzip, hkeys, hsub⟩ :=
              unbind_match_subst c p b w ms (genBelowB_mono (by omega) hgbb) hm
            rw [unbind_match_some c' p w ws hmv]
            simp only
            obtain ⟨ws₂, hmv₂, hwlen₂, hzip₂, hkeys₂, hsub₂⟩ :=
              unbind_match_subst c' p b w ((freshVars c' p.binders.length).zip ws)
                (genBelowB_mono (by omega) hgbb') (unbind_match_some c' p w ws hmv)
            have hws₂ : ws = ws₂ := by
              rw [hmv] at hmv₂
              exact Option.some.inj hmv₂
            subst hws₂
            rw [hsub] at h
            rw [hsub₂]
            have hgbws : ∀ w' ∈ ws, genBelowB c₂ w' = true := by
              intro w' hw'
              have : ∃ m ∈ ms, m.2 = w' := by
                subst hzip
                refine List.mem_map.mp ?_
                rw [List.map_snd_zip _ _ (by rw [freshVars_length]; omega)]
                exact hw'
              obtain ⟨m, hmem, hm2⟩ := this
              rw [← hm2]
              exact gb_match_values c₂ _ w ms hm hgbw m hmem
            have hgbws' : ∀ w' ∈ ws, genBelowB c₂' w' = true := by
              intro w' hw'
              have : ∃ m ∈ (freshVars c' p.binders.length).zip ws, m.2 = w' := by
                refine List.mem_map.mp ?_
                rw [List.map_snd_zip _ _ (by rw [freshVars_length]; omega)]
                exact hw'
              obtain ⟨m, hmem, hm2⟩ := this
              rw [← hm2]
              exact gb_match_values c₂' _ w _ (unbind_match_some c' p w ws hmv)
                hgbw' m hmem
            cases hb : evalF (n + 1) c₂ (instE 0 ws b) with
            | none => rw [hb] at h; cases h
            | some rb =>
              obtain ⟨r', c₃⟩ := rb
              rw [hb] at h
              cases h
              obtain ⟨c₃', hb'⟩ := hmain c₂ c₂' (instE 0 ws b) r' d
                (gb_inst c₂ ws b (genBelowB_mono (by omega) hgbb) hgbws)
                (gb_inst c₂' ws b (genBelowB_mono (by omega) hgbb') hgbws') hb
              rw [hb']
              exact ⟨c₃', rfl⟩

/-! ### Self-evaluation: results of `eval` evaluate to themselves -/

theorem gb_split_app {c : Nat} {f a : Expr} (h : genBelowB c (.app f a) = true) :
    genBelowB c f = true ∧ genBelowB c a = true := by
  rw [genBelowB_iff] at h
  constructor <;> rw [genBelowB_iff] <;> intro x hx <;>
    exact h x (by simp [fvarsE, List.mem_append, hx])

theorem gb_split_case {c : Nat} {a : Expr} {cls : List (Pattern × Expr)}
    (h : genBelowB c (.case' a cls) = true) :
    genBelowB c a = true ∧ gbClauses c cls = true := by
  rw [genBelowB_iff] at h
  refine ⟨?_, ?_⟩
  · rw [genBelowB_iff]
    intro x hx
    exact h x (by simp [fvarsE, List.mem_append, hx])
  · rw [gbClauses_iff]
    intro x hx
    exact h x (by simp [fvarsE, List.mem_append, hx])

theorem gb_fields_cons {c : Nat} {l : String} {e : Expr} {fs : List (String × Expr)}
    (h : gbFields c ((l, e) :: fs) = true) :
    genBelowB c e = true ∧ gbFields c fs = true := by
  rw [gbFields_iff] at h
  refine ⟨?_, ?_⟩
  · rw [genBelowB_iff]
    intro x hx
    exact h x (by simp [fvarsFields, List.mem_append, hx])
  · rw [gbFields_iff]
    intro x hx
    exact h x (by simp [fvarsFields, List.mem_append, hx])

theorem gb_clauses_cons {c : Nat} {p : Pattern} {b : Expr} {cls : List (Pattern × Expr)}
    (h : gbClauses c ((p, b) :: cls) = true) :
    genBelowB c b = true ∧ gbClauses c cls = true := by
  rw [gbClauses_iff] at h
  refine ⟨?_, ?_⟩
  · rw [genBelowB_iff]
    intro x hx
    exact h x (by simp [fvarsClauses, List.mem_append, hx])
  · rw [gbClauses_iff]
    intro x hx
    exact h x (by simp [fvarsClauses, List.mem_append, hx])

/-- If a record field list evaluates to itself, every field already
evaluates to itself at some hygienic allocator state. -/
theorem evalFieldsGo_self_extract (m : Nat) :
    ∀ (fs : List (String × Expr)) (c d : Nat), gbFields c fs = true →
      evalFieldsGo (evalF m) c fs = some (fs, d) →
      ∀ g ∈ fs, ∃ c' d', genBelowB c' g.2 = true ∧ evalF m c' g.2 = some (g.2, d') := by
  intro fs
  induction fs with
  | nil =>
    intro c d _ _ g hg
    cases hg
  | cons f fs ihfs =>
    intro c d hgb h g hg
    obtain ⟨l, e⟩ := f
    obtain ⟨hgbe, hgbr⟩ := gb_fields_cons hgb
    simp only [evalFieldsGo] at h
    cases he : evalF m c e with
    | none => rw [he] at h; cases h
    | some re =>
      obtain ⟨v, c₁⟩ := re
      rw [he] at h
      simp only at h
      cases hr : evalFieldsGo (evalF m) c₁ fs with
      | none => rw [hr] at h; cases h
      | some rr =>
        obtain ⟨vs, c₂⟩ := rr
        rw [hr] at h
        simp only [Option.some.injEq, Prod.mk.injEq, List.cons.injEq] at h
        obtain ⟨⟨⟨-, hv⟩, hvs⟩, -⟩ := h
        subst hv
        rw [hvs] at hr
        obtain ⟨hcc₁, -⟩ := (eval_preserve m).1 c v v c₁ he
        cases hg with
        | head =>
          exact ⟨c, c₁, hgbe, he⟩
        | tail _ htl =>
          exact ihfs c₁ c₂ (gbFields_mono hcc₁ hgbr) hr g htl

/-- Self-evaluation: a result of `eval` evaluates to itself (with the same
fuel) from any allocator state that respects hygiene for it.  The record
component says an evaluated field list re-evaluates to itself; the clause
component covers the value produced by a successful clause. -/
theorem eval_self : ∀ n,
    (∀ c e r d, genBelowB c e = true → evalF n c e = some (r, d) →
      ∀ c₂, genBelowB c₂ r = true → ∃ d₂, evalF n c₂ r = some (r, d₂)) ∧
    (∀ c fs fs' d, gbFields c fs = true →
      evalFieldsGo (evalF n) c fs = some (fs', d) →
      ∀ c₂, gbFields c₂ fs' = true →
        ∃ d₂, evalFieldsGo (evalF n) c₂ fs' = some (fs', d₂)) ∧
    (∀ c a cls r' d, genBelowB c a = true → gbClauses c cls = true →
      evalClausesGo (evalF n) c a cls = some (some r', d) →
      ∀ c₂, genBelowB c₂ r' = true → ∃ d₂, evalF n c₂ r' = some (r', d₂)) := by
  intro n
  induction n with
  | zero =>
    refine ⟨?_, ?_, ?_⟩
    · intro c e r d _ h
      simp [evalF] at h
    · intro c fs fs' d _ h c₂ _
      cases fs with
      | nil =>
        simp only [evalFieldsGo] at h
        cases h
        exact ⟨c₂, rfl⟩
      | cons g fs =>
        obtain ⟨l, e⟩ := g
        simp [evalFieldsGo, evalF] at h
    · intro c a cls r' d _ _ h
      cases cls with
      | nil =>
        simp only [evalClausesGo] at h
        simp at h
      | cons g cls =>
        obtain ⟨p, b⟩ := g
        simp [evalClausesGo, evalF] at h
  | succ n ih =>
    obtain ⟨ihE, ihF, ihC⟩ := ih
    have hmain : ∀ c e r d, genBelowB c e = true → evalF (n + 1) c e = some (r, d) →
        ∀ c₂, genBelowB c₂ r = true → ∃ d₂, evalF (n + 1) c₂ r = some (r, d₂) := by
      intro c e r d hgb h
      rw [evalF_succ] at h
      cases e with
      | ann e' ty =>
        intro c₂ hgb₂
        obtain ⟨d₂, h₂⟩ := ihE c e' r d hgb h c₂ hgb₂
        exact ⟨d₂, eval_mono_le (n + 1) n (Nat.le_succ n) c₂ r _ h₂⟩
      | lit l =>
        cases h
        intro c₂ _
        exact ⟨c₂, rfl⟩
      | var v =>
        cases h
        intro c₂ _
        exact ⟨c₂, rfl⟩
      | lam p b =>
        cases h
        intro c₂ _
        exact ⟨c₂, rfl⟩
      | app f a =>
        obtain ⟨hgbf, hgba⟩ := gb_split_app hgb
        simp only [evalStep] at h
        cases hf : evalF n c f with
        | none => rw [hf] at h; cases h
        | some rf =>
          obtain ⟨vf, c₁⟩ := rf
          rw [hf] at h
          simp only at h
          obtain ⟨hcc₁, hgbvf⟩ := eval_gb_preserve n c f vf c₁ hgbf hf
          cases vf with
          | lam p cb =>
            simp only at h
            rw [unbindS_eq] at h
            simp only at h
            cases ha : evalF n (c₁ + p.binders.length) a with
            | none => rw [ha] at h; cases h
            | some ra =>
              obtain ⟨w, c₃⟩ := ra
              rw [ha] at h
              simp only at h
              obtain ⟨hc₃, hgbw⟩ := eval_gb_preserve n _ a w c₃
                (genBelowB_mono (by omega) hgba) ha
              cases hm : matchE (renameP (freshVars c₁ p.binders.length) p).1 w with
              | none =>
                rw [hm] at h
                cases h
                intro c₂ hgb₂
                obtain ⟨hgbf₂, hgba₂⟩ := gb_split_app hgb₂
                obtain ⟨c₁₂, hf₂⟩ := (eval_ci n).1 c c₂ f (.lam p cb) c₁ hgbf hgbf₂ hf
                obtain ⟨hcc₁₂, -⟩ := (eval_preserve n).1 c₂ f _ c₁₂ hf₂
                obtain ⟨c₃₂, ha₂⟩ := (eval_ci n).1 (c₁ + p.binders.length)
                  (c₁₂ + p.binders.length) a w d
                  (genBelowB_mono (by omega) hgba) (genBelowB_mono (by omega) hgba₂) ha
                have hnone : matchVals p w = none := (unbind_match_none_iff _ p w).mp hm
                refine ⟨c₃₂, ?_⟩
                rw [evalF_succ]
                simp only [evalStep]
                rw [hf₂]
                simp only
                rw [unbindS_eq]
                simp only
                rw [ha₂]
                simp only
                rw [(unbind_match_none_iff c₁₂ p w).mpr hnone]
              | some ms =>
                rw [hm] at h
                simp only at h
                obtain ⟨ws, hmv, hwlen, hzip, hkeys, hsub⟩ :=
                  unbind_match_subst c₁ p cb w ms
                    (by rw [show genBelowB c₁ cb = genBelowB c₁ (.lam p cb) from rfl]
                        exact hgbvf) hm
                rw [hsub] at h
                have hgbws : ∀ w' ∈ ws, genBelowB c₃ w' = true := by
                  intro w' hw'
                  have : ∃ m' ∈ ms, m'.2 = w' := by
                    subst hzip
                    refine List.mem_map.mp ?_
                    rw [List.map_snd_zip _ _ (by rw [freshVars_length]; omega)]
                    exact hw'
                  obtain ⟨m', hmem, hm2⟩ := this
                  rw [← hm2]
                  exact gb_match_values c₃ _ w ms hm hgbw m' hmem
                intro c₂ hgb₂
                obtain ⟨d₂, h₂⟩ := ihE c₃ (instE 0 ws cb) r d
                  (gb_inst c₃ ws cb (genBelowB_mono (by omega) hgbvf) hgbws) h c₂ hgb₂
                exact ⟨d₂, eval_mono_le (n + 1) n (Nat.le_succ n) c₂ r _ h₂⟩
          | ann e₀ ty =>
            simp only at h
            cases h
            intro c₂ hgb₂
            obtain ⟨hgbf₂, -⟩ := gb_split_app hgb₂
            obtain ⟨c₁₂, hf₂⟩ := (eval_ci n).1 c c₂ f _ d hgbf hgbf₂ hf
            refine ⟨c₁₂, ?_⟩
            rw [evalF_succ]
            simp only [evalStep]
            rw [hf₂]
          | lit l =>
            simp only at h
            cases h
            intro c₂ hgb₂
            obtain ⟨hgbf₂, -⟩ := gb_split_app hgb₂
            obtain ⟨c₁₂, hf₂⟩ := (eval_ci n).1 c c₂ f _ d hgbf hgbf₂ hf
            refine ⟨c₁₂, ?_⟩
            rw [evalF_succ]
            simp only [evalStep]
            rw [hf₂]
          | var v =>
            simp only at h
            cases h
            intro c₂ hgb₂
            obtain ⟨hgbf₂, -⟩ := gb_split_app hgb₂
            obtain ⟨c₁₂, hf₂⟩ := (eval_ci n).1 c c₂ f _ d hgbf hgbf₂ hf
            refine ⟨c₁₂, ?_⟩
            rw [evalF_succ]
            simp only [evalStep]
            rw [hf₂]
          | app f₀ a₀ =>
            simp only at h
            cases h
            intro c₂ hgb₂
            obtain ⟨hgbf₂, -⟩ := gb_split_app hgb₂
            obtain ⟨c₁₂, hf₂⟩ := (eval_ci n).1 c c₂ f _ d hgbf hgbf₂ hf
            refine ⟨c₁₂, ?_⟩
            rw [evalF_succ]
            simp only [evalStep]
            rw [hf₂]
          | record fs =>
            simp only at h
            cases h
            intro c₂ hgb₂
            obtain ⟨hgbf₂, -⟩ := gb_split_app hgb₂
            obtain ⟨c₁₂, hf₂⟩ := (eval_ci n).1 c c₂ f _ d hgbf hgbf₂ hf
            refine ⟨c₁₂, ?_⟩
            rw [evalF_succ]
            simp only [evalStep]
            rw [hf₂]
          | proj e₀ l =>
            simp only at h
            cases h
            intro c₂ hgb₂
            obtain ⟨hgbf₂, -⟩ := gb_split_app hgb₂
            obtain ⟨c₁₂, hf₂⟩ := (eval_ci n).1 c c₂ f _ d hgbf hgbf₂ hf
            refine ⟨c₁₂, ?_⟩
            rw [evalF_succ]
            simp only [evalStep]
            rw [hf₂]
          | tag l e₀ =>
            simp only at h
            cases h
            intro c₂ hgb₂
            obtain ⟨hgbf₂, -⟩ := gb_split_app hgb₂
            obtain ⟨c₁₂, hf₂⟩ := (eval_ci n).1 c c₂ f _ d hgbf hgbf₂ hf
            refine ⟨c₁₂, ?_⟩
            rw [evalF_succ]
            simp only [evalStep]
            rw [hf₂]
          | case' s cls =>
            simp only at h
            cases h
            intro c₂ hgb₂
            obtain ⟨hgbf₂, -⟩ := gb_split_app hgb₂
            obtain ⟨c₁₂, hf₂⟩ := (eval_ci n).1 c c₂ f _ d hgbf hgbf₂ hf
            refine ⟨c₁₂, ?_⟩
            rw [evalF_succ]
            simp only [evalStep]
            rw [hf₂]
      | record fs =>
        simp only [evalStep] at h
        cases hfs : evalFieldsGo (evalF n) c fs with
        | none => rw [hfs] at h; cases h
        | some rfs =>
          obtain ⟨fs', c₁⟩ := rfs
          rw [hfs] at h
          cases h
          intro c₂ hgb₂
          obtain ⟨d₂, h₂⟩ := ihF c fs fs' d hgb hfs c₂ hgb₂
          refine ⟨d₂, ?_⟩
          rw [evalF_succ]
          simp only [evalStep]
          rw [h₂]
      | proj e' l =>
        simp only [evalStep] at h
        cases he : evalF n c e' with
        | none => rw [he] at h; cases h
        | some re =>
          obtain ⟨v, c₁⟩ := re
          rw [he] at h
          simp only at h
          obtain ⟨hcc₁, hgbv⟩ := eval_gb_preserve n c e' v c₁ hgb he
          cases v with
          | record fs =>
            simp only at h
            cases hfind : fs.find? (fun f => f.1 = l) with
            | some f =>
              rw [hfind] at h
              cases h
              have hmem : f ∈ fs := List.mem_of_find?_eq_some hfind
              obtain ⟨d', hself⟩ := ihE c e' (.record fs) d hgb he d hgbv
              cases n with
              | zero => simp [evalF] at he
              | succ m =>
                rw [evalF_succ] at hself
                simp only [evalStep] at hself
                cases hfs2 : evalFieldsGo (evalF m) d fs with
                | none => rw [hfs2] at hself; cases hself
                | some rfs =>
                  obtain ⟨fs₂, c₄⟩ := rfs
                  rw [hfs2] at hself
                  simp only [Option.some.injEq, Prod.mk.injEq, Expr.record.injEq] at hself
                  obtain ⟨hfs₂, -⟩ := hself
                  rw [hfs₂] at hfs2
                  obtain ⟨c', d'', hgb', hev⟩ :=
                    evalFieldsGo_self_extract m fs d c₄ hgbv hfs2 f hmem
                  intro c₂ hgb₂
                  obtain ⟨d₂, h₂⟩ := (eval_ci m).1 c' c₂ f.2 f.2 d'' hgb' hgb₂ hev
                  exact ⟨d₂, eval_mono_le (m + 2) m (by omega) c₂ f.2 _ h₂⟩
            | none =>
              rw [hfind] at h
              cases h
              intro c₂ hgb₂
              obtain ⟨d₂, h₂⟩ := ihE c e' (.record fs) d hgb he c₂ hgb₂
              exact ⟨d₂, eval_mono_le (n + 1) n (Nat.le_succ n) c₂ _ _ h₂⟩
          | ann e₀ ty =>
            simp only at h
            cases h
            intro c₂ hgb₂
            obtain ⟨d₂, h₂⟩ := ihE c e' _ d hgb he c₂ hgb₂
            exact ⟨d₂, eval_mono_le (n + 1) n (Nat.le_succ n) c₂ _ _ h₂⟩
          | lit l₀ =>
            simp only at h
            cases h
            intro c₂ hgb₂
            obtain ⟨d₂, h₂⟩ := ihE c e' _ d hgb he c₂ hgb₂
            exact ⟨d₂, eval_mono_le (n + 1) n (Nat.le_succ n) c₂ _ _ h₂⟩
          | var v₀ =>
            simp only at h
            cases h
            intro c₂ hgb₂
            obtain ⟨d₂, h₂⟩ := ihE c e' _ d hgb he c₂ hgb₂
            exact ⟨d₂, eval_mono_le (n + 1) n (Nat.le_succ n) c₂ _ _ h₂⟩
          | lam p b =>
            simp only at h
            cases h
            intro c₂ hgb₂
            obtain ⟨d₂, h₂⟩ := ihE c e' _ d hgb he c₂ hgb₂
            exact ⟨d₂, eval_mono_le (n + 1) n (Nat.le_succ n) c₂ _ _ h₂⟩
          | app f₀ a₀ =>
            simp only at h
            cases h
            intro c₂ hgb₂
            obtain ⟨d₂, h₂⟩ := ihE c e' _ d hgb he c₂ hgb₂
            exact ⟨d₂, eval_mono_le (n + 1) n (Nat.le_succ n) c₂ _ _ h₂⟩
          | proj e₀ l₀ =>
            simp only at h
            cases h
            intro c₂ hgb₂
            obtain ⟨d₂, h₂⟩ := ihE c e' _ d hgb he c₂ hgb₂
            exact ⟨d₂, eval_mono_le (n + 1) n (Nat.le_succ n) c₂ _ _ h₂⟩
          | tag l₀ e₀ =>
            simp only at h
            cases h
            intro c₂ hgb₂
            obtain ⟨d₂, h₂⟩ := ihE c e' _ d hgb he c₂ hgb₂
            exact ⟨d₂, eval_mono_le (n + 1) n (Nat.le_succ n) c₂ _ _ h₂⟩
          | case' s cls =>
            simp only at h
            cases h
            intro c₂ hgb₂
            obtain ⟨d₂, h₂⟩ := ihE c e' _ d hgb he c₂ hgb₂
            exact ⟨d₂, eval_mono_le (n + 1) n (Nat.le_succ n) c₂ _ _ h₂⟩
      | tag l e' =>
        simp only [evalStep] at h
        cases he : evalF n c e' with
        | none => rw [he] at h; cases h
        | some re =>
          obtain ⟨v, c₁⟩ := re
          rw [he] at h
          cases h
          intro c₂ hgb₂
          obtain ⟨d₂, h₂⟩ := ihE c e' v d hgb he c₂ hgb₂
          refine ⟨d₂, ?_⟩
          rw [evalF_succ]
          simp only [evalStep]
          rw [h₂]
      | case' a cls =>
        obtain ⟨hgbs, hgbc⟩ := gb_split_case hgb
        simp only [evalStep] at h
        cases hcl : evalClausesGo (evalF n) c a cls with
        | none => rw [hcl] at h; cases h
        | some rc =>
          obtain ⟨res, c₁⟩ := rc
          rw [hcl] at h
          cases res with
          | some r' =>
            simp only at h
            cases h
            intro c₂ hgb₂
            obtain ⟨d₂, h₂⟩ := ihC c a cls r d hgbs hgbc hcl c₂ hgb₂
            exact ⟨d₂, eval_mono_le (n + 1) n (Nat.le_succ n) c₂ r _ h₂⟩
          | none =>
            simp only at h
            cases h
            intro c₂ hgb₂
            obtain ⟨hgbs₂, hgbc₂⟩ := gb_split_case hgb₂
            obtain ⟨d₂, hcl₂⟩ := (eval_ci n).2.2 c c₂ a cls none d
              hgbs hgbs₂ hgbc hgbc₂ hcl
            refine ⟨d₂, ?_⟩
            rw [evalF_succ]
            simp only [evalStep]
            rw [hcl₂]
    refine ⟨hmain, ?_, ?_⟩
    · intro c fs fs' d hgb h
      induction fs generalizing c fs' with
      | nil =>
        simp only [evalFieldsGo] at h
        cases h
        intro c₂ _
        exact ⟨c₂, rfl⟩
      | cons g fs ihfs =>
        obtain ⟨l, e⟩ := g
        obtain ⟨hgbe, hgbr⟩ := gb_fields_cons hgb
        simp only [evalFieldsGo] at h
        cases he : evalF (n + 1) c e with
        | none => rw [he] at h; cases h
        | some re =>
          obtain ⟨v, c₁⟩ := re
          rw [he] at h
          simp only at h
          cases hr : evalFieldsGo (evalF (n + 1)) c₁ fs with
          | none => rw [hr] at h; cases h
          | some rr =>
            obtain ⟨vs, c₃⟩ := rr
            rw [hr] at h
            cases h
            intro c₂ hgb₂
            obtain ⟨hgbv₂, hgbvs₂⟩ := gb_fields_cons hgb₂
            obtain ⟨hcc₁, -⟩ := (eval_preserve (n + 1)).1 c e v c₁ he
            obtain ⟨d₁, h₁⟩ := hmain c e v c₁ hgbe he c₂ hgbv₂
            obtain ⟨hcd₁, -⟩ := (eval_preserve (n + 1)).1 c₂ v v d₁ h₁
            obtain ⟨d₂, h₂⟩ := ihfs c₁ vs (gbFields_mono hcc₁ hgbr) hr d₁
              (gbFields_mono hcd₁ hgbvs₂)
            refine ⟨d₂, ?_⟩
            simp only [evalFieldsGo]
            rw [h₁]
            simp only
            rw [h₂]
    · intro c a cls r' d hgba hgbc h
      induction cls generalizing c with
      | nil =>
        simp only [evalClausesGo] at h
        simp at h
      | cons g cls ihcl =>
        obtain ⟨p, b⟩ := g
        obtain ⟨hgbb, hgbrest⟩ := gb_clauses_cons hgbc
        simp only [evalClausesGo] at h
        rw [unbindS_eq] at h
        simp only at h
        cases ha : evalF (n + 1) (c + p.binders.length) a with
        | none => rw [ha] at h; cases h
        | some ra =>
          obtain ⟨w, c₂ₐ⟩ := ra
          rw [ha] at h
          simp only at h
          obtain ⟨hc₂, hgbw⟩ := eval_gb_preserve (n + 1) _ a w c₂ₐ
            (genBelowB_mono (by omega) hgba) ha
          cases hm : matchE (renameP (freshVars c p.binders.length) p).1 w with
          | none =>
            rw [hm] at h
            exact ihcl c₂ₐ (genBelowB_mono (by omega) hgba)
              (gbClauses_mono (by omega) hgbrest) h
          | some ms =>
            rw [hm] at h
            simp only at h
            obtain ⟨ws, hmv, hwlen, hzip, hkeys, hsub⟩ :=
              unbind_match_subst c p b w ms (genBelowB_mono (by omega) hgbb) hm
            rw [hsub] at h
            cases hb : evalF (n + 1) c₂ₐ (instE 0 ws b) with
            | none => rw [hb] at h; cases h
            | some rb =>
              obtain ⟨rb', c₃⟩ := rb
              rw [hb] at h
              simp only [Option.some.injEq, Prod.mk.injEq] at h
              obtain ⟨hrb, -⟩ := h
              subst hrb
              have hgbws : ∀ w' ∈ ws, genBelowB c₂ₐ w' = true := by
                intro w' hw'
                have : ∃ m' ∈ ms, m'.2 = w' := by
                  subst hzip
                  refine List.mem_map.mp ?_
                  rw [List.map_snd_zip _ _ (by rw [freshVars_length]; omega)]
                  exact hw'
                obtain ⟨m', hmem, hm2⟩ := this
                rw [← hm2]
                exact gb_match_values c₂ₐ _ w ms hm hgbw m' hmem
              exact hmain c₂ₐ (instE 0 ws b) rb' c₃
                (gb_inst c₂ₐ ws b (genBelowB_mono (by omega) hgbb) hgbws) hb

/-! ### Free variables of `close`, and the final C3 / C4 theorems -/

mutual

theorem fvarsE_close : ∀ (e : Expr) (d : Nat) (vs : List FreeVar) (x : FreeVar),
    x ∈ fvarsE (closeE d vs e) → x ∈ fvarsE e
  | .ann e t, d, vs, x => fun h => fvarsE_close e d vs x h
  | .lit l, _, _, _ => fun h => by cases h
  | .var (.free fv), d, vs, x => fun h => by
    simp only [closeE] at h
    split at h
    · simp [fvarsE] at h
    · exact h
  | .var (.bound d' i), d, vs, x => fun h => h
  | .lam p b, d, vs, x => fun h => fvarsE_close b (d + 1) vs x h
  | .app f a, d, vs, x => fun h => by
    simp only [closeE, fvarsE, List.mem_append] at h ⊢
    rcases h with h | h
    · exact .inl (fvarsE_close f d vs x h)
    · exact .inr (fvarsE_close a d vs x h)
  | .record fs, d, vs, x => fun h => fvarsFields_close fs d vs x h
  | .proj e l, d, vs, x => fun h => fvarsE_close e d vs x h
  | .tag l e, d, vs, x => fun h => fvarsE_close e d vs x h
  | .case' s cls, d, vs, x => fun h => by
    simp only [closeE, fvarsE, List.mem_append] at h ⊢
    rcases h with h | h
    · exact .inl (fvarsE_close s d vs x h)
    · exact .inr (fvarsClauses_close cls d vs x h)

theorem fvarsFields_close : ∀ (fs : List (String × Expr)) (d : Nat) (vs : List FreeVar)
    (x : FreeVar), x ∈ fvarsFields (closeFields d vs fs) → x ∈ fvarsFields fs
  | [], _, _, _ => fun h => by cases h
  | (l, e) :: fs, d, vs, x => fun h => by
    simp only [closeFields, fvarsFields, List.mem_append] at h ⊢
    rcases h with h | h
    · exact .inl (fvarsE_close e d vs x h)
    · exact .inr (fvarsFields_close fs d vs x h)

theorem fvarsClauses_close : ∀ (cls : List (Pattern × Expr)) (d : Nat) (vs : List FreeVar)
    (x : FreeVar), x ∈ fvarsClauses (closeClauses d vs cls) → x ∈ fvarsClauses cls
  | [], _, _, _ => fun h => by cases h
  | (p, b) :: cls, d, vs, x => fun h => by
    simp only [closeClauses, fvarsClauses, List.mem_append] at h ⊢
    rcases h with h | h
    · exact .inl (fvarsE_close b (d + 1) vs x h)
    · exact .inr (fvarsClauses_close cls d vs x h)

end

/-- Hygiene is preserved by closing a scope body. -/
theorem gb_closeE {c d : Nat} {vs : List FreeVar} {e : Expr}
    (h : genBelowB c e = true) : genBelowB c (closeE d vs e) = true := by
  rw [genBelowB_iff] at h ⊢
  intro x hx
  exact h x (fvarsE_close e d vs x hx)

/-- C3: `eval` is idempotent on its own output.  If evaluation of `e` from a
hygienic allocator state terminates with result `r` and counter `d`, then
re-evaluating `r` (from the post-run allocator state `d`, as a client
calling `eval` again would) terminates and yields a result alpha-equivalent
to `r` — in fact syntactically equal to `r`. -/
theorem eval_idempotent (n c : Nat) (e r : Expr) (d : Nat)
    (hgb : genBelowB c e = true) (h : evalF n c e = some (r, d)) :
    ∃ r₂ d₂, evalF n d r = some (r₂, d₂) ∧ aeq r r₂ = true := by
  obtain ⟨hcd, hgbr⟩ := eval_gb_preserve n c e r d hgb h
  obtain ⟨d₂, h₂⟩ := (eval_self n).1 c e r d hgb h d hgbr
  exact ⟨r, d₂, h₂, aeq_refl r⟩

/-- Witness instantiating `eval_idempotent` on `(1 : Int)` annotated. -/
theorem eval_idempotent_witness :
    genBelowB 0 (Expr.ann (.lit (.int 1)) .int) = true ∧
    evalF 2 0 (Expr.ann (.lit (.int 1)) .int) = some (.lit (.int 1), 0) ∧
    ∃ r₂ d₂, evalF 2 0 (Expr.lit (.int 1)) = some (r₂, d₂) ∧
      aeq (.lit (.int 1)) r₂ = true :=
  ⟨rfl, rfl, eval_idempotent 2 0 (.ann (.lit (.int 1)) .int) (.lit (.int 1)) 0 rfl rfl⟩

/-- C4 counterexample: with `x` free in `body = App(1, x)` and the argument
`v = Ann(2, Int)`, the application evaluates its argument to `2` before
substituting, while `substs(body, [(x, v)])` keeps the unevaluated `Ann`;
the two stuck results are not alpha-equivalent. -/
theorem app_lam_subst_counterexample :
    evalF 9 0 (.app
        (.lam (bindScope (.binder (.user "x"))
            (.app (.lit (.int 1)) (.var (.free (.user "x"))))).1
          (bindScope (.binder (.user "x"))
            (.app (.lit (.int 1)) (.var (.free (.user "x"))))).2)
        (.ann (.lit (.int 2)) .int))
      = some (.app (.lit (.int 1)) (.lit (.int 2)), 1) ∧
    evalF 9 0 (substsE [(.user "x", .ann (.lit (.int 2)) .int)]
        (.app (.lit (.int 1)) (.var (.free (.user "x")))))
      = some (.app (.lit (.int 1)) (.ann (.lit (.int 2)) .int), 0) ∧
    aeq (.app (.lit (.int 1)) (.lit (.int 2)))
        (.app (.lit (.int 1)) (.ann (.lit (.int 2)) .int)) = false :=
  ⟨rfl, rfl, rfl⟩

/-- C4 (amended): applying a bare-binder lambda `Lam(bind(Binder x, body))`
to `v` evaluates exactly like substituting the *value* `w` of `v` for `x`
in `body` and evaluating, under well-scopedness of `body` and the allocator
hygiene invariant. -/
theorem app_lam_substs_eval (n c : Nat) (x : FreeVar) (body v w r : Expr) (cv d : Nat)
    (hlc : lcAtB [] body = true) (hgbb : genBelowB c body = true)
    (hv : evalF n (c + 1) v = some (w, cv))
    (hb : evalF n cv (substsE [(x, w)] body) = some (r, d)) :
    evalF (n + 1) c
      (.app (.lam (bindScope (.binder x) body).1 (bindScope (.binder x) body).2) v) =
      some (r, d) := by
  cases n with
  | zero => simp [evalF] at hv
  | succ m =>
    have hnotin : ∀ u ∈ [FreeVar.gen c], u ∉ fvarsE (closeE 0 [x] body) := by
      intro u hu hmem
      simp only [List.mem_singleton] at hu
      subst hu
      have hcb : genBelowB c (closeE 0 [x] body) = true := gb_closeE hgbb
      have := genBelowB_iff.mp hcb _ hmem
      simp only [FreeVar.below, decide_eq_true_eq] at this
      omega
    have h1 := substs_open_inst (closeE 0 [x] body) 0 [.gen c] [w] (by simp) hnotin rfl
    have h2 := inst_close_substs body [] [x] [w] hlc rfl
    rw [evalF_succ]
    simp only [bindScope, evalStep]
    rw [show evalF (m + 1) c
        (Expr.lam (.binder x) (closeE 0 (Pattern.binders (.binder x)) body)) =
        some (Expr.lam (.binder x) (closeE 0 (Pattern.binders (.binder x)) body), c)
      from rfl]
    simp only
    rw [unbindS_eq]
    simp only
    rw [show evalF (m + 1) (c + (Pattern.binders (.binder x)).length) v =
        some (w, cv) from hv]
    simp only
    rw [unbind_match_some c (.binder x) w [w] rfl]
    simp only
    rw [show substsE ((freshVars c (Pattern.binders (.binder x)).length).zip [w])
        (openE 0 (freshVars c (Pattern.binders (.binder x)).length)
          (closeE 0 (Pattern.binders (.binder x)) body)) = substsE [(x, w)] body
      from h1.trans h2]
    exact hb

/-- Witness instantiating `app_lam_substs_eval` on the identity body. -/
theorem app_lam_substs_eval_witness :
    lcAtB [] (Expr.var (.free (.user "x"))) = true ∧
    genBelowB 0 (Expr.var (.free (.user "x"))) = true ∧
    evalF 1 1 (Expr.lit (.int 5)) = some (.lit (.int 5), 1) ∧
    evalF 1 1 (substsE [(FreeVar.user "x", Expr.lit (.int 5))]
      (Expr.var (.free (.user "x")))) = some (.lit (.int 5), 1) ∧
    evalF 2 0 (.app
        (.lam (bindScope (.binder (.user "x")) (Expr.var (.free (.user "x")))).1
          (bindScope (.binder (.user "x")) (Expr.var (.free (.user "x")))).2)
        (.lit (.int 5))) = some (.lit (.int 5), 1) :=
  ⟨rfl, rfl, rfl, rfl,
    app_lam_substs_eval 1 0 (.user "x") (.var (.free (.user "x")))
      (.lit (.int 5)) (.lit (.int 5)) (.lit (.int 5)) 1 1 rfl rfl rfl rfl⟩

/-- Witness instantiating `checker_bound_var_panics_only`: inference hits the
panic on a dangling bound variable, and succeeds totally on a closed literal. -/
theorem checker_bound_var_panics_only_witness :
    infer_expr 1 ctxEmpty (.var (.bound 0 0)) 0 = none ∧
    (lcAtB [] (Expr.lit (.int 1)) = true ∧ 2 * esize (Expr.lit (.int 1)) < 3 ∧
      infer_expr 3 ctxEmpty (.lit (.int 1)) 0 ≠ none) ∧
    (lcAtB [] (Expr.lit (.int 1)) = true ∧ 2 * esize (Expr.lit (.int 1)) + 1 < 4 ∧
      check_expr 4 ctxEmpty (.lit (.int 1)) .int 0 ≠ none) :=
  ⟨checker_bound_var_panics_only.1 0 ctxEmpty 0 0 0,
   ⟨rfl, by decide,
    checker_bound_var_panics_only.2.1 3 ctxEmpty (.lit (.int 1)) 0 rfl (by decide)⟩,
   ⟨rfl, by decide,
    checker_bound_var_panics_only.2.2 4 ctxEmpty (.lit (.int 1)) .int 0 rfl (by decide)⟩⟩

end Stlc
